import Mathlib

/-!
# iddecorator: path engine and patch builder

A shallow embedding of `iddecorator/src/jsonpath/jsonpath.go`,
`iddecorator/src/webhook.go` and `iddecorator/src/healthcheck/healthcheck.go`, and
theorems about what the code computes.

Go strings are Lean strings; a Go `(value, error)` result is a pair whose second
component is `none` for a nil error. Library code the program calls (the
Kubernetes JSONPath parser, `regexp`, `encoding/json`, the template comparison
helpers, `fmt`) is collected in the structure `Lib` and every definition that
reaches it takes a `Lib` as its first argument. `path.Join` and `path.Clean`
are given in full, since the shape of the emitted paths depends on them.
-/

set_option autoImplicit false

namespace Kube2Hadoop

/-! ## The `path` package -/

/-- The elements of a slash-separated path: `strings.Split(s, "/")` on characters. -/
def pathElems (s : List Char) : List (List Char) :=
  s.splitOn '/'

/-- One element consumed by the cleaning pass of `path.Clean`. The state is the number
of leading `..` elements that can no longer be removed (only grows for a path that is
not rooted) and the elements kept after them. An empty element and `.` are dropped;
`..` removes the last kept element when there is one, is dropped at the root of a
rooted path, and is kept in front otherwise; every other element is appended. -/
def cleanElem (rooted : Bool) (st : Nat × List (List Char)) (e : List Char) :
    Nat × List (List Char) :=
  if e = [] ∨ e = ['.'] then st
  else if e = ['.', '.'] then
    (if st.2 ≠ [] then (st.1, st.2.dropLast)
     else if rooted then st
     else (st.1 + 1, []))
  else (st.1, st.2 ++ [e])

/-- Go's `path.Clean` on the characters of the path, stated on the elements of the path:
the result is the kept elements joined by single slashes, after the leading slash of a
rooted path, and `.` when nothing is left of a path that is not rooted. -/
def cleanChars (p : List Char) : List Char :=
  if p = [] then ['.']
  else
    let rooted : Bool := p.head? = some '/'
    let st := (pathElems p).foldl (cleanElem rooted) (0, [])
    let body := ['/'].intercalate (List.replicate st.1 ['.', '.'] ++ st.2)
    if rooted then '/' :: body
    else if body = [] then ['.']
    else body

/-- Go's `path.Clean`. -/
def pathClean (p : String) : String :=
  String.mk (cleanChars p.data)

/-- Go's `path.Join`: the elements from the first non-empty one on are joined with
slashes and the result is cleaned; with no non-empty element the result is empty. -/
def pathJoin (elem : List String) : String :=
  match elem.dropWhile (fun e => e.data = []) with
  | [] => ""
  | rest => pathClean (String.mk (['/'].intercalate (rest.map String.data)))

/-- Go's conversion `string(i)` of an integer to a string: the UTF-8 text of code
point `i`, and U+FFFD for a value that is no code point. -/
def runeString (i : Nat) : String :=
  if i < 0xD800 ∨ (0xDFFF < i ∧ i < 0x110000) then String.singleton (Char.ofNat i)
  else String.singleton (Char.ofNat 0xFFFD)

/-- The bytes of the UTF-8 encoding of a string, which is what `len` and indexing of
a Go string see. -/
def utf8Bytes (s : String) : List Nat :=
  s.data.flatMap (fun c => (String.utf8EncodeChar c).map UInt8.toNat)


/-! ## Values and the parsed selector -/

/-- A Go value as the engine sees it through `reflect`. The first six constructors are
what `json.Unmarshal` stores in an `interface{}`: nil, `bool`, `float64` (kept as its
bit pattern, which the engine never reads), `string`, `[]interface{}` and
`map[string]interface{}`. The members of an `object` are listed in the order in which
`MapKeys` hands out the keys. `int` is the value of an integer node of the selector and
`uint8` is a byte obtained by indexing a string. -/
inductive Value where
  | null
  | bool (b : Bool)
  | number (bits : Nat)
  | string (s : String)
  | array (items : List Value)
  | object (members : List (String × Value))
  | int (i : Int)
  | uint8 (b : Nat)
deriving Inhabited

/-- The nodes of a parsed JSONPath template (`k8s.io/client-go/util/jsonpath`). `list`
holds the nodes of a `ListNode`, `filter` the nodes of its left and right lists and its
operator. The walk does not look inside `array`, `identifier`, `wildcard` and `union`. -/
inductive Node where
  | text (text : String)
  | array
  | list (nodes : List Node)
  | field (value : String)
  | identifier (name : String)
  | filter (left right : List Node) (operator : String)
  | int (value : Int)
  | float (bits : Nat)
  | wildcard
  | recursive
  | union
  | bool (value : Bool)
deriving Inhabited

/-- A Go error value: `none` is the nil error, `some msg` an error with that message. -/
abbrev GoError := Option String

/-- The record `patchOperation` of webhook.go; `Value` always holds the user name. -/
structure patchOperation where
  Op : String
  Path : String
  Value : String
deriving DecidableEq, Repr

/-- The library functions the program calls. `Parse` is `jsonpath.Parse(name, text)` and
returns the nodes of the root list; `compare op l r` is the template helper that
evaluates the filter operator `op`; `sprintValue` and `sprintNode` are the `%v` renderings
used in error messages; `MatchString` is `regexp.MatchString(pattern, s)`, an error
meaning that the pattern does not compile; `Unmarshal` is `json.Unmarshal` into an empty
interface and `Marshal` is `json.Marshal` of a patch. -/
structure Lib where
  Parse : String → String → Except String (List Node)
  compare : String → Value → Value → Except String Bool
  sprintValue : Value → String
  sprintNode : Node → String
  MatchString : String → String → Except String Bool
  Unmarshal : String → Except String Value
  Marshal : List patchOperation → Except String String

/-- The constant `Root` of jsonpath.go. -/
def Root : String := "/"

/-- The struct `JSONPath`; `parser` is nil (`none`) until `Parse` succeeds and holds the
nodes of the parser's root list afterwards. The logger and the unused `stack` are left
out. -/
structure JSONPath where
  name : String
  Paths : List String
  pathToFind : String
  children : List String
  parser : Option (List Node)
  cur : List Value
  beginRange : Int
  inRange : Int
  endRange : Int
  allowMissingKeys : Bool

/-- The function `New` creates a JSONPath with the given name. -/
def New (name : String) : JSONPath :=
  { name := name, Paths := [], pathToFind := "", children := [], parser := none, cur := [],
    beginRange := 0, inRange := 0, endRange := 0, allowMissingKeys := false }

/-- The function `AllowMissingKeys` sets the flag of the same name. -/
def AllowMissingKeys (j : JSONPath) (allow : Bool) : JSONPath :=
  { j with allowMissingKeys := allow }

/-- The function `Parse` stores the parsed template; on an error the parser stays nil. -/
def Parse (lib : Lib) (j : JSONPath) (text : String) : GoError × JSONPath :=
  match lib.Parse j.name text with
  | .ok nodes => (none, { j with parser := some nodes })
  | .error e => (some e, { j with parser := none })

/-- The function `FindPaths` returns the recorded paths. -/
def FindPaths (j : JSONPath) : List String :=
  j.Paths

/-- The field names of the field nodes that stand directly in a list node. -/
def listFields : List Node → List String
  | [] => []
  | .field v :: rest => v :: listFields rest
  | _ :: rest => listFields rest

/-- The field names `fieldToChildren` collects from the root nodes. -/
def rootFields : List Node → List String
  | [] => []
  | .list ns :: rest => listFields ns ++ rootFields rest
  | _ :: rest => rootFields rest

/-- The function `fieldToChildren` collects the field names of the template into `children`. -/
def fieldToChildren (j : JSONPath) : JSONPath :=
  match j.parser with
  | none => j
  | some nodes =>
    let children := rootFields nodes
    { j with pathToFind := pathJoin children, children := children }

/-! ## The path engine (jsonpath.go) -/

/-- The loop of `pathMatch`. The first argument is the number of iterations left, so the
loop variable `i` of the source is one less; `k` is the index into `pathSoFar`. An index
outside its slice is a run-time panic, reported as `none`. -/
def pathMatchLoop (children pathSoFar : List String) : Nat → Int → Option Bool
  | 0, _ => some true
  | i + 1, k =>
    match children[i]?, (if 0 ≤ k then pathSoFar[k.toNat]? else none) with
    | some c, some p =>
      if c ≠ p then some false else pathMatchLoop children pathSoFar i (k - 1)
    | _, _ => none

/-- The function `pathMatch` with the index checks of the Go run time: `none` is a panic. -/
def pathMatchChecked (j : JSONPath) (pathSoFar : List String) : Option Bool :=
  if pathSoFar.length < j.children.length then some false
  else pathMatchLoop j.children pathSoFar j.children.length ((pathSoFar.length : Int) - 1)

/-- The function `pathMatch`: does the stack of segments end with the field chain? The checked
version never panics (`pathMatchChecked_eq_some`), so nothing is lost here. -/
def pathMatch (j : JSONPath) (pathSoFar : List String) : Bool :=
  (pathMatchChecked j pathSoFar).getD false

/-- The call of `evalRecursive` on byte `i` of a string, and on the bytes after it: a
byte is of no kind that the function expands, so each call is the match test alone. -/
def evalRecursiveBytes (j : JSONPath) (pathSoFar : List String) :
    Nat → List Nat → List Value × JSONPath
  | _, [] => ([], j)
  | i, _ :: rest =>
    let childPath := pathSoFar ++ [runeString i]
    let j1 : JSONPath :=
      if pathMatch j childPath then { j with Paths := j.Paths ++ [pathJoin childPath] } else j
    evalRecursiveBytes j1 pathSoFar (i + 1) rest

mutual
/-- The function `evalRecursive` visits the value below the stack `pathSoFar`; the recorded paths are
appended to `j.Paths`. The struct branch is absent since no value modelled here is a
struct. -/
def evalRecursive (j : JSONPath) (pathSoFar : List String) (input : Value) :
    List Value × JSONPath :=
  if pathMatch j pathSoFar then
    ([], { j with Paths := j.Paths ++ [pathJoin pathSoFar] })
  else
    match input with
    | .null => ([], j)
    | .object members => evalRecursiveMap j pathSoFar [] members
    | .array items => evalRecursiveIndex j pathSoFar [] 0 items
    | .string s => evalRecursiveBytes j pathSoFar 0 (utf8Bytes s)
    | _ => ([], j)
termination_by structural input
/-- The loop of `evalRecursive` over the keys of a map. -/
def evalRecursiveMap (j : JSONPath) (pathSoFar : List String) (result : List Value)
    (members : List (String × Value)) : List Value × JSONPath :=
  match members with
  | [] => (result, j)
  | (key, childVal) :: rest =>
    let r := evalRecursive j (pathSoFar ++ [key]) childVal
    evalRecursiveMap r.2 pathSoFar (result ++ r.1) rest
termination_by structural members
/-- The loop of `evalRecursive` over the elements of an array or slice, from index `i`. -/
def evalRecursiveIndex (j : JSONPath) (pathSoFar : List String) (result : List Value)
    (i : Nat) (items : List Value) : List Value × JSONPath :=
  match items with
  | [] => (result, j)
  | childVal :: rest =>
    let r := evalRecursive j (pathSoFar ++ [runeString i]) childVal
    evalRecursiveIndex r.2 pathSoFar (result ++ r.1) (i + 1) rest
termination_by structural items
end

/-- The function `evalRecursiveLoop` starts `evalRecursive` at the root for each input value. -/
def evalRecursiveLoop (j : JSONPath) (input : List Value) (result : List Value) :
    List Value × JSONPath :=
  match input with
  | [] => (result, j)
  | value :: rest =>
    let r := evalRecursive j [Root] value
    evalRecursiveLoop r.2 rest (result ++ r.1)

/-- The call `MapIndex`: the value stored under a key, if any. -/
def mapIndex (members : List (String × Value)) (key : String) : Option Value :=
  (members.find? (fun m => m.1 = key)).map (fun m => m.2)

/-- The function `evalField` evaluates a field of the input values: only maps have fields here. -/
def evalField (j : JSONPath) (input : List Value) (value : String) :
    List Value × GoError :=
  if input.length = 0 then ([], none)
  else
    let results := input.filterMap (fun v =>
      match v with
      | .object members => mapIndex members value
      | _ => none)
    if results.length = 0 then
      (if j.allowMissingKeys then (results, none)
       else (results, some (value ++ " is not found")))
    else (results, none)

/-- The result of one round of a loop of `evalFilter`: go on with the results collected
so far, or return from the function. -/
inductive FilterFlow where
  | next (results : List Value)
  | ret (out : List Value × GoError)

/-- The body of the inner loop of `evalFilter` for one element of an array; `evalLeft`
and `evalRight` evaluate the left and right list of the filter node. -/
def filterElem (lib : Lib) (evalLeft evalRight : JSONPath → List Value →
    (List Value × GoError) × JSONPath) (operator : String) (input : List Value)
    (j : JSONPath) (results : List Value) (elem : Value) : FilterFlow × JSONPath :=
  let l := evalLeft j [elem]
  if operator = "exists" then
    (if l.1.1.length > 0 then (.next (results ++ [elem]), l.2) else (.next results, l.2))
  else
    match l.1.2 with
    | some err => (.ret (input, some err), l.2)
    | none =>
      match l.1.1 with
      | [] => (.next results, l.2)
      | _ :: _ :: _ => (.ret (input, some "can only compare one element at a time"), l.2)
      | [left] =>
        let r := evalRight l.2 [elem]
        match r.1.2 with
        | some err => (.ret (input, some err), r.2)
        | none =>
          match r.1.1 with
          | [] => (.next results, r.2)
          | _ :: _ :: _ =>
            (.ret (input, some "can only compare one element at a time"), r.2)
          | [right] =>
            if operator = "<" ∨ operator = ">" ∨ operator = "==" ∨ operator = "!=" ∨
                operator = "<=" ∨ operator = ">=" then
              match lib.compare operator left right with
              | .error err => (.ret (results, some err), r.2)
              | .ok pass => (if pass then (.next (results ++ [elem]), r.2)
                             else (.next results, r.2))
            else (.ret (results, some ("unrecognized filter operator " ++ operator)), r.2)

/-- The inner loop of `evalFilter` over the elements of one array. -/
def filterElems (lib : Lib) (evalLeft evalRight : JSONPath → List Value →
    (List Value × GoError) × JSONPath) (operator : String) (input : List Value) :
    JSONPath → List Value → List Value → FilterFlow × JSONPath
  | j, results, [] => (.next results, j)
  | j, results, elem :: rest =>
    match filterElem lib evalLeft evalRight operator input j results elem with
    | (.next results1, j1) => filterElems lib evalLeft evalRight operator input j1 results1 rest
    | (.ret out, j1) => (.ret out, j1)

/-- The outer loop of `evalFilter` over the input values. -/
def filterValues (lib : Lib) (evalLeft evalRight : JSONPath → List Value →
    (List Value × GoError) × JSONPath) (operator : String) (input : List Value) :
    JSONPath → List Value → List Value → (List Value × GoError) × JSONPath
  | j, results, [] => ((results, none), j)
  | j, results, value :: rest =>
    match value with
    | .array items =>
      (match filterElems lib evalLeft evalRight operator input j results items with
       | (.next results1, j1) =>
         filterValues lib evalLeft evalRight operator input j1 results1 rest
       | (.ret out, j1) => (out, j1))
    | _ =>
      ((input, some (lib.sprintValue value ++
        " is not array or slice and cannot be filtered")), j)

mutual
/-- The function `walk` visits the tree rooted at the given node. The filter case is `evalFilter`. -/
def walk (lib : Lib) (j : JSONPath) (value : List Value) (node : Node) :
    (List Value × GoError) × JSONPath :=
  match node with
  | .list nodes => evalList lib j value nodes
  | .text text => (([Value.string text], none), j)
  | .field v => (evalField j value v, j)
  | .filter left right operator =>
    filterValues lib (fun j1 v => evalList lib j1 v left) (fun j1 v => evalList lib j1 v right)
      operator value j [] value
  | .int v => ((value.map (fun _ => Value.int v), none), j)
  | .bool v => ((value.map (fun _ => Value.bool v), none), j)
  | .float v => ((value.map (fun _ => Value.number v), none), j)
  | .recursive =>
    let r := evalRecursiveLoop j value []
    ((r.1, none), r.2)
  | .array => ((value, some ("unexpected Node " ++ lib.sprintNode .array)), j)
  | .identifier name =>
    ((value, some ("unexpected Node " ++ lib.sprintNode (.identifier name))), j)
  | .wildcard => ((value, some ("unexpected Node " ++ lib.sprintNode .wildcard)), j)
  | .union => ((value, some ("unexpected Node " ++ lib.sprintNode .union)), j)
termination_by structural node
/-- The function `evalList` evaluates the nodes of a list node one after the other. -/
def evalList (lib : Lib) (j : JSONPath) (value : List Value) (nodes : List Node) :
    (List Value × GoError) × JSONPath :=
  match nodes with
  | [] => ((value, none), j)
  | node :: rest =>
    match walk lib j value node with
    | ((curValue, some err), j1) => ((curValue, some err), j1)
    | ((curValue, none), j1) => evalList lib j1 curValue rest
termination_by structural nodes
end

/-- The function `evalFilter` filters arrays according to a filter node. -/
def evalFilter (lib : Lib) (j : JSONPath) (input : List Value) (left right : List Node)
    (operator : String) : (List Value × GoError) × JSONPath :=
  walk lib j input (.filter left right operator)

/-- The loop of `FindResults` over the root nodes. -/
def findResultsLoop (lib : Lib) :
    JSONPath → List (List Value) → List Node → (List (List Value) × GoError) × JSONPath
  | j, fullResult, [] => ((fullResult, none), j)
  | j, fullResult, node :: rest =>
    match walk lib j j.cur node with
    | ((_, some err), j1) => (([], some err), j1)
    | ((results, none), j1) =>
      if j1.endRange > 0 ∧ j1.endRange ≤ j1.inRange then
        ((fullResult, none), { j1 with endRange := j1.endRange - 1 })
      else findResultsLoop lib j1 (fullResult ++ [results]) rest

/-- The function `FindResults` finds results by walking down the value. -/
def FindResults (lib : Lib) (j : JSONPath) (data : Value) :
    (List (List Value) × GoError) × JSONPath :=
  match j.parser with
  | none => (([], some (j.name ++ " is an incomplete jsonpath template")), j)
  | some nodes =>
    let j1 := fieldToChildren j
    let j2 : JSONPath := { j1 with cur := [data] }
    findResultsLoop lib j2 [] nodes

/-! ## The patch builder and the dispatcher (webhook.go, utils.go) -/

/-- The struct `Config` of utils.go. -/
structure Config where
  Paths : List String
  NeverOverwriteAccounts : List String
deriving DecidableEq, Repr

/-- The struct `ConfigMap` of utils.go; a Go map is a partial function on its keys. -/
structure ConfigMap where
  Configs : String → Option Config

/-- The constant `UserAnnotation`. -/
def UserAnnotation : String := "iddecorator.username"

/-- The constant `AllTypes`. -/
def AllTypes : String := "alltypes"

/-- The counters of `MonitoringMetrics` (metrics.go) that `ServeHTTP` touches; each field
is the number of calls of `Inc` on the counter. -/
structure MonitoringMetrics where
  BadRequestErrorCounts : Nat := 0
  InvalidContentTypeErrorCounts : Nat := 0
  DecodeErrorCounts : Nat := 0
  EncodeErrorCounts : Nat := 0
  ResponseWriteErrorCounts : Nat := 0
  SuccessCounts : Nat := 0
deriving DecidableEq, Repr

/-- The struct `WebhookServer`, without its logger. -/
structure WebhookServer where
  configMap : ConfigMap
  userAnnotationKey : String
  unmarshalledReq : Value
  monitoring : MonitoringMetrics := {}

/-- The part of `GroupVersionResource` that is read. -/
structure GroupVersionResource where
  Resource : String
deriving DecidableEq, Repr

/-- The part of `UserInfo` that is read. -/
structure UserInfo where
  Username : String
deriving DecidableEq, Repr

/-- The struct `RawExtension`: the bytes of the object. -/
structure RawExtension where
  Raw : String
deriving DecidableEq, Repr

/-- The fields of `AdmissionRequest` that are read. -/
structure AdmissionRequest where
  UID : String
  Resource : GroupVersionResource
  UserInfo : UserInfo
  Object : RawExtension
deriving DecidableEq, Repr

/-- The struct `metav1.Status`, of which only the message is set. -/
structure Status where
  Message : String
deriving DecidableEq, Repr

/-- The patch types of the admission API; only `JSONPatch` exists. -/
inductive PatchType where
  | JSONPatch
deriving DecidableEq, Repr

/-- The struct `AdmissionResponse`; a field that the code leaves out has its zero value. -/
structure AdmissionResponse where
  UID : String
  Allowed : Bool
  Result : Option Status
  Patch : Option String
  PatchType : Option PatchType
deriving DecidableEq, Repr

/-- The struct `AdmissionReview`; `Request` and `Response` are pointers and may be nil. -/
structure AdmissionReview where
  Request : Option AdmissionRequest
  Response : Option AdmissionResponse := none
deriving DecidableEq, Repr

/-- The library functions that `ServeHTTP` calls. `Decode` is `deserializer.Decode` into
an empty review: it returns the review as the call leaves it and the error; `MarshalReview`
is `json.Marshal` of the review sent back. -/
structure Codec where
  Decode : String → AdmissionReview × GoError
  MarshalReview : AdmissionReview → Except String String

/-- What the handlers read of a request: the outcome of `ioutil.ReadAll` on its body
(`none` for a nil body) and the value of its `Content-Type` header, which `ServeHTTP`
reads, and its method and the value of the parameter `full` of its query, which the health
endpoints read. -/
structure HttpRequest where
  Body : Option (Except String String)
  ContentType : String
  Method : String := "POST"
  Full : String := ""

/-- The state of an `http.ResponseWriter`: the status code sent (`none` as long as the
header is not written), the body written, and the error with which a write of data on
this connection fails (`none` for a connection that takes everything). -/
structure ResponseWriter where
  status : Option Nat
  body : String
  writeError : GoError
deriving DecidableEq, Repr

/-- The function `parseJSONPath` evaluates a template on a fresh JSONPath and returns its paths. -/
def parseJSONPath (lib : Lib) (input : Value) (name template : String) :
    List String × GoError :=
  let j := AllowMissingKeys (New name) true
  match Parse lib j template with
  | (some err, _) => ([], some err)
  | (none, j1) =>
    match FindResults lib j1 input with
    | ((_, some err), _) => ([], some err)
    | ((_, none), j2) => (FindPaths j2, none)

/-- The function `patchOp` builds an `add` operation. -/
def patchOp (path : String) (value : String) : patchOperation :=
  { Op := "add", Path := path, Value := value }

/-- Go's `\s`: tab, line feed, form feed, carriage return and space. -/
def isRegexpSpace (c : Char) : Bool :=
  c = '\t' ∨ c = '\n' ∨ c = Char.ofNat 12 ∨ c = '\r' ∨ c = ' '

/-- The call `StartsWithRecursive.MatchString`, for the pattern `^\.\.\S+`: the match starts at the
beginning of the text and need not reach its end. -/
def StartsWithRecursive (s : String) : Bool :=
  match s.data with
  | '.' :: '.' :: c :: _ => !isRegexpSpace c
  | _ => false

/-- The error of `getPaths` for a text that does not pass `StartsWithRecursive`. -/
def recursiveError (jPath : String) : String :=
  "path Pattern \x27" ++ jPath ++ "\x27 must start with recursive \x27..\x27"

/-- The function `getPaths` queries the stored document with one selector text. -/
def getPaths (lib : Lib) (whsvr : WebhookServer) (jPath : String) : List String × GoError :=
  if !StartsWithRecursive jPath then ([], some (recursiveError jPath))
  else
    let jsPath := "\x7b" ++ jPath ++ "\x7d"
    parseJSONPath lib whsvr.unmarshalledReq whsvr.userAnnotationKey jsPath

/-- The function `mustGetPaths` drops the error. -/
def mustGetPaths (lib : Lib) (whsvr : WebhookServer) (jPath : String) : List String :=
  match getPaths lib whsvr jPath with
  | (_, some _) => []
  | (paths, none) => paths

/-- The function `updateAnnotations` builds the operations for one selector text. The argument is the
request that `ar.Request` points to. -/
def updateAnnotations (lib : Lib) (whsvr : WebhookServer) (jPath : String)
    (req : AdmissionRequest) : List patchOperation × GoError :=
  match getPaths lib whsvr jPath with
  | (paths, none) =>
    (paths.map (fun fpath =>
      patchOp (pathJoin [fpath, whsvr.userAnnotationKey]) req.UserInfo.Username), none)
  | (_, some err) => ([], some err)

/-- The function `mustUpdateAnnotations` drops the error. -/
def mustUpdateAnnotations (lib : Lib) (whsvr : WebhookServer) (jPath : String)
    (req : AdmissionRequest) : List patchOperation :=
  match updateAnnotations lib whsvr jPath req with
  | (_, some _) => []
  | (patch, none) => patch

/-- The first loop of `createPatch`: does a never-overwrite pattern match the user name?
A pattern that does not compile is logged and skipped. -/
def neverOverwrite (lib : Lib) (username : String) : List String → Bool
  | [] => false
  | neverOverwriteAccount :: rest =>
    match lib.MatchString neverOverwriteAccount username with
    | .ok true => true
    | .ok false => neverOverwrite lib username rest
    | .error _ => neverOverwrite lib username rest

/-- The second loop of `createPatch`, over the selector texts of the entry. -/
def createPatchLoop (lib : Lib) (whsvr : WebhookServer) (req : AdmissionRequest) :
    List patchOperation → List String → List patchOperation × GoError
  | patch, [] => (patch, none)
  | patch, jPath :: rest =>
    match updateAnnotations lib whsvr jPath req with
    | (newPatch, none) => createPatchLoop lib whsvr req (patch ++ newPatch) rest
    | (_, some err) => (patch, some err)

/-- The entry `createPatch` works with: that of the resource, else that of `alltypes`,
else the zero value. -/
def resolveConfig (configMap : ConfigMap) (resource : String) : Config :=
  match configMap.Configs resource with
  | some config => config
  | none => (configMap.Configs AllTypes).getD { Paths := [], NeverOverwriteAccounts := [] }

/-- The function `createPatch` builds the patch of a request. The argument is the request that
`ar.Request` points to. -/
def createPatch (lib : Lib) (whsvr : WebhookServer) (req : AdmissionRequest) :
    List patchOperation × GoError :=
  let config := resolveConfig whsvr.configMap req.Resource.Resource
  let username := req.UserInfo.Username
  if neverOverwrite lib username config.NeverOverwriteAccounts then ([], none)
  else createPatchLoop lib whsvr req [] config.Paths

/-- The function `mustCreatePatch` drops the error, and the patch with it. -/
def mustCreatePatch (lib : Lib) (whsvr : WebhookServer) (req : AdmissionRequest) :
    List patchOperation :=
  match createPatch lib whsvr req with
  | (_, some _) => []
  | (patch, none) => patch

/-- The function `mutate`, the main mutation process. The result is `none` when `ar.Request` is nil,
where the Go code stops with a nil dereference; otherwise it is the response and the
server with the decoded object stored in it. The error of `createPatch` is overwritten by
that of `json.Marshal` before it is read. -/
def mutate (lib : Lib) (whsvr : WebhookServer) (ar : AdmissionReview) :
    Option (AdmissionResponse × WebhookServer) :=
  match ar.Request with
  | none => none
  | some req =>
    match lib.Unmarshal req.Object.Raw with
    | .error err =>
      some ({ UID := "", Allowed := false, Result := some { Message := err },
              Patch := none, PatchType := none }, whsvr)
    | .ok doc =>
      let whsvr1 : WebhookServer := { whsvr with unmarshalledReq := doc }
      let patches := (createPatch lib whsvr1 req).1
      match lib.Marshal patches with
      | .error err =>
        some ({ UID := "", Allowed := false, Result := some { Message := err },
                Patch := none, PatchType := none }, whsvr1)
      | .ok patchBytes =>
        some ({ UID := "", Allowed := true, Result := none, Patch := some patchBytes,
                PatchType := some PatchType.JSONPatch }, whsvr1)

/-- The method `WriteHeader`: the first status code written is the one sent. -/
def writeHeader (w : ResponseWriter) (code : Nat) : ResponseWriter :=
  match w.status with
  | some _ => w
  | none => { w with status := some code }

/-- The method `Write`: the header goes out with status 200 if none was written, a write
of no data succeeds, and a write of data fails with the error of the connection or
appends the data. -/
def writeBody (w : ResponseWriter) (data : String) : GoError × ResponseWriter :=
  let w1 := writeHeader w 200
  if data = "" then (none, w1)
  else
    match w1.writeError with
    | some err => (some err, w1)
    | none => (none, { w1 with body := w1.body ++ data })

/-- The function `http.Error`: it writes the status code and the message followed by a
line feed, and ignores the outcome of the write. -/
def httpError (w : ResponseWriter) (error : String) (code : Nat) : ResponseWriter :=
  (writeBody (writeHeader w code) (error ++ "\n")).2

/-- The part of `ServeHTTP` that decodes the body and builds the review to send back. The
result is `none` when `mutate` stops with a nil dereference. -/
def answerReview (lib : Lib) (codec : Codec) (whsvr : WebhookServer) (body : String) :
    Option (AdmissionReview × WebhookServer) :=
  let ar := (codec.Decode body).1
  let answered : Option (AdmissionResponse × WebhookServer) :=
    match (codec.Decode body).2 with
    | some err =>
      some ({ UID := "", Allowed := false, Result := some { Message := err },
              Patch := none, PatchType := none },
            { whsvr with monitoring :=
                { whsvr.monitoring with
                  DecodeErrorCounts := whsvr.monitoring.DecodeErrorCounts + 1 } })
    | none => mutate lib whsvr ar
  match answered with
  | none => none
  | some (admissionResponse, whsvr1) =>
    match ar.Request with
    | some req =>
      some ({ Request := none, Response := some { admissionResponse with UID := req.UID } },
            whsvr1)
    | none => some ({ Request := none, Response := some admissionResponse }, whsvr1)

/-- The end of `ServeHTTP`: the review is encoded and written, and the counters are
pushed. Neither failure ends the function. -/
def writeReview (codec : Codec) (whsvr : WebhookServer) (w : ResponseWriter)
    (admissionReview : AdmissionReview) : ResponseWriter × WebhookServer :=
  let encoded : String × ResponseWriter × WebhookServer :=
    match codec.MarshalReview admissionReview with
    | .error err =>
      ("", httpError w ("could not encode response: " ++ err) 500,
        { whsvr with monitoring :=
            { whsvr.monitoring with
              EncodeErrorCounts := whsvr.monitoring.EncodeErrorCounts + 1 } })
    | .ok resp => (resp, w, whsvr)
  let written := writeBody encoded.2.1 encoded.1
  let whsvr1 := encoded.2.2
  let failed : ResponseWriter × WebhookServer :=
    match written.1 with
    | some err =>
      (httpError written.2 ("could not write response: " ++ err) 500,
        { whsvr1 with monitoring :=
            { whsvr1.monitoring with
              ResponseWriteErrorCounts := whsvr1.monitoring.ResponseWriteErrorCounts + 1 } })
    | none => (written.2, whsvr1)
  (failed.1,
    { failed.2 with monitoring :=
        { failed.2.monitoring with SuccessCounts := failed.2.monitoring.SuccessCounts + 1 } })

/-- The body that `ServeHTTP` works with: the bytes read, and no bytes for a nil body
and for a body that cannot be read. -/
def readBody (r : HttpRequest) : String :=
  match r.Body with
  | some (.ok data) => data
  | _ => ""

/-- The method `ServeHTTP` of the webhook server. The result is the writer and the server
after the call, and `none` when the call stops with a nil dereference in `mutate`. -/
def ServeHTTP (lib : Lib) (codec : Codec) (whsvr : WebhookServer) (w : ResponseWriter)
    (r : HttpRequest) : Option (ResponseWriter × WebhookServer) :=
  let body := readBody r
  if body = "" then
    some (httpError w "empty body" 400,
      { whsvr with monitoring :=
          { whsvr.monitoring with
            BadRequestErrorCounts := whsvr.monitoring.BadRequestErrorCounts + 1 } })
  else if r.ContentType ≠ "application/json" then
    some (httpError w "invalid Content-Type, expect `application/json`" 415,
      { whsvr with monitoring :=
          { whsvr.monitoring with
            InvalidContentTypeErrorCounts :=
              whsvr.monitoring.InvalidContentTypeErrorCounts + 1 } })
  else
    match answerReview lib codec whsvr body with
    | none => none
    | some (admissionReview, whsvr1) => some (writeReview codec whsvr1 w admissionReview)

/-! ## The health endpoints (healthcheck.go) -/

/-- The type `Check`, a `func() error`: the error that the call of the check returns
while a request is handled, `none` for nil. -/
abbrev Check := Unit → GoError

/-- The struct `basicHandler`: its two maps, each as the list of its entries in the order
in which `range` enumerates them. The multiplexer and the mutex are left out. -/
structure basicHandler where
  livenessChecks : List (String × Check)
  readinessChecks : List (String × Check)

/-- The assignment `m[name] = value` on a Go map: the entry of the key is replaced, or a
new entry is made. -/
def mapAssign {α : Type} : List (String × α) → String → α → List (String × α)
  | [], name, value => [(name, value)]
  | (k, x) :: rest, name, value =>
    if k = name then (name, value) :: rest else (k, x) :: mapAssign rest name value

/-- The function `NewHandler`: a handler without checks. -/
def NewHandler : basicHandler :=
  { livenessChecks := [], readinessChecks := [] }

/-- The method `AddLivenessCheck`. -/
def AddLivenessCheck (s : basicHandler) (name : String) (check : Check) : basicHandler :=
  { s with livenessChecks := mapAssign s.livenessChecks name check }

/-- The method `AddReadinessCheck`. -/
def AddReadinessCheck (s : basicHandler) (name : String) (check : Check) : basicHandler :=
  { s with readinessChecks := mapAssign s.readinessChecks name check }

/-- The constant `http.StatusOK`. -/
def StatusOK : Nat := 200

/-- The constant `http.StatusServiceUnavailable`. -/
def StatusServiceUnavailable : Nat := 503

/-- The constant `http.StatusMethodNotAllowed`. -/
def StatusMethodNotAllowed : Nat := 405

/-- The method `collectChecks`: every check of the map is called once; an error sets the
status and is stored under the name of the check, and `OK` is stored otherwise. -/
def collectChecks : List (String × Check) → List (String × String) → Nat →
    List (String × String) × Nat
  | [], resultsOut, statusOut => (resultsOut, statusOut)
  | (name, check) :: rest, resultsOut, statusOut =>
    match check () with
    | some err =>
      collectChecks rest (mapAssign resultsOut name err) StatusServiceUnavailable
    | none => collectChecks rest (mapAssign resultsOut name "OK") statusOut

/-- The loop of `handle` over the maps it is given. -/
def collectAll : List (List (String × Check)) → List (String × String) → Nat →
    List (String × String) × Nat
  | [], checkResults, status => (checkResults, status)
  | checks :: rest, checkResults, status =>
    let r := collectChecks checks checkResults status
    collectAll rest r.1 r.2

/-- The method `handle`; `encode` is the indented encoding of the results by
`json.Encoder`, whose errors are ignored. -/
def handle (encode : List (String × String) → String) (w : ResponseWriter) (r : HttpRequest)
    (checks : List (List (String × Check))) : ResponseWriter :=
  if r.Method ≠ "GET" then httpError w "method not allowed" StatusMethodNotAllowed
  else
    let collected := collectAll checks [] StatusOK
    let w1 := writeHeader w collected.2
    if r.Full ≠ "1" then (writeBody w1 "\x7b\x7d\n").2
    else (writeBody w1 (encode collected.1)).2

/-- The method `LiveEndpoint`. -/
def LiveEndpoint (encode : List (String × String) → String) (s : basicHandler)
    (w : ResponseWriter) (r : HttpRequest) : ResponseWriter :=
  handle encode w r [s.livenessChecks]

/-- The method `ReadyEndpoint`. -/
def ReadyEndpoint (encode : List (String × String) → String) (s : basicHandler)
    (w : ResponseWriter) (r : HttpRequest) : ResponseWriter :=
  handle encode w r [s.readinessChecks, s.livenessChecks]

/-! ## Notions used to state the properties -/

/-- Go's `strings.Split(s, "/")`. -/
def splitSlash (s : String) : List String :=
  (pathElems s.data).map String.mk

/-- A name that is one path element and is kept as it is by `path.Join`: it is not empty,
contains no slash and is neither `.` nor `..`. -/
def plainName (s : String) : Bool :=
  decide (s.data ≠ [] ∧ '/' ∉ s.data ∧ s.data ≠ ['.'] ∧ s.data ≠ ['.', '.'])

/-- An annotation key all of whose slash-separated elements are plain names. -/
def plainKey (k : String) : Bool :=
  (splitSlash k).all plainName

/-- The rendering `/k1/…/km` of a chain of keys. -/
def renderPath (ks : List String) : String :=
  String.mk ('/' :: ['/'].intercalate (ks.map String.data))

/-- The nodes to which the template `{..f1.….fn}` parses: one list node holding the
recursive node followed by one field node for each field name. -/
def selectorNodes (fields : List String) : List Node :=
  [Node.list (Node.recursive :: fields.map Node.field)]

/-- The JSONPath made by `New` after `Parse` has stored the nodes of `..f1.….fn`. -/
def selectorPath (name : String) (fields : List String) : JSONPath :=
  { New name with parser := some (selectorNodes fields) }

mutual
/-- The key chains of the locations of a document that are reached from its root through
members of mappings, the root (the empty chain) first. -/
def keyChains : Value → List (List String)
  | .object members => [] :: memberChains members
  | _ => [[]]
/-- The key chains of the locations at and below the listed members. -/
def memberChains : List (String × Value) → List (List String)
  | [] => []
  | (key, child) :: rest => (keyChains child).map (fun ks => key :: ks) ++ memberChains rest
end

mutual
/-- Is the value built from mappings and scalar leaves only, with every key a plain name? -/
def plainMappings : Value → Bool
  | .object members => plainMembers members
  | .array _ => false
  | .int _ => false
  | .uint8 _ => false
  | _ => true
/-- The same for a list of members. -/
def plainMembers : List (String × Value) → Bool
  | [] => true
  | (key, child) :: rest => plainName key && plainMappings child && plainMembers rest
end

/-- An element that the cleaning pass of `path.Clean` keeps as it is. -/
def NormalElem (e : List Char) : Prop :=
  e ≠ [] ∧ e ≠ ['.'] ∧ e ≠ ['.', '.']

/-- The elements kept by the cleaning pass of a rooted path that starts with `st` kept. -/
def keptFrom (st : List (List Char)) (es : List (List Char)) : List (List Char) :=
  (es.foldl (cleanElem true) (0, st)).2

/-- The stacks at which the bytes of a string match, from byte `i` on. -/
def foundBytes (fields pathSoFar : List String) : Nat → List Nat → List (List String)
  | _, [] => []
  | i, _ :: rest =>
    (if fields <:+ pathSoFar ++ [runeString i] then [pathSoFar ++ [runeString i]] else []) ++
      foundBytes fields pathSoFar (i + 1) rest

mutual
/-- The stacks that `evalRecursive` records, in the order of the visit: the walk stops at
a stack that ends with the field chain and descends otherwise. -/
def foundStacks (fields pathSoFar : List String) (input : Value) : List (List String) :=
  if fields <:+ pathSoFar then [pathSoFar]
  else
    match input with
    | .object members => foundMembers fields pathSoFar members
    | .array items => foundItems fields pathSoFar 0 items
    | .string s => foundBytes fields pathSoFar 0 (utf8Bytes s)
    | _ => []
termination_by structural input
/-- The stacks recorded below the members of a map. -/
def foundMembers (fields pathSoFar : List String) (members : List (String × Value)) :
    List (List String) :=
  match members with
  | [] => []
  | (key, child) :: rest =>
    foundStacks fields (pathSoFar ++ [key]) child ++ foundMembers fields pathSoFar rest
termination_by structural members
/-- The stacks recorded below the elements of an array, from index `i` on. -/
def foundItems (fields pathSoFar : List String) (i : Nat) (items : List Value) :
    List (List String) :=
  match items with
  | [] => []
  | child :: rest =>
    foundStacks fields (pathSoFar ++ [runeString i]) child ++
      foundItems fields pathSoFar (i + 1) rest
termination_by structural items
end

/-- The JSONPath with further paths recorded after those it holds. -/
def withPaths (j : JSONPath) (ps : List String) : JSONPath :=
  { j with Paths := j.Paths ++ ps }

/-- The JSONPath `j1` has the field chain of `j` and holds the paths of `j` followed by
paths that are each joined from a stack which starts at the root and ends with the field
chain. -/
def Extends (j j1 : JSONPath) : Prop :=
  j1.children = j.children ∧
    ∃ new, j1.Paths = j.Paths ++ new ∧
      ∀ p ∈ new, ∃ ks, j.children <:+ Root :: ks ∧ p = pathJoin (Root :: ks)

/-- The pattern of the specification, `^\.\.[^\s]+$`, matched against the whole text. -/
def matchesWholeText (s : String) : Bool :=
  match s.data with
  | '.' :: '.' :: c :: rest => (c :: rest).all (fun x => !isRegexpSpace x)
  | _ => false

/-- The text begins with two dots and a character that is no white space. -/
def BeginsRecursive (s : String) : Prop :=
  ∃ c rest, s.data = '.' :: '.' :: c :: rest ∧ isRegexpSpace c = false

mutual
/-- The document `D` with the value `v` put at the location with the key chain `ks`,
wherever the chain leads through mappings; a document without that location is left as it
is. -/
def putAt (v : Value) : List String → Value → Value
  | [], _ => v
  | k :: ks, .object members => .object (putAtMembers v k ks members)
  | _ :: _, D => D
/-- The same for the members of a mapping. -/
def putAtMembers (v : Value) (k : String) (ks : List String) :
    List (String × Value) → List (String × Value)
  | [] => []
  | (key, child) :: rest =>
    (if key = k then (key, putAt v ks child) else (key, child)) :: putAtMembers v k ks rest
end

mutual
/-- The second document is the first one with the members of its mappings, at every
depth, listed in another order. -/
def Reordered : Value → Value → Prop
  | .object members, D1 =>
    ∃ members1 members2, ReorderedMembers members members1 ∧ members1.Perm members2 ∧
      D1 = .object members2
  | .array items, D1 => ∃ items1, ReorderedItems items items1 ∧ D1 = .array items1
  | D, D1 => D1 = D
/-- The same members in the same order, each value reordered. -/
def ReorderedMembers : List (String × Value) → List (String × Value) → Prop
  | [], members1 => members1 = []
  | (key, child) :: rest, members1 =>
    ∃ child1 rest1, Reordered child child1 ∧ ReorderedMembers rest rest1 ∧
      members1 = (key, child1) :: rest1
/-- The same elements in the same order, each element reordered. -/
def ReorderedItems : List Value → List Value → Prop
  | [], items1 => items1 = []
  | child :: rest, items1 =>
    ∃ child1 rest1, Reordered child child1 ∧ ReorderedItems rest rest1 ∧
      items1 = child1 :: rest1
end

mutual
/-- Is the value built from mappings whose leaves are null, booleans and numbers? -/
def mappingsOnly : Value → Bool
  | .object members => mappingsOnlyMembers members
  | .null => true
  | .bool _ => true
  | .number _ => true
  | _ => false
/-- The same for a list of members. -/
def mappingsOnlyMembers : List (String × Value) → Bool
  | [] => true
  | (_, child) :: rest => mappingsOnly child && mappingsOnlyMembers rest
end

/-- The JSONPath `j` with the paths `ps` recorded before its own. -/
def prependPaths (ps : List String) (j : JSONPath) : JSONPath :=
  { j with Paths := ps ++ j.Paths }

/-! ## The application of a patch

The patch is applied by the API server. The definitions of this section give the `add`
operation of RFC 6902 on the paths of RFC 6901. -/

/-- Modelled from the spec: the text of a reference token of a JSON Pointer, with `~1`
read as a slash and `~0` as a tilde (RFC 6901). -/
def unescapeToken : List Char → List Char
  | '~' :: '1' :: rest => '/' :: unescapeToken rest
  | '~' :: '0' :: rest => '~' :: unescapeToken rest
  | ch :: rest => ch :: unescapeToken rest
  | [] => []

/-- Modelled from the spec: the reference tokens of a JSON Pointer (RFC 6901): none for
the empty pointer, and the slash-separated parts after the leading slash otherwise; a
text that is not empty and has no leading slash is no pointer. -/
def pointerTokens (path : String) : Option (List String) :=
  match path.data with
  | [] => some []
  | '/' :: rest => some ((pathElems rest).map (fun e => String.mk (unescapeToken e)))
  | _ => none

/-- Modelled from the spec: the array index that a reference token denotes (RFC 6901):
`0`, or digits that do not begin with `0`. -/
def arrayIndex (t : String) : Option Nat :=
  match t.data with
  | [] => none
  | ['0'] => some 0
  | d :: rest =>
    if d ≠ '0' ∧ (d :: rest).all Char.isDigit then
      some ((d :: rest).foldl (fun n x => 10 * n + (x.toNat - 48)) 0)
    else none

/-- Modelled from the spec: the value that the reference tokens designate in a document
(RFC 6901). -/
def getPath : List String → Value → Option Value
  | [], v => some v
  | t :: ts, .object members => (mapIndex members t).bind (getPath ts)
  | t :: ts, .array items =>
    (arrayIndex t).bind (fun i => (items[i]?).bind (getPath ts))
  | _ :: _, _ => none

/-- The members of a mapping with `key` set to `v`: the member is replaced where it
stands, or added at the end. -/
def setMember : List (String × Value) → String → Value → List (String × Value)
  | [], key, v => [(key, v)]
  | (k, x) :: rest, key, v =>
    if k = key then (key, v) :: rest else (k, x) :: setMember rest key v

/-- Modelled from the spec: the operation `add` of RFC 6902 with value `v` at the
location that the reference tokens designate. The parent of the location must exist; in a
mapping the member is set, in a sequence the value is inserted at the index (or appended
for `-`); the empty pointer replaces the document. -/
def addAt (v : Value) : List String → Value → Option Value
  | [], _ => some v
  | [t], .object members => some (.object (setMember members t v))
  | [t], .array items =>
    if t = "-" then some (.array (items ++ [v]))
    else
      match arrayIndex t with
      | some i => if i ≤ items.length then some (.array (items.take i ++ v :: items.drop i))
                  else none
      | none => none
  | t :: t2 :: ts, .object members =>
    match mapIndex members t with
    | some child => (addAt v (t2 :: ts) child).map (fun x => .object (setMember members t x))
    | none => none
  | t :: t2 :: ts, .array items =>
    match arrayIndex t with
    | some i =>
      (match items[i]? with
       | some child => (addAt v (t2 :: ts) child).map (fun x => .array (items.set i x))
       | none => none)
    | none => none
  | _, _ => none

/-- The reference tokens of the path of an operation, and no token for a path that is
no pointer. -/
def opTokens (op : patchOperation) : List String :=
  (pointerTokens op.Path).getD []

/-- Modelled from the spec: the application of one operation of a patch; only `add`
operations, whose value is a string, are applied. -/
def applyOp (op : patchOperation) (doc : Value) : Option Value :=
  if op.Op = "add" then
    match pointerTokens op.Path with
    | some ts => addAt (.string op.Value) ts doc
    | none => none
  else none

/-- Modelled from the spec: the application of a patch, operation by operation; it fails
as soon as an operation fails. -/
def applyPatch : List patchOperation → Value → Option Value
  | [], doc => some doc
  | op :: rest, doc => (applyOp op doc).bind (applyPatch rest)

/-- The application of `add` with one value at each of the listed locations in turn. -/
def addAll (v : Value) : List (List String) → Value → Option Value
  | [], doc => some doc
  | ts :: rest, doc => (addAt v ts doc).bind (addAll v rest)

/-- Do the reference tokens designate a member of a mapping that is reached from the
root through members of mappings? -/
def memberTarget : List String → Value → Bool
  | [_], .object _ => true
  | t :: t2 :: ts, .object members =>
    match mapIndex members t with
    | some child => memberTarget (t2 :: ts) child
    | none => false
  | _, _ => false

/-! ## A small library to run the definitions

The theorems hold for every `Lib`. To run the definitions on concrete requests,
`sampleLib` answers the way the libraries do on a fragment of their inputs that is easy
to describe, and answers with an error outside that fragment. -/

/-- A character that may stand in a field name of the sample templates. -/
def sampleFieldChar (c : Char) : Bool :=
  c.isAlphanum || c = '_' || c = '-' || c = '/'

/-- The parser on templates `{..f1.….fn}` whose field names consist of letters, digits,
`_`, `-` and `/` and begin with a letter or a digit; there the library returns
`selectorNodes`. -/
def sampleParse (_name text : String) : Except String (List Node) :=
  match text.data with
  | '{' :: '.' :: '.' :: rest =>
    if rest.getLast? = some '}' then
      let fields := rest.dropLast.splitOn '.'
      if fields.all (fun f => f.all sampleFieldChar && (f.head?.map Char.isAlphanum).getD false)
      then .ok (selectorNodes (fields.map String.mk))
      else .error "template outside the sample fragment"
    else .error "template outside the sample fragment"
  | _ => .error "template outside the sample fragment"

/-- A character that stands for itself in the sample patterns. -/
def sampleLiteral (c : Char) : Bool :=
  c.isAlphanum || c = ':' || c = '_' || c = '-'

/-- A pattern of letters, digits, `:`, `_` and `-` matches the texts that contain it;
followed by `\S+` it matches the texts that contain it with a character after it that is
no white space. -/
def sampleMatchString (pattern s : String) : Except String Bool :=
  if pattern.data.all sampleLiteral then
    .ok (s.data.tails.any (fun t => pattern.data.isPrefixOf t))
  else if pattern.data.drop (pattern.data.length - 3) = ['\\', 'S', '+'] ∧
      (pattern.data.take (pattern.data.length - 3)).all sampleLiteral then
    .ok (s.data.tails.any (fun t =>
      (pattern.data.take (pattern.data.length - 3)).isPrefixOf t &&
        (((t.drop (pattern.data.length - 3)).head?).map (fun c => !isRegexpSpace c)).getD false))
  else .error "pattern outside the sample fragment"

/-- The object of `TestFindPath_pod_annotations`. -/
def podRaw : String :=
  "\x7b\"metadata\":\x7b\"annotations\":\x7b\"haha\":\"hehe\"\x7d\x7d\x7d"

/-- The document that `podRaw` decodes to. -/
def podDoc : Value :=
  .object [("metadata", .object [("annotations", .object [("haha", .string "hehe")])])]

/-- The decoder on four documents; no bytes at all are no document. -/
def sampleUnmarshal (raw : String) : Except String Value :=
  if raw = "null" then .ok Value.null
  else if raw = "\x7b\x7d" then .ok (Value.object [])
  else if raw = "[]" then .ok (Value.array [])
  else if raw = podRaw then .ok podDoc
  else if raw = "" then .error "unexpected end of JSON input"
  else .error "document outside the sample fragment"

/-- The encoding of one operation whose strings need no escaping. -/
def sampleMarshalOp (op : patchOperation) : String :=
  "\x7b\"op\":\"" ++ op.Op ++ "\",\"path\":\"" ++ op.Path ++ "\",\"value\":\"" ++ op.Value ++
    "\"\x7d"

/-- The encoder: `null` for the nil patch, else the array of the operations. -/
def sampleMarshal (patch : List patchOperation) : Except String String :=
  match patch with
  | [] => .ok "null"
  | _ => .ok ("[" ++ ",".intercalate (patch.map sampleMarshalOp) ++ "]")

/-- The sample library. -/
def sampleLib : Lib :=
  { Parse := sampleParse
    compare := fun _ _ _ => .error "comparison outside the sample fragment"
    sprintValue := fun _ => "value"
    sprintNode := fun _ => "node"
    MatchString := sampleMatchString
    Unmarshal := sampleUnmarshal
    Marshal := sampleMarshal }

/-- The document of `TestFindPath_annotations`. -/
def annotationsDoc : Value :=
  .object [("spec", .object [("tfReplicaSpecs", .object [
    ("Ps", .object [("template", .object [("metadata", .object [
      ("annotations", .object [("haha", .string "hehe")])])])]),
    ("Evaluator", .object [("template", .object [("metadata", .object [
      ("haha", .string "hehe")])])])])])]

/-- A server with the default annotation key, a document and a configuration. -/
def sampleServer (doc : Value) (configs : String → Option Config) : WebhookServer :=
  { configMap := { Configs := configs }, userAnnotationKey := UserAnnotation,
    unmarshalledReq := doc }

/-- The configuration of `TestCreatePatch_skip_override`. -/
def skipOverrideConfigs (resource : String) : Option Config :=
  if resource = "alltypes" then some { Paths := ["..template"], NeverOverwriteAccounts := [] }
  else if resource = "pods" then
    some { Paths := ["..metadata"], NeverOverwriteAccounts := ["system:serviceaccount:\\S+"] }
  else none

/-- The configuration of `TestCreatePatch_skip_override_path_not_found`. -/
def pathNotFoundConfigs (resource : String) : Option Config :=
  if resource = "alltypes" then
    some { Paths := ["..Ps.template.metadata.annotations",
                     "..Evaluator.template.metadata.annotations"],
           NeverOverwriteAccounts := [] }
  else if resource = "pods" then
    some { Paths := ["."], NeverOverwriteAccounts := ["system:serviceaccount:\\S+"] }
  else none

/-- A configuration whose entry for `tfjobs` has a selector without the leading dots
between two selectors that have them. -/
def malformedConfigs (resource : String) : Option Config :=
  if resource = "tfjobs" then
    some { Paths := ["..metadata.annotations", "template.metadata", "..spec"],
           NeverOverwriteAccounts := [] }
  else none

/-- A configuration whose entry for `tfjobs` has the one selector `template.metadata`. -/
def noDotsConfigs (resource : String) : Option Config :=
  if resource = "tfjobs" then
    some { Paths := ["template.metadata"], NeverOverwriteAccounts := [] }
  else none

/-- The body of a review whose request carries the object of `podRaw`. -/
def podReviewBody : String :=
  "\x7b\"request\":\x7b\"uid\":\"000\",\"resource\":\x7b\"resource\":\"pods\"\x7d," ++
    "\"userInfo\":\x7b\"username\":\"alice\"\x7d,\"object\":" ++ podRaw ++ "\x7d\x7d"

/-- The body of a review whose request carries no object, as for a deletion. -/
def noObjectReviewBody : String :=
  "\x7b\"request\":\x7b\"uid\":\"000\",\"resource\":\x7b\"resource\":\"pods\"\x7d," ++
    "\"userInfo\":\x7b\"username\":\"alice\"\x7d\x7d\x7d"

/-- The deserializer on two bodies; every other body is reported as not decodable and
leaves the review empty. -/
def sampleDecode (body : String) : AdmissionReview × GoError :=
  if body = podReviewBody then
    ({ Request := some { UID := "000", Resource := { Resource := "pods" },
                         UserInfo := { Username := "alice" }, Object := { Raw := podRaw } } },
      none)
  else if body = noObjectReviewBody then
    ({ Request := some { UID := "000", Resource := { Resource := "pods" },
                         UserInfo := { Username := "alice" }, Object := { Raw := "" } } },
      none)
  else ({ Request := none }, some "body outside the sample fragment")

/-- A stand-in for the encoding of the review sent back: it lists the uid, the flag
`allowed` and the message of the response, and not the patch. -/
def sampleMarshalReview (review : AdmissionReview) : Except String String :=
  match review.Response with
  | none => .ok "\x7b\x7d"
  | some resp =>
    .ok ("\x7b\"response\":\x7b\"uid\":\"" ++ resp.UID ++ "\",\"allowed\":" ++
      (if resp.Allowed then "true" else "false") ++
      (match resp.Result with
       | some st => ",\"status\":\x7b\"message\":\"" ++ st.Message ++ "\"\x7d"
       | none => "") ++ "\x7d\x7d")

/-- The sample codec. -/
def sampleCodec : Codec :=
  { Decode := sampleDecode, MarshalReview := sampleMarshalReview }

/-- The configuration with the one entry `alltypes`, whose one selector is
`..metadata.annotations`. -/
def annotationsConfigs (resource : String) : Option Config :=
  if resource = "alltypes" then
    some { Paths := ["..metadata.annotations"], NeverOverwriteAccounts := [] }
  else none

/-- A writer on which nothing is written yet, with the error of its connection. -/
def freshWriter (writeError : GoError) : ResponseWriter :=
  { status := none, body := "", writeError := writeError }

/-- A document whose mapping `annotations` has the member `user`, itself a mapping. -/
def nestedDoc : Value :=
  .object [("annotations", .object [("user", .object [])])]

/-- The configuration with the one entry `alltypes`, whose selectors are `..user` and
`..annotations`, in this order. -/
def nestedConfigs (resource : String) : Option Config :=
  if resource = "alltypes" then
    some { Paths := ["..user", "..annotations"], NeverOverwriteAccounts := [] }
  else none

/-- A document whose member `annotations` is a sequence. -/
def sequenceDoc : Value :=
  .object [("annotations", .array [.string "x"])]

/-- The configuration with the one entry `alltypes`, whose one selector is
`..annotations`. -/
def annotationsOnlyConfigs (resource : String) : Option Config :=
  if resource = "alltypes" then
    some { Paths := ["..annotations"], NeverOverwriteAccounts := [] }
  else none

/-- A document with a key that contains a slash, above a mapping `annotations`. -/
def slashKeyDoc : Value :=
  .object [("a/b", .object [("annotations", .object [])])]

/-- The document of `TestCreatePatch_update_patch`. -/
def updateDoc : Value :=
  .object [("spec", .object [("tfReplicaSpecs", .object [
    ("Ps", .object [("template", .object [("metadata", .object [
      ("annotations", .object [("doAs", .string "tfdl")])])])]),
    ("Evaluator", .object [("template", .object [("metadata", .object [
      ("tomatoes", .string "haha")])])])])])]

/-- The document that `TestCreatePatch_update_patch` expects after the patch. -/
def updateExpected : Value :=
  .object [("spec", .object [("tfReplicaSpecs", .object [
    ("Ps", .object [("template", .object [("metadata", .object [
      ("annotations", .object [("doAs", .string "tfdl"),
        ("iddecorator.username", .string "chicken")])])])]),
    ("Evaluator", .object [("template", .object [("metadata", .object [
      ("tomatoes", .string "haha")])])])])])]

/-- The configuration of `TestCreatePatch_update_patch`. -/
def updateConfigs (resource : String) : Option Config :=
  if resource = "alltypes" then
    some { Paths := ["..metadata.annotations"],
           NeverOverwriteAccounts := ["system:serviceaccount:\\S+"] }
  else none

/-- A configuration whose entry for `tfjobs` has the pattern `(`, which does not compile,
before the pattern of `TestCreatePatch_skip_override`. -/
def malformedPatternConfigs (resource : String) : Option Config :=
  if resource = "tfjobs" then
    some { Paths := ["..metadata.annotations"],
           NeverOverwriteAccounts := ["(", "system:serviceaccount:\\S+"] }
  else none

/-- The configuration `malformedPatternConfigs` without the pattern `(`. -/
def patternRemovedConfigs (resource : String) : Option Config :=
  if resource = "tfjobs" then
    some { Paths := ["..metadata.annotations"],
           NeverOverwriteAccounts := ["system:serviceaccount:\\S+"] }
  else none

/-- A configuration whose entry for `tfjobs` has no selector, while the entry `alltypes`
has the selector `..metadata.annotations`. -/
def emptyPathsConfigs (resource : String) : Option Config :=
  if resource = "tfjobs" then some { Paths := [], NeverOverwriteAccounts := [] }
  else if resource = "alltypes" then
    some { Paths := ["..metadata.annotations"], NeverOverwriteAccounts := [] }
  else none

/-- The replica specifications of the document of `TestFindPaths` (jsonpath_test.go). -/
def replicaSpecs : List (String × Value) :=
  [("Ps", .object [("template", .object [("metadata", .object [
      ("annotations", .object [("haha", .string "true")])])])]),
   ("Worker", .object [("template", .object [("metadata", .object [
      ("annotations", .object [("hoho", .string "true")])])])]),
   ("Chief", .object [("template", .object [("metadata", .object [
      ("annotations", .object [("raah", .string "true")])])])]),
   ("Evaluator", .object [("template", .object [("metadata", .object [])])])]

/-- The document of `TestFindPaths` with the replica specifications in the given order. -/
def replicasDoc (specs : List (String × Value)) : Value :=
  .object [("spec", .object [("tfReplicaSpecs", .object specs)])]

/-- The order of two keys by their code points, as `encoding/json` sorts the keys of a
map. -/
def keyLess : List Char → List Char → Bool
  | [], [] => false
  | [], _ :: _ => true
  | _ :: _, [] => false
  | a :: as, b :: bs =>
    if a.toNat < b.toNat then true
    else if b.toNat < a.toNat then false
    else keyLess as bs

/-- The insertion of an entry into results that are sorted by name. -/
def insertResult (e : String × String) : List (String × String) → List (String × String)
  | [] => [e]
  | x :: rest =>
    if keyLess x.1.data e.1.data then x :: insertResult e rest else e :: x :: rest

/-- The results sorted by name. -/
def sortResults : List (String × String) → List (String × String)
  | [] => []
  | e :: rest => insertResult e (sortResults rest)

/-- The indented encoding, as `json.Encoder` writes it, of a map of results whose names
and texts need no escaping: the entries are written in the order of their names. -/
def sampleEncodeResults (results : List (String × String)) : String :=
  match sortResults results with
  | [] => "\x7b\x7d\n"
  | sorted =>
    "\x7b\n" ++ ",\n".intercalate
      (sorted.map (fun e => "    \"" ++ e.1 ++ "\": \"" ++ e.2 ++ "\"")) ++ "\n\x7d\n"

/-- The handler that `setupNonTLSServer` (main.go) builds: a liveness check and a
readiness check, both registered under the name `iddeployer connectivity`. -/
def connectivityHandler (liveness readiness : Check) : basicHandler :=
  AddReadinessCheck (AddLivenessCheck NewHandler "iddeployer connectivity" liveness)
    "iddeployer connectivity" readiness

/-- A GET on a health endpoint with the given value of the parameter `full`. -/
def healthRequest (full : String) : HttpRequest :=
  { Body := none, ContentType := "", Method := "GET", Full := full }

/-- A pod with a sequence of containers beside its annotations. -/
def podWithContainersDoc : Value :=
  .object [("metadata", .object [("annotations", .object [("haha", .string "hehe")])]),
    ("spec", .object [("containers", .array [.object [("name", .string "main")]])])]

/-- A document whose only leaf is a string of 49 bytes. -/
def longStringDoc : Value :=
  .object [("s", .string "0123456789012345678901234567890123456789012345678")]

/-- A request of a user for a resource. -/
def sampleRequest (resource username : String) : AdmissionRequest :=
  { UID := "000", Resource := { Resource := resource }, UserInfo := { Username := username },
    Object := { Raw := "\x7b\x7d" } }

/-! ## Checks of the definitions on small inputs -/

example : pathJoin ["/", "spec", "template"] = "/spec/template" := by decide
example : pathJoin ["/"] = "/" := by decide
example : pathJoin ["/a", "b/c"] = "/a/b/c" := by decide
example : pathJoin ["/a", ".."] = "/" := by decide
example : pathJoin ["/a", ""] = "/a" := by decide
example : pathJoin ["", "a", "..", "..", "b"] = "../b" := by decide
example : pathJoin ["/", "a", "."] = "/a" := by decide
example : pathJoin ["a//b/./c/"] = "a/b/c" := by decide
example : pathJoin [""] = "" := by decide
example : pathClean "abc//def//ghi" = "abc/def/ghi" := by decide
example : pathClean "abc/def/../ghi/../jkl" = "abc/jkl" := by decide
example : pathClean "/../abc" = "/abc" := by decide
example : pathClean "../../abc" = "../../abc" := by decide
example : pathClean "abc/./../def" = "def" := by decide
example : pathClean "abc/../../././../def" = "../../def" := by decide
example : pathClean "" = "." := by decide
example : pathClean "///abc/" = "/abc" := by decide
example : pathClean "abc/def/.." = "abc" := by decide
example : pathClean "/abc/def/../../.." = "/" := by decide
example : pathClean "abc/def/../../.." = ".." := by decide
example : pathClean "abc/.../def" = "abc/.../def" := by decide
example : pathJoin ["."] = "." := by decide
example : pathJoin ["a", ".."] = "." := by decide
example : pathJoin ["/..", "a"] = "/a" := by decide
example : runeString 97 = "a" := by decide
example : utf8Bytes "ab" = [97, 98] := by decide


example : sampleLib.Parse "n" "\x7b..metadata.annotations\x7d" =
    .ok (selectorNodes ["metadata", "annotations"]) := by rfl
example : (FindResults sampleLib (selectorPath "n" ["metadata", "annotations"])
    annotationsDoc).2.Paths = ["/spec/tfReplicaSpecs/Ps/template/metadata/annotations"] := by
  decide
example : getPaths sampleLib (sampleServer annotationsDoc (fun _ => none))
    "..metadata.annotations" =
    (["/spec/tfReplicaSpecs/Ps/template/metadata/annotations"], none) := by decide
example : getPaths sampleLib (sampleServer annotationsDoc (fun _ => none)) "template.metadata" =
    ([], some "path Pattern 'template.metadata' must start with recursive '..'") := by decide
example : foundStacks ["a"] [Root] (.object [("a", .object [("a", .null)])]) =
    [["/", "a"]] := by decide

/-! ## Lemmas on `path.Join` -/

theorem pathElems_nil : pathElems [] = [[]] := rfl

theorem pathElems_cons (c : Char) (s : List Char) :
    pathElems (c :: s) =
      if c = '/' then [] :: pathElems s else (pathElems s).modifyHead (List.cons c) := by
  unfold pathElems List.splitOn
  rw [List.splitOnP_cons]
  simp

theorem pathElems_ne_nil (s : List Char) : pathElems s ≠ [] :=
  List.splitOnP_ne_nil _ _

theorem pathElems_append_slash (a b : List Char) :
    pathElems (a ++ '/' :: b) = pathElems a ++ pathElems b := by
  induction a with
  | nil => simp [pathElems_cons, pathElems_nil]
  | cons c a ih =>
    rw [List.cons_append, pathElems_cons, pathElems_cons, ih]
    by_cases h : c = '/'
    · simp [h]
    · simp only [h, if_false]
      cases hs : pathElems a with
      | nil => exact absurd hs (pathElems_ne_nil a)
      | cons x xs => rfl

theorem pathElems_no_slash (s : List Char) : ∀ e ∈ pathElems s, '/' ∉ e := by
  induction s with
  | nil => simp [pathElems_nil]
  | cons c s ih =>
    rw [pathElems_cons]
    by_cases h : c = '/'
    · simp only [h, if_true]
      intro e he
      rcases List.mem_cons.1 he with rfl | he
      · simp
      · exact ih e he
    · simp only [h, if_false]
      cases hs : pathElems s with
      | nil => exact absurd hs (pathElems_ne_nil s)
      | cons x xs =>
        rw [hs] at ih
        intro e he
        simp only [List.modifyHead, List.mem_cons] at he
        rcases he with rfl | he
        · intro hm
          rcases List.mem_cons.1 hm with h1 | h1
          · exact h h1.symm
          · exact ih x (List.mem_cons_self _ _) h1
        · exact ih e (List.mem_cons_of_mem _ he)

theorem pathElems_of_no_slash (s : List Char) (h : '/' ∉ s) : pathElems s = [s] := by
  unfold pathElems List.splitOn
  apply List.splitOnP_eq_single
  intro x hx hp
  have : x = '/' := by simpa using hp
  exact h (this ▸ hx)

theorem pathElems_intercalate (ls : List (List Char)) (h : ls ≠ []) :
    pathElems (['/'].intercalate ls) = ls.flatMap pathElems := by
  induction ls with
  | nil => exact absurd rfl h
  | cons x rest ih =>
    cases rest with
    | nil => simp [List.intercalate]
    | cons y rest =>
      have : ['/'].intercalate (x :: y :: rest) = x ++ '/' :: ['/'].intercalate (y :: rest) := by
        simp [List.intercalate]
      rw [this, pathElems_append_slash, ih (by simp)]
      simp

theorem cleanElem_rooted_fst (st : Nat × List (List Char)) (e : List Char) :
    (cleanElem true st e).1 = st.1 := by
  unfold cleanElem
  split_ifs <;> simp_all

theorem foldl_rooted_fst (es : List (List Char)) (st : Nat × List (List Char)) :
    (es.foldl (cleanElem true) st).1 = st.1 := by
  induction es generalizing st with
  | nil => rfl
  | cons e es ih => rw [List.foldl_cons, ih, cleanElem_rooted_fst]

theorem keptFrom_nil (st : List (List Char)) : keptFrom st [] = st := rfl

theorem keptFrom_cons (st : List (List Char)) (e : List Char) (es : List (List Char)) :
    keptFrom st (e :: es) = keptFrom (cleanElem true (0, st) e).2 es := by
  unfold keptFrom
  rw [List.foldl_cons]
  have h : cleanElem true (0, st) e = (0, (cleanElem true (0, st) e).2) := by
    apply Prod.ext
    · exact cleanElem_rooted_fst _ _
    · rfl
  rw [h]

theorem keptFrom_append (st : List (List Char)) (es fs : List (List Char)) :
    keptFrom st (es ++ fs) = keptFrom (keptFrom st es) fs := by
  induction es generalizing st with
  | nil => rfl
  | cons e es ih => rw [List.cons_append, keptFrom_cons, keptFrom_cons, ih]

theorem cleanElem_normal (r : Bool) (st : Nat × List (List Char)) (e : List Char)
    (h : NormalElem e) : cleanElem r st e = (st.1, st.2 ++ [e]) := by
  unfold cleanElem
  rw [if_neg (by rintro (h1 | h1); exact h.1 h1; exact h.2.1 h1), if_neg h.2.2]

theorem keptFrom_normal (st : List (List Char)) (ns : List (List Char))
    (h : ∀ e ∈ ns, NormalElem e) : keptFrom st ns = st ++ ns := by
  induction ns generalizing st with
  | nil => simp [keptFrom_nil]
  | cons e ns ih =>
    rw [keptFrom_cons, cleanElem_normal _ _ _ (h e (List.mem_cons_self _ _)),
      ih _ (fun x hx => h x (List.mem_cons_of_mem _ hx))]
    simp

theorem keptFrom_skip_empty (st : List (List Char)) (es : List (List Char)) :
    keptFrom st ([] :: es) = keptFrom st es := by
  rw [keptFrom_cons]; simp [cleanElem]

theorem mem_cleanElem (st : List (List Char)) (e x : List Char)
    (hx : x ∈ (cleanElem true (0, st) e).2) : x ∈ st ∨ (x = e ∧ NormalElem e) := by
  unfold cleanElem at hx
  split_ifs at hx with h1 h2 h3 h4
  · exact Or.inl hx
  · exact Or.inl (List.mem_of_mem_dropLast hx)
  · exact Or.inl hx
  · exact absurd rfl h4
  · have hx1 : x ∈ st ++ [e] := hx
    rw [List.mem_append, List.mem_singleton] at hx1
    rcases hx1 with hx | hx
    · exact Or.inl hx
    · refine Or.inr ⟨hx, ?_, ?_, h2⟩
      · intro h; exact h1 (Or.inl h)
      · intro h; exact h1 (Or.inr h)

theorem mem_keptFrom (es : List (List Char)) (st : List (List Char)) (x : List Char)
    (hx : x ∈ keptFrom st es) : x ∈ st ∨ (x ∈ es ∧ NormalElem x) := by
  induction es generalizing st with
  | nil => exact Or.inl hx
  | cons e es ih =>
    rw [keptFrom_cons] at hx
    rcases ih _ hx with h | h
    · rcases mem_cleanElem st e x h with h | h
      · exact Or.inl h
      · exact Or.inr ⟨h.1 ▸ List.mem_cons_self _ _, h.1 ▸ h.2⟩
    · exact Or.inr ⟨List.mem_cons_of_mem _ h.1, h.2⟩

theorem cleanChars_rooted (r : List Char) :
    cleanChars ('/' :: r) = '/' :: ['/'].intercalate (keptFrom [] (pathElems ('/' :: r))) := by
  unfold cleanChars keptFrom
  simp only [List.cons_ne_nil, if_false, List.head?_cons, decide_True, if_true]
  rw [foldl_rooted_fst]
  simp

/-- The characters of a rooted join: a slash and the kept elements, slash-separated. -/
theorem pathJoin_rooted (e0 : String) (r0 : List Char) (es : List String)
    (h0 : e0.data = '/' :: r0) :
    (pathJoin (e0 :: es)).data =
      '/' :: ['/'].intercalate (keptFrom [] (((e0 :: es).map String.data).flatMap pathElems)) := by
  unfold pathJoin
  have hd : List.dropWhile (fun e : String => decide (e.data = [])) (e0 :: es) = e0 :: es := by
    simp [List.dropWhile, h0]
  rw [hd]
  simp only [pathClean]
  have hi : ['/'].intercalate ((e0 :: es).map String.data) =
      '/' :: (r0 ++ (if es = [] then [] else '/' :: ['/'].intercalate (es.map String.data))) := by
    cases es with
    | nil => simp [List.intercalate, h0]
    | cons e es => simp [List.intercalate, h0]
  rw [← pathElems_intercalate _ (by simp), hi, cleanChars_rooted]

/-! ## Lemmas on the match test and the visit -/

theorem pathMatchLoop_eq (fs p : List String) (d : Nat) (hd : d + fs.length = p.length) :
    ∀ n, n ≤ fs.length →
      pathMatchLoop fs p n (((d + n : Nat) : Int) - 1) =
        some (decide (∀ i, i < n → fs[i]? = p[d + i]?)) := by
  intro n
  induction n with
  | zero => intro _; simp [pathMatchLoop]
  | succ n ih =>
    intro hn
    have hc : n < fs.length := hn
    have hp : d + n < p.length := by omega
    have hk : (((d + (n + 1) : Nat) : Int) - 1) = ((d + n : Nat) : Int) := by push_cast; ring
    rw [hk]
    unfold pathMatchLoop
    have h0 : (0 : Int) ≤ ((d + n : Nat) : Int) := Int.ofNat_nonneg _
    simp only [h0, if_true, Int.toNat_ofNat]
    rw [List.getElem?_eq_getElem hc, List.getElem?_eq_getElem hp]
    simp only
    by_cases hne : fs[n] ≠ p[d + n]
    · rw [if_pos hne]
      congr 1
      symm
      rw [decide_eq_false_iff_not]
      intro hall
      have := hall n (Nat.lt_succ_self n)
      rw [List.getElem?_eq_getElem hc, List.getElem?_eq_getElem hp] at this
      exact hne (Option.some.inj this)
    · rw [if_neg hne]
      have hk2 : ((d + n : Nat) : Int) - 1 = ((d + n : Nat) : Int) - 1 := rfl
      cases n with
      | zero =>
        simp only [pathMatchLoop]
        congr 1
        symm
        rw [decide_eq_true_iff]
        intro i hi
        have hi0 : i = 0 := by omega
        subst hi0
        rw [List.getElem?_eq_getElem hc, List.getElem?_eq_getElem hp]
        push_neg at hne
        rw [hne]
      | succ m =>
        rw [ih (by omega)]
        congr 1
        rw [decide_eq_decide]
        constructor
        · intro hall i hi
          rcases Nat.lt_succ_iff_lt_or_eq.1 hi with h | h
          · exact hall i h
          · subst h
            rw [List.getElem?_eq_getElem hc, List.getElem?_eq_getElem hp]
            push_neg at hne
            rw [hne]
        · intro hall i hi
          exact hall i (Nat.lt_succ_of_lt hi)

theorem suffix_iff_index (fs p : List String) :
    fs <:+ p ↔ fs.length ≤ p.length ∧
      ∀ i, i < fs.length → fs[i]? = p[(p.length - fs.length) + i]? := by
  constructor
  · rintro ⟨t, rfl⟩
    refine ⟨by simp, ?_⟩
    intro i hi
    have : (t ++ fs).length - fs.length = t.length := by simp
    rw [this, List.getElem?_append_right (by omega)]
    simp
  · rintro ⟨hl, hall⟩
    rw [List.suffix_iff_eq_drop]
    apply List.ext_getElem?
    intro i
    by_cases hi : i < fs.length
    · rw [hall i hi, List.getElem?_drop]
    · rw [List.getElem?_eq_none (by omega), List.getElem?_eq_none]
      rw [List.length_drop]; omega

theorem pathMatchChecked_eq_some (j : JSONPath) (p : List String) :
    pathMatchChecked j p = some (decide (j.children <:+ p)) := by
  unfold pathMatchChecked
  by_cases hl : p.length < j.children.length
  · rw [if_pos hl]
    congr 1
    symm
    rw [decide_eq_false_iff_not]
    intro hs
    have := hs.length_le
    omega
  · rw [if_neg hl]
    have hd : (p.length - j.children.length) + j.children.length = p.length := by omega
    have hk : ((p.length : Int) - 1) =
        ((((p.length - j.children.length) + j.children.length : Nat) : Int) - 1) := by
      rw [hd]
    rw [hk, pathMatchLoop_eq j.children p _ hd _ (le_refl _)]
    congr 1
    rw [decide_eq_decide, suffix_iff_index]
    constructor
    · intro h; exact ⟨by omega, h⟩
    · intro h; exact h.2

theorem pathMatch_iff (j : JSONPath) (p : List String) :
    pathMatch j p = true ↔ j.children <:+ p := by
  unfold pathMatch
  rw [pathMatchChecked_eq_some]
  simp

theorem withPaths_nil (j : JSONPath) : withPaths j [] = j := by
  cases j; simp [withPaths]

theorem withPaths_withPaths (j : JSONPath) (a b : List String) :
    withPaths (withPaths j a) b = withPaths j (a ++ b) := by
  simp [withPaths]

theorem withPaths_children (j : JSONPath) (a : List String) :
    (withPaths j a).children = j.children := rfl

theorem pathMatch_withPaths (j : JSONPath) (a p : List String) :
    pathMatch (withPaths j a) p = pathMatch j p := rfl

theorem evalRecursiveBytes_eq (j : JSONPath) (st : List String) (bs : List Nat) (i : Nat) :
    evalRecursiveBytes j st i bs =
      ([], withPaths j ((foundBytes j.children st i bs).map pathJoin)) := by
  induction bs generalizing j i with
  | nil => simp [evalRecursiveBytes, foundBytes, withPaths_nil]
  | cons b bs ih =>
    unfold evalRecursiveBytes foundBytes
    simp only
    by_cases hm : pathMatch j (st ++ [runeString i]) = true
    · have hs := (pathMatch_iff j _).1 hm
      rw [if_pos hm, if_pos hs]
      have := ih (withPaths j [pathJoin (st ++ [runeString i])]) (i + 1)
      rw [withPaths_withPaths, withPaths_children] at this
      simpa [withPaths] using this
    · have hs : ¬ j.children <:+ st ++ [runeString i] := fun h => hm ((pathMatch_iff j _).2 h)
      rw [if_neg hm, if_neg hs, ih]
      simp

mutual
theorem evalRecursive_eq (j : JSONPath) (st : List String) (v : Value) :
    evalRecursive j st v = ([], withPaths j ((foundStacks j.children st v).map pathJoin)) := by
  unfold evalRecursive foundStacks
  by_cases hm : pathMatch j st = true
  · have hs := (pathMatch_iff j _).1 hm
    rw [if_pos hm, if_pos hs]
    rfl
  · have hs : ¬ j.children <:+ st := fun h => hm ((pathMatch_iff j _).2 h)
    rw [if_neg hm, if_neg hs]
    cases v with
    | object members => simpa using evalRecursiveMap_eq j st [] members
    | array items => simpa using evalRecursiveIndex_eq j st [] 0 items
    | string s => simp only; exact evalRecursiveBytes_eq j st _ 0
    | _ => simp [withPaths_nil]
termination_by structural v
theorem evalRecursiveMap_eq (j : JSONPath) (st : List String) (result : List Value)
    (members : List (String × Value)) :
    evalRecursiveMap j st result members =
      (result, withPaths j ((foundMembers j.children st members).map pathJoin)) := by
  match members with
  | [] => simp [evalRecursiveMap, foundMembers, withPaths_nil]
  | (key, child) :: rest =>
    unfold evalRecursiveMap foundMembers
    simp only
    rw [evalRecursive_eq j (st ++ [key]) child]
    simp only [List.append_nil]
    rw [evalRecursiveMap_eq _ st result rest, withPaths_withPaths, withPaths_children]
    simp
termination_by structural members
theorem evalRecursiveIndex_eq (j : JSONPath) (st : List String) (result : List Value)
    (i : Nat) (items : List Value) :
    evalRecursiveIndex j st result i items =
      (result, withPaths j ((foundItems j.children st i items).map pathJoin)) := by
  match items with
  | [] => simp [evalRecursiveIndex, foundItems, withPaths_nil]
  | child :: rest =>
    unfold evalRecursiveIndex foundItems
    simp only
    rw [evalRecursive_eq j (st ++ [runeString i]) child]
    simp only [List.append_nil]
    rw [evalRecursiveIndex_eq _ st result (i + 1) rest, withPaths_withPaths, withPaths_children]
    simp
termination_by structural items
end


theorem plainName_iff (s : String) :
    plainName s = true ↔ '/' ∉ s.data ∧ NormalElem s.data := by
  unfold plainName NormalElem
  rw [decide_eq_true_iff]
  tauto

theorem pathElems_plain (s : String) (h : plainName s = true) : pathElems s.data = [s.data] :=
  pathElems_of_no_slash _ ((plainName_iff s).1 h).1

theorem flatMap_plain (fs : List String) (h : ∀ f ∈ fs, plainName f = true) :
    fs.flatMap (fun k => pathElems k.data) = fs.map String.data := by
  induction fs with
  | nil => rfl
  | cons f fs ih =>
    rw [List.flatMap_cons, List.map_cons, pathElems_plain f (h f (List.mem_cons_self _ _)),
      ih (fun x hx => h x (List.mem_cons_of_mem _ hx))]
    rfl

theorem mem_flatMap_no_slash (ks : List String) :
    ∀ e ∈ ks.flatMap (fun k => pathElems k.data), '/' ∉ e := by
  intro e he
  rcases List.mem_flatMap.1 he with ⟨k, _, hk⟩
  exact pathElems_no_slash _ e hk

/-- The characters of the path joined from the root and a chain of segments. -/
theorem pathJoin_root (ks : List String) :
    (pathJoin (Root :: ks)).data =
      '/' :: ['/'].intercalate (keptFrom [] (ks.flatMap (fun k => pathElems k.data))) := by
  rw [pathJoin_rooted Root [] ks rfl]
  have h : ((Root :: ks).map String.data).flatMap pathElems =
      [] :: [] :: ks.flatMap (fun k => pathElems k.data) := by
    rw [List.map_cons, List.flatMap_cons, List.flatMap_map]
    rfl
  rw [h, keptFrom_skip_empty, keptFrom_skip_empty]

theorem intercalate_append (a b : List (List Char)) (ha : a ≠ []) (hb : b ≠ []) :
    ['/'].intercalate (a ++ b) = ['/'].intercalate a ++ '/' :: ['/'].intercalate b := by
  induction a with
  | nil => exact absurd rfl ha
  | cons x a ih =>
    cases a with
    | nil =>
      cases b with
      | nil => exact absurd rfl hb
      | cons y b => simp [List.intercalate]
    | cons x2 a =>
      have h1 : ['/'].intercalate (x :: x2 :: a ++ b) =
          x ++ '/' :: ['/'].intercalate (x2 :: a ++ b) := by
        simp [List.intercalate]
      have h2 : ['/'].intercalate (x :: x2 :: a) = x ++ '/' :: ['/'].intercalate (x2 :: a) := by
        simp [List.intercalate]
      rw [h1, h2, ih (by simp)]
      simp

/-- Splitting a rendered rooted path gives the empty element and the kept elements. -/
theorem pathElems_rendered (S : List (List Char)) (h : ∀ e ∈ S, '/' ∉ e) (hne : S ≠ []) :
    pathElems ('/' :: ['/'].intercalate S) = [] :: S := by
  rw [pathElems_cons, if_pos rfl]
  congr 1
  exact List.splitOn_intercalate S '/' h hne

theorem mem_keptFrom_nil (es : List (List Char)) (x : List Char) (hx : x ∈ keptFrom [] es) :
    x ∈ es ∧ NormalElem x := by
  rcases mem_keptFrom es [] x hx with h | h
  · exact absurd h (List.not_mem_nil _)
  · exact h

/-- Soundness of the rendering: the split of a path joined from a stack that ends with
plain names ends with these names. -/
theorem splitSlash_pathJoin_suffix (pre fs : List String)
    (hfs : ∀ f ∈ fs, plainName f = true) :
    fs <:+ splitSlash (pathJoin (Root :: (pre ++ fs))) := by
  by_cases hnil : fs = []
  · subst hnil; exact List.nil_suffix
  unfold splitSlash
  rw [pathJoin_root, List.flatMap_append, keptFrom_append, flatMap_plain fs hfs]
  have hn : ∀ e ∈ fs.map String.data, NormalElem e := by
    intro e he
    rcases List.mem_map.1 he with ⟨f, hf, rfl⟩
    exact ((plainName_iff f).1 (hfs f hf)).2
  rw [keptFrom_normal _ _ hn]
  have hS : ∀ e ∈ keptFrom [] (pre.flatMap (fun k => pathElems k.data)) ++ fs.map String.data,
      '/' ∉ e := by
    intro e he
    rcases List.mem_append.1 he with h | h
    · exact mem_flatMap_no_slash pre e (mem_keptFrom_nil _ e h).1
    · rcases List.mem_map.1 h with ⟨f, hf, rfl⟩
      exact ((plainName_iff f).1 (hfs f hf)).1
  rw [pathElems_rendered _ hS (by simp [hnil])]
  refine ⟨String.mk [] :: (keptFrom [] (pre.flatMap (fun k => pathElems k.data))).map String.mk, ?_⟩
  have hid : (fs.map String.data).map String.mk = fs := by
    rw [List.map_map]
    exact (List.map_congr_left (fun f _ => rfl)).trans (List.map_id fs)
  rw [List.map_cons, List.map_append, hid]
  rfl

/-- With plain keys the joined path is the plain rendering of the chain. -/
theorem pathJoin_plain (ks : List String) (h : ∀ k ∈ ks, plainName k = true) :
    pathJoin (Root :: ks) = renderPath ks := by
  apply String.ext
  rw [pathJoin_root, flatMap_plain ks h, keptFrom_normal]
  · rfl
  · intro e he
    rcases List.mem_map.1 he with ⟨f, hf, rfl⟩
    exact ((plainName_iff f).1 (h f hf)).2

theorem plainKey_normal (k : String) (h : plainKey k = true) :
    ∀ e ∈ pathElems k.data, NormalElem e := by
  intro e he
  unfold plainKey splitSlash at h
  rw [List.all_eq_true] at h
  have := h (String.mk e) (List.mem_map.2 ⟨e, he, rfl⟩)
  exact ((plainName_iff _).1 this).2

theorem intercalate_ne_nil (S : List (List Char)) (hne : S ≠ []) (h : ∀ e ∈ S, e ≠ []) :
    ['/'].intercalate S ≠ [] := by
  cases S with
  | nil => exact absurd rfl hne
  | cons x S =>
    cases S with
    | nil => simpa [List.intercalate] using h x (List.mem_cons_self _ _)
    | cons y S =>
      have : ['/'].intercalate (x :: y :: S) = x ++ '/' :: ['/'].intercalate (y :: S) := by
        simp [List.intercalate]
      rw [this]
      simp

/-- Joining a recorded path and a key of plain elements appends the key after one slash,
and directly after the slash of the root path. -/
theorem pathJoin_key (ks : List String) (k : String) (hk : plainKey k = true) :
    pathJoin [pathJoin (Root :: ks), k] =
      if pathJoin (Root :: ks) = "/" then "/" ++ k else pathJoin (Root :: ks) ++ "/" ++ k := by
  have hp := pathJoin_root ks
  generalize hS : keptFrom [] (ks.flatMap (fun k => pathElems k.data)) = S at hp
  have hSn : ∀ e ∈ S, NormalElem e := by
    intro e he; rw [← hS] at he; exact (mem_keptFrom_nil _ e he).2
  have hSs : ∀ e ∈ S, '/' ∉ e := by
    intro e he; rw [← hS] at he
    exact mem_flatMap_no_slash ks e (mem_keptFrom_nil _ e he).1
  have hkn := plainKey_normal k hk
  have hj := pathJoin_rooted (pathJoin (Root :: ks)) _ [k] hp
  have hke : pathElems k.data ≠ [] := pathElems_ne_nil _
  have hik : ['/'].intercalate (pathElems k.data) = k.data := List.intercalate_splitOn _ '/'
  by_cases hnil : S = []
  · subst hnil
    have hroot : pathJoin (Root :: ks) = "/" := String.ext (by rw [hp]; rfl)
    rw [if_pos hroot]
    apply String.ext
    rw [hj, hroot]
    have : (["/", k].map String.data).flatMap pathElems = [] :: [] :: pathElems k.data := by
      simp only [List.map_cons, List.map_nil, List.flatMap_cons, List.flatMap_nil,
        List.append_nil]
      rfl
    rw [this, keptFrom_skip_empty, keptFrom_skip_empty, keptFrom_normal _ _ hkn,
      List.nil_append, hik]
    rfl
  · have hne : pathJoin (Root :: ks) ≠ "/" := by
      intro h
      have h2 := congrArg String.data h
      rw [hp] at h2
      have h3 : ['/'].intercalate S = [] := by
        have : ("/" : String).data = ['/'] := rfl
        rw [this] at h2
        exact List.tail_eq_of_cons_eq h2 |>.trans rfl
      exact intercalate_ne_nil S hnil (fun e he => (hSn e he).1) h3
    rw [if_neg hne]
    apply String.ext
    rw [hj]
    have : ([pathJoin (Root :: ks), k].map String.data).flatMap pathElems =
        [] :: (S ++ pathElems k.data) := by
      simp only [List.map_cons, List.map_nil, List.flatMap_cons, List.flatMap_nil,
        List.append_nil]
      rw [hp, pathElems_rendered S hSs hnil]
      rfl
    rw [this, keptFrom_skip_empty, keptFrom_normal, List.nil_append,
      intercalate_append S _ hnil hke, hik, String.data_append, String.data_append, hp]
    · simp
    · intro e he
      rcases List.mem_append.1 he with h | h
      · exact hSn e h
      · exact hkn e h

theorem foundBytes_sound (fs st : List String) (bs : List Nat) (i : Nat) :
    ∀ s ∈ foundBytes fs st i bs, st <+: s ∧ fs <:+ s := by
  induction bs generalizing i with
  | nil => intro s hs; simp [foundBytes] at hs
  | cons b bs ih =>
    intro s hs
    unfold foundBytes at hs
    rcases List.mem_append.1 hs with h | h
    · split_ifs at h with hm
      · rw [List.mem_singleton] at h
        subst h
        exact ⟨List.prefix_append _ _, hm⟩
      · exact absurd h (List.not_mem_nil _)
    · exact ih _ s h

mutual
/-- Every recorded stack extends the stack of the call and ends with the field chain. -/
theorem foundStacks_sound (fs st : List String) (v : Value) :
    ∀ s ∈ foundStacks fs st v, st <+: s ∧ fs <:+ s := by
  intro s hs
  unfold foundStacks at hs
  split_ifs at hs with hm
  · rw [List.mem_singleton] at hs
    subst hs
    exact ⟨List.prefix_refl _, hm⟩
  · cases v with
    | object members => exact foundMembers_sound fs st members s hs
    | array items => exact foundItems_sound fs st 0 items s hs
    | string str => exact foundBytes_sound fs st _ 0 s hs
    | null => simp at hs
    | bool b => simp at hs
    | number n => simp at hs
    | int n => simp at hs
    | uint8 n => simp at hs
termination_by structural v
theorem foundMembers_sound (fs st : List String) (members : List (String × Value)) :
    ∀ s ∈ foundMembers fs st members, st <+: s ∧ fs <:+ s := by
  intro s hs
  match members with
  | [] => simp [foundMembers] at hs
  | (key, child) :: rest =>
    unfold foundMembers at hs
    rcases List.mem_append.1 hs with h | h
    · have := foundStacks_sound fs (st ++ [key]) child s h
      exact ⟨(List.prefix_append _ _).trans this.1, this.2⟩
    · exact foundMembers_sound fs st rest s h
termination_by structural members
theorem foundItems_sound (fs st : List String) (i : Nat) (items : List Value) :
    ∀ s ∈ foundItems fs st i items, st <+: s ∧ fs <:+ s := by
  intro s hs
  match items with
  | [] => simp [foundItems] at hs
  | child :: rest =>
    unfold foundItems at hs
    rcases List.mem_append.1 hs with h | h
    · have := foundStacks_sound fs (st ++ [runeString i]) child s h
      exact ⟨(List.prefix_append _ _).trans this.1, this.2⟩
    · exact foundItems_sound fs st (i + 1) rest s h
termination_by structural items
end

theorem nil_mem_keyChains (v : Value) : [] ∈ keyChains v := by
  cases v <;> simp [keyChains]

/-- A proper initial part of a chain that starts with `key`. -/
theorem proper_prefix_cons (key : String) (ks ks1 : List String)
    (h : ks1 <+: key :: ks) (hne : ks1 ≠ key :: ks) :
    ks1 = [] ∨ ∃ ks2, ks1 = key :: ks2 ∧ ks2 <+: ks ∧ ks2 ≠ ks := by
  cases ks1 with
  | nil => exact Or.inl rfl
  | cons a ks2 =>
    right
    rw [List.cons_prefix_cons] at h
    rcases h with ⟨rfl, h2⟩
    exact ⟨ks2, rfl, h2, fun e => hne (by rw [e])⟩

mutual
/-- Completeness of the visit: a location that is reached through members of mappings,
whose stack ends with the field chain and above which no stack does, is recorded. -/
theorem foundStacks_complete (fs st : List String) (v : Value) (ks : List String)
    (hk : ks ∈ keyChains v) (hm : fs <:+ st ++ ks)
    (hfirst : ∀ ks1, ks1 <+: ks → ks1 ≠ ks → ¬ fs <:+ st ++ ks1) :
    st ++ ks ∈ foundStacks fs st v := by
  unfold foundStacks
  by_cases h0 : fs <:+ st
  · rw [if_pos h0]
    have : ks = [] := by
      by_contra hne
      exact hfirst [] (List.nil_prefix) (fun e => hne e.symm) (by simpa using h0)
    subst this
    simp
  · rw [if_neg h0]
    cases v with
    | object members =>
      simp only [keyChains, List.mem_cons] at hk
      rcases hk with rfl | hk
      · exact absurd (by simpa using hm) h0
      · exact foundMembers_complete fs st members ks hk hm hfirst
    | null => simp only [keyChains, List.mem_singleton] at hk; subst hk; exact absurd (by simpa using hm) h0
    | bool b => simp only [keyChains, List.mem_singleton] at hk; subst hk; exact absurd (by simpa using hm) h0
    | number n => simp only [keyChains, List.mem_singleton] at hk; subst hk; exact absurd (by simpa using hm) h0
    | string s => simp only [keyChains, List.mem_singleton] at hk; subst hk; exact absurd (by simpa using hm) h0
    | array items => simp only [keyChains, List.mem_singleton] at hk; subst hk; exact absurd (by simpa using hm) h0
    | int n => simp only [keyChains, List.mem_singleton] at hk; subst hk; exact absurd (by simpa using hm) h0
    | uint8 n => simp only [keyChains, List.mem_singleton] at hk; subst hk; exact absurd (by simpa using hm) h0
termination_by structural v
theorem foundMembers_complete (fs st : List String) (members : List (String × Value))
    (ks : List String) (hk : ks ∈ memberChains members) (hm : fs <:+ st ++ ks)
    (hfirst : ∀ ks1, ks1 <+: ks → ks1 ≠ ks → ¬ fs <:+ st ++ ks1) :
    st ++ ks ∈ foundMembers fs st members := by
  match members with
  | [] => simp [memberChains] at hk
  | (key, child) :: rest =>
    unfold foundMembers
    simp only [memberChains, List.mem_append, List.mem_map] at hk
    rcases hk with ⟨ks2, hk2, rfl⟩ | hk
    · apply List.mem_append_left
      have e : st ++ key :: ks2 = (st ++ [key]) ++ ks2 := by simp
      rw [e]
      apply foundStacks_complete fs (st ++ [key]) child ks2 hk2 (by rw [← e]; exact hm)
      intro ks1 hp hne hs
      apply hfirst (key :: ks1) ((List.cons_prefix_cons).2 ⟨rfl, hp⟩)
        (fun e2 => hne (List.cons_injective e2))
      simpa using hs
    · exact List.mem_append_right _ (foundMembers_complete fs st rest ks hk hm hfirst)
termination_by structural members
end

theorem runeString_length (i : Nat) : (runeString i).length = 1 := by
  unfold runeString
  split_ifs <;> rfl

/-- A field chain whose last name has more than one character matches no byte of a
string, whose segment is a single character. -/
theorem not_suffix_rune (fs st : List String) (f : String) (i : Nat)
    (hl : fs.getLast? = some f) (hf : 1 < f.length) : ¬ fs <:+ st ++ [runeString i] := by
  intro hs
  rcases List.getLast?_eq_some_iff.1 hl with ⟨init, rfl⟩
  rcases hs with ⟨t, ht⟩
  rw [← List.append_assoc] at ht
  have := (List.append_inj' ht rfl).2
  rw [List.singleton_inj] at this
  rw [this, runeString_length] at hf
  exact absurd hf (lt_irrefl 1)

theorem foundBytes_nil (fs st : List String) (f : String) (hl : fs.getLast? = some f)
    (hf : 1 < f.length) (bs : List Nat) (i : Nat) : foundBytes fs st i bs = [] := by
  induction bs generalizing i with
  | nil => rfl
  | cons b bs ih =>
    unfold foundBytes
    rw [if_neg (not_suffix_rune fs st f i hl hf), ih]
    rfl

mutual
/-- On a document of mappings and scalars every recorded stack is that of a location,
ends with the field chain and has no stack above it that does. -/
theorem foundStacks_located (fs st : List String) (f : String) (hl : fs.getLast? = some f)
    (hf : 1 < f.length) (v : Value) (hv : plainMappings v = true) :
    ∀ s ∈ foundStacks fs st v, ∃ ks, ks ∈ keyChains v ∧ s = st ++ ks ∧ fs <:+ st ++ ks ∧
      ∀ ks1, ks1 <+: ks → ks1 ≠ ks → ¬ fs <:+ st ++ ks1 := by
  intro s hs
  unfold foundStacks at hs
  by_cases h0 : fs <:+ st
  · rw [if_pos h0, List.mem_singleton] at hs
    subst hs
    refine ⟨[], nil_mem_keyChains v, by simp, by simpa using h0, ?_⟩
    intro ks1 hp hne
    exact absurd (List.prefix_nil.1 hp) hne
  · rw [if_neg h0] at hs
    cases v with
    | object members =>
      have hv2 : plainMembers members = true := by simpa [plainMappings] using hv
      rcases foundMembers_located fs st f hl hf members hv2 h0 s hs with ⟨ks, hk, h1, h2, h3⟩
      exact ⟨ks, by simp [keyChains, hk], h1, h2, h3⟩
    | string str =>
      simp only at hs
      rw [foundBytes_nil fs st f hl hf] at hs
      exact absurd hs (List.not_mem_nil _)
    | array items => simp [plainMappings] at hv
    | null => simp at hs
    | bool b => simp at hs
    | number n => simp at hs
    | int n => simp at hs
    | uint8 n => simp at hs
termination_by structural v
theorem foundMembers_located (fs st : List String) (f : String) (hl : fs.getLast? = some f)
    (hf : 1 < f.length) (members : List (String × Value))
    (hv : plainMembers members = true) (h0 : ¬ fs <:+ st) :
    ∀ s ∈ foundMembers fs st members, ∃ ks, ks ∈ memberChains members ∧ s = st ++ ks ∧
      fs <:+ st ++ ks ∧ ∀ ks1, ks1 <+: ks → ks1 ≠ ks → ¬ fs <:+ st ++ ks1 := by
  intro s hs
  match members with
  | [] => simp [foundMembers] at hs
  | (key, child) :: rest =>
    unfold foundMembers at hs
    simp only [plainMembers, Bool.and_eq_true] at hv
    rcases List.mem_append.1 hs with h | h
    · rcases foundStacks_located fs (st ++ [key]) f hl hf child hv.1.2 s h with
        ⟨ks, hk, h1, h2, h3⟩
      refine ⟨key :: ks, ?_, by simpa using h1, by simpa using h2, ?_⟩
      · simp only [memberChains, List.mem_append, List.mem_map]
        exact Or.inl ⟨ks, hk, rfl⟩
      · intro ks1 hp hne
        rcases proper_prefix_cons key ks ks1 hp hne with rfl | ⟨ks2, rfl, hp2, hne2⟩
        · simpa using h0
        · have := h3 ks2 hp2 hne2
          simpa using this
    · rcases foundMembers_located fs st f hl hf rest hv.2 h0 s h with ⟨ks, hk, h1, h2, h3⟩
      refine ⟨ks, ?_, h1, h2, h3⟩
      simp only [memberChains, List.mem_append]
      exact Or.inr hk
termination_by structural members
end

mutual
/-- The keys of a document of mappings with plain keys are plain. -/
theorem keyChains_plain (v : Value) (hv : plainMappings v = true) :
    ∀ ks ∈ keyChains v, ∀ k ∈ ks, plainName k = true := by
  intro ks hk
  cases v with
  | object members =>
    simp only [keyChains, List.mem_cons] at hk
    rcases hk with rfl | hk
    · intro k hkk; exact absurd hkk (List.not_mem_nil _)
    · exact memberChains_plain members (by simpa [plainMappings] using hv) ks hk
  | null => simp only [keyChains, List.mem_singleton] at hk; subst hk; simp
  | bool b => simp only [keyChains, List.mem_singleton] at hk; subst hk; simp
  | number n => simp only [keyChains, List.mem_singleton] at hk; subst hk; simp
  | string s => simp only [keyChains, List.mem_singleton] at hk; subst hk; simp
  | array items => simp only [keyChains, List.mem_singleton] at hk; subst hk; simp
  | int n => simp only [keyChains, List.mem_singleton] at hk; subst hk; simp
  | uint8 n => simp only [keyChains, List.mem_singleton] at hk; subst hk; simp
termination_by structural v
theorem memberChains_plain (members : List (String × Value))
    (hv : plainMembers members = true) :
    ∀ ks ∈ memberChains members, ∀ k ∈ ks, plainName k = true := by
  intro ks hk
  match members with
  | [] => simp [memberChains] at hk
  | (key, child) :: rest =>
    simp only [plainMembers, Bool.and_eq_true] at hv
    simp only [memberChains, List.mem_append, List.mem_map] at hk
    rcases hk with ⟨ks2, hk2, rfl⟩ | hk
    · intro k hkk
      rcases List.mem_cons.1 hkk with rfl | h
      · exact hv.1.1
      · exact keyChains_plain child hv.1.2 ks2 hk2 k h
    · exact memberChains_plain rest hv.2 ks hk
termination_by structural members
end

/-- A chain of plain names ends a stack that starts at the root exactly when it ends the
part of the stack after the root. -/
theorem suffix_root_iff (fs ks : List String) (hfs : ∀ f ∈ fs, plainName f = true) :
    fs <:+ Root :: ks ↔ fs <:+ ks := by
  rw [List.suffix_cons_iff]
  constructor
  · rintro (h | h)
    · have : plainName Root = true := hfs Root (h ▸ List.mem_cons_self _ _)
      exact absurd this (by decide)
    · exact h
  · exact Or.inr

theorem listFields_fields (fs : List String) : listFields (fs.map Node.field) = fs := by
  induction fs with
  | nil => rfl
  | cons f fs ih => simp [listFields, ih]

theorem rootFields_selectorNodes (fs : List String) : rootFields (selectorNodes fs) = fs := by
  simp [selectorNodes, rootFields, listFields, listFields_fields]

theorem evalList_fields_nil (lib : Lib) (j : JSONPath) (fs : List String) :
    evalList lib j [] (fs.map Node.field) = (([], none), j) := by
  induction fs with
  | nil => simp [evalList]
  | cons f fs ih =>
    rw [List.map_cons]
    unfold evalList
    have : walk lib j [] (Node.field f) = (([], none), j) := by
      unfold walk
      simp [evalField]
    rw [this]
    exact ih

theorem walk_selector (lib : Lib) (j : JSONPath) (D : Value) (fs : List String) :
    walk lib j [D] (Node.list (Node.recursive :: fs.map Node.field)) =
      (([], none), withPaths j ((foundStacks j.children [Root] D).map pathJoin)) := by
  unfold walk
  unfold evalList
  have : walk lib j [D] Node.recursive =
      (([], none), withPaths j ((foundStacks j.children [Root] D).map pathJoin)) := by
    unfold walk
    simp [evalRecursiveLoop, evalRecursive_eq]
  rw [this]
  exact evalList_fields_nil lib _ fs

/-- The function `FindResults` on the nodes of `..f1.….fn`: no error, and the paths of the visit from
the root are appended to the recorded paths. -/
theorem FindResults_selector (lib : Lib) (j : JSONPath) (D : Value) (fs : List String)
    (hp : j.parser = some (selectorNodes fs)) :
    (FindResults lib j D).1.2 = none ∧
      (FindResults lib j D).2.Paths = j.Paths ++ (foundStacks fs [Root] D).map pathJoin := by
  unfold FindResults
  rw [hp]
  simp only
  have hc : fieldToChildren j =
      { j with pathToFind := pathJoin fs, children := fs } := by
    unfold fieldToChildren
    rw [hp]
    simp [rootFields_selectorNodes]
  rw [hc]
  unfold selectorNodes
  unfold findResultsLoop
  rw [walk_selector]
  simp only
  split_ifs
  · exact ⟨rfl, rfl⟩
  · simp only [findResultsLoop]
    exact ⟨trivial, rfl⟩

theorem FindPaths_selectorPath (lib : Lib) (name : String) (D : Value) (fs : List String) :
    FindPaths (FindResults lib (selectorPath name fs) D).2 =
      (foundStacks fs [Root] D).map pathJoin := by
  unfold FindPaths
  rw [(FindResults_selector lib (selectorPath name fs) D fs rfl).2]
  rfl

/-! ## What any walk records -/

theorem Extends.refl (j : JSONPath) : Extends j j :=
  ⟨rfl, [], by simp, fun p hp => absurd hp (List.not_mem_nil _)⟩

theorem Extends.trans {j j1 j2 : JSONPath} (h1 : Extends j j1) (h2 : Extends j1 j2) :
    Extends j j2 := by
  rcases h1 with ⟨c1, n1, p1, q1⟩
  rcases h2 with ⟨c2, n2, p2, q2⟩
  refine ⟨c2.trans c1, n1 ++ n2, by rw [p2, p1, List.append_assoc], ?_⟩
  intro p hp
  rcases List.mem_append.1 hp with h | h
  · exact q1 p h
  · rw [c1] at q2; exact q2 p h

theorem extends_evalRecursive (j : JSONPath) (v : Value) :
    Extends j (evalRecursive j [Root] v).2 := by
  rw [evalRecursive_eq]
  refine ⟨rfl, _, rfl, ?_⟩
  intro p hp
  rcases List.mem_map.1 hp with ⟨s, hs, rfl⟩
  have h := foundStacks_sound j.children [Root] v s hs
  rcases h.1 with ⟨ks, rfl⟩
  exact ⟨ks, h.2, rfl⟩

theorem extends_evalRecursiveLoop (input : List Value) (j : JSONPath) (result : List Value) :
    Extends j (evalRecursiveLoop j input result).2 := by
  induction input generalizing j result with
  | nil => exact Extends.refl j
  | cons v rest ih =>
    unfold evalRecursiveLoop
    exact (extends_evalRecursive j v).trans (ih _ _)

theorem extends_filterElem (lib : Lib) (evalLeft evalRight : JSONPath → List Value →
    (List Value × GoError) × JSONPath) (hL : ∀ j v, Extends j (evalLeft j v).2)
    (hR : ∀ j v, Extends j (evalRight j v).2) (operator : String) (input : List Value)
    (j : JSONPath) (results : List Value) (elem : Value) :
    Extends j (filterElem lib evalLeft evalRight operator input j results elem).2 := by
  have h1 := hL j [elem]
  have h2 := h1.trans (hR (evalLeft j [elem]).2 [elem])
  unfold filterElem
  simp only
  repeat' split
  all_goals first | exact h1 | exact h2

theorem extends_filterElems (lib : Lib) (evalLeft evalRight : JSONPath → List Value →
    (List Value × GoError) × JSONPath) (hL : ∀ j v, Extends j (evalLeft j v).2)
    (hR : ∀ j v, Extends j (evalRight j v).2) (operator : String) (input : List Value)
    (elems : List Value) (j : JSONPath) (results : List Value) :
    Extends j (filterElems lib evalLeft evalRight operator input j results elems).2 := by
  induction elems generalizing j results with
  | nil => exact Extends.refl j
  | cons e rest ih =>
    unfold filterElems
    have h := extends_filterElem lib evalLeft evalRight hL hR operator input j results e
    split
    · rename_i r1 j1 heq
      rw [heq] at h
      exact h.trans (ih _ _)
    · rename_i out j1 heq
      rw [heq] at h
      exact h

theorem extends_filterValues (lib : Lib) (evalLeft evalRight : JSONPath → List Value →
    (List Value × GoError) × JSONPath) (hL : ∀ j v, Extends j (evalLeft j v).2)
    (hR : ∀ j v, Extends j (evalRight j v).2) (operator : String) (input : List Value)
    (values : List Value) (j : JSONPath) (results : List Value) :
    Extends j (filterValues lib evalLeft evalRight operator input j results values).2 := by
  induction values generalizing j results with
  | nil => exact Extends.refl j
  | cons v rest ih =>
    unfold filterValues
    cases v with
    | array items =>
      simp only
      have h := extends_filterElems lib evalLeft evalRight hL hR operator input items j results
      split
      · rename_i r1 j1 heq
        rw [heq] at h
        exact h.trans (ih _ _)
      · rename_i out j1 heq
        rw [heq] at h
        exact h
    | _ => exact Extends.refl j

mutual
/-- Whatever the node, `walk` only appends paths joined from stacks that start at the
root. -/
theorem extends_walk (lib : Lib) (j : JSONPath) (value : List Value) (node : Node) :
    Extends j (walk lib j value node).2 := by
  cases node with
  | list nodes => unfold walk; exact extends_evalList lib j value nodes
  | filter left right operator =>
    unfold walk
    exact extends_filterValues lib _ _ (fun j1 v => extends_evalList lib j1 v left)
      (fun j1 v => extends_evalList lib j1 v right) operator value value j []
  | recursive => unfold walk; exact extends_evalRecursiveLoop value j []
  | text t => unfold walk; exact Extends.refl j
  | field v => unfold walk; exact Extends.refl j
  | int v => unfold walk; exact Extends.refl j
  | bool v => unfold walk; exact Extends.refl j
  | float v => unfold walk; exact Extends.refl j
  | array => unfold walk; exact Extends.refl j
  | identifier n => unfold walk; exact Extends.refl j
  | wildcard => unfold walk; exact Extends.refl j
  | union => unfold walk; exact Extends.refl j
termination_by structural node
theorem extends_evalList (lib : Lib) (j : JSONPath) (value : List Value)
    (nodes : List Node) : Extends j (evalList lib j value nodes).2 := by
  match nodes with
  | [] => unfold evalList; exact Extends.refl j
  | node :: rest =>
    unfold evalList
    have h := extends_walk lib j value node
    split
    · rename_i cur err j1 heq
      rw [heq] at h
      exact h
    · rename_i cur j1 heq
      rw [heq] at h
      exact h.trans (extends_evalList lib j1 cur rest)
termination_by structural nodes
end

theorem extends_findResultsLoop (lib : Lib) (nodes : List Node) (j : JSONPath)
    (fullResult : List (List Value)) :
    Extends j (findResultsLoop lib j fullResult nodes).2 := by
  induction nodes generalizing j fullResult with
  | nil => exact Extends.refl j
  | cons node rest ih =>
    unfold findResultsLoop
    have h := extends_walk lib j j.cur node
    split
    · rename_i x err j1 heq
      rw [heq] at h
      exact h
    · rename_i results j1 heq
      rw [heq] at h
      split_ifs
      · exact h
      · exact h.trans (ih _ _)

/-- Every path that `parseJSONPath` returns is joined from a stack that starts at the
root. -/
theorem parseJSONPath_rooted (lib : Lib) (input : Value) (name template : String)
    (paths : List String) (h : parseJSONPath lib input name template = (paths, none)) :
    ∀ p ∈ paths, ∃ ks, p = pathJoin (Root :: ks) := by
  unfold parseJSONPath at h
  simp only at h
  split at h
  · simp at h
  · rename_i j1 hparse
    have hj1 : j1.Paths = [] := by
      unfold Parse at hparse
      split at hparse
      · have := (Prod.mk.inj hparse).2
        rw [← this]; rfl
      · simp at hparse
    split at h
    · simp at h
    · rename_i x j2 hfind
      have hp : paths = j2.Paths := ((Prod.mk.inj h).1).symm
      have hext : ∃ j0 : JSONPath, j0.Paths = [] ∧ Extends j0 j2 := by
        unfold FindResults at hfind
        split at hfind
        · simp at hfind
        · rename_i nodes hn
          simp only at hfind
          have hx := extends_findResultsLoop lib nodes
            { fieldToChildren j1 with cur := [input] } []
          rw [hfind] at hx
          refine ⟨{ fieldToChildren j1 with cur := [input] }, ?_, hx⟩
          show (fieldToChildren j1).Paths = []
          unfold fieldToChildren
          rw [hn]
          exact hj1
      rcases hext with ⟨j0, h0, c, new, hnew, hall⟩
      intro p hpm
      rw [hp, hnew, h0, List.nil_append] at hpm
      rcases hall p hpm with ⟨ks, _, rfl⟩
      exact ⟨ks, rfl⟩

theorem getPaths_rooted (lib : Lib) (whsvr : WebhookServer) (jPath : String)
    (paths : List String) (h : getPaths lib whsvr jPath = (paths, none)) :
    ∀ p ∈ paths, ∃ ks, p = pathJoin (Root :: ks) := by
  unfold getPaths at h
  split_ifs at h
  · simp at h
  · exact parseJSONPath_rooted lib _ _ _ paths h

/-! ## The path engine: claims C1 to C3 -/

/-- C1, as stated, fails: in the document `{"a": {"a": null}}` the location `/a/a` has a
segment list that ends with the field chain of `..a`, yet the only path recorded is `/a`,
because the walk does not descend below a location that matches. -/
theorem nested_match_not_recorded :
    ["a", "a"] ∈ keyChains (.object [("a", .object [("a", .null)])]) ∧
    ["a"] <:+ ["a", "a"] ∧
    FindPaths (FindResults sampleLib (selectorPath "test" ["a"])
      (.object [("a", .object [("a", .null)])])).2 = ["/a"] ∧
    getPaths sampleLib (sampleServer (.object [("a", .object [("a", .null)])]) (fun _ => none))
      "..a" = (["/a"], none) ∧
    pathJoin (Root :: ["a", "a"]) ∉
      FindPaths (FindResults sampleLib (selectorPath "test" ["a"])
        (.object [("a", .object [("a", .null)])])).2 := by
  decide

/-- C1, amended (tail-match completeness): for every document and every selector
`..f1.….fn`, every location reached from the root through members of mappings whose key
chain ends with `f1,…,fn`, and none of whose proper ancestors has a stack of segments (the
root element followed by its key chain) that ends with `f1,…,fn`, is among the paths that
`FindResults` records: the path joined from the root and its key chain. -/
theorem tail_match_completeness (lib : Lib) (name : String) (D : Value)
    (fs ks : List String) (hk : ks ∈ keyChains D) (hm : fs <:+ ks)
    (hfirst : ∀ ks1, ks1 <+: ks → ks1 ≠ ks → ¬ fs <:+ Root :: ks1) :
    pathJoin (Root :: ks) ∈ FindPaths (FindResults lib (selectorPath name fs) D).2 := by
  rw [FindPaths_selectorPath]
  apply List.mem_map.2
  refine ⟨Root :: ks, ?_, rfl⟩
  exact foundStacks_complete fs [Root] D ks hk (hm.trans (List.suffix_cons _ _)) hfirst

/-- C1, amended, at the document of `TestFindPath_annotations`. -/
theorem tail_match_completeness_witness :
    ["spec", "tfReplicaSpecs", "Ps", "template", "metadata", "annotations"] ∈
      keyChains annotationsDoc ∧
    ["metadata", "annotations"] <:+
      ["spec", "tfReplicaSpecs", "Ps", "template", "metadata", "annotations"] ∧
    pathJoin (Root :: ["spec", "tfReplicaSpecs", "Ps", "template", "metadata", "annotations"]) ∈
      FindPaths (FindResults sampleLib (selectorPath "test" ["metadata", "annotations"])
        annotationsDoc).2 :=
  ⟨by decide, by decide,
    tail_match_completeness sampleLib "test" annotationsDoc ["metadata", "annotations"]
      ["spec", "tfReplicaSpecs", "Ps", "template", "metadata", "annotations"]
      (by decide) (by decide)
      (by
        intro ks1 hp
        have h : ∀ x ∈ List.inits ["spec", "tfReplicaSpecs", "Ps", "template", "metadata",
            "annotations"], x ≠ ["spec", "tfReplicaSpecs", "Ps", "template", "metadata",
            "annotations"] → ¬ ["metadata", "annotations"] <:+ Root :: x := by decide
        exact h ks1 ((List.mem_inits _ _).2 hp))⟩

/-- C2, as stated, fails: for the selector whose one field is `a/b` and the document
`{"a/b": null}` the recorded path is `/a/b`, whose last segment is `b`, not `a/b`. -/
theorem slash_field_not_last_segment :
    "/a/b" ∈ FindPaths (FindResults sampleLib (selectorPath "test" ["a/b"])
      (.object [("a/b", .null)])).2 ∧
    getPaths sampleLib (sampleServer (.object [("a/b", .null)]) (fun _ => none)) "..a/b" =
      (["/a/b"], none) ∧
    splitSlash "/a/b" = ["", "a", "b"] ∧
    ¬ ["a/b"] <:+ splitSlash "/a/b" := by
  decide

/-- C2, amended (tail-match soundness): for every document and every selector `..f1.….fn`
whose field names are not empty, contain no slash and are neither `.` nor `..`, every
path recorded by `FindResults`, when split on the slash, has `f1,…,fn` as its last
segments. -/
theorem tail_match_soundness (lib : Lib) (name : String) (D : Value) (fs : List String)
    (hfs : ∀ f ∈ fs, plainName f = true) :
    ∀ p ∈ FindPaths (FindResults lib (selectorPath name fs) D).2, fs <:+ splitSlash p := by
  intro p hp
  rw [FindPaths_selectorPath] at hp
  rcases List.mem_map.1 hp with ⟨s, hs, rfl⟩
  have h := foundStacks_sound fs [Root] D s hs
  rcases h.1 with ⟨ks, rfl⟩
  have h2 : fs <:+ ks := (suffix_root_iff fs ks hfs).1 h.2
  rcases h2 with ⟨pre, rfl⟩
  exact splitSlash_pathJoin_suffix pre fs hfs

/-- C2, amended, at the document of `TestFindPath_annotations`. -/
theorem tail_match_soundness_witness :
    (∀ f ∈ ["metadata", "annotations"], plainName f = true) ∧
    "/spec/tfReplicaSpecs/Ps/template/metadata/annotations" ∈
      FindPaths (FindResults sampleLib (selectorPath "test" ["metadata", "annotations"])
        annotationsDoc).2 ∧
    ["metadata", "annotations"] <:+
      splitSlash "/spec/tfReplicaSpecs/Ps/template/metadata/annotations" :=
  ⟨by decide, by decide,
    tail_match_soundness sampleLib "test" annotationsDoc ["metadata", "annotations"]
      (by decide) "/spec/tfReplicaSpecs/Ps/template/metadata/annotations" (by decide)⟩

/-- C3 (exact characterisation of the walk): for every document built from mappings and
scalar leaves whose keys are plain names, and every selector `..f1.….fn` whose fields are
plain names and whose last field has more than one character, a path is recorded by
`FindResults` if and only if it is the rendering `/k1/…/km` of a location whose key chain
ends with `f1,…,fn` and that has no proper ancestor whose key chain also ends with
`f1,…,fn`. -/
theorem findPaths_exact (lib : Lib) (name : String) (D : Value) (fs : List String)
    (f : String) (hD : plainMappings D = true) (hfs : ∀ g ∈ fs, plainName g = true)
    (hl : fs.getLast? = some f) (hf : 1 < f.length) (p : String) :
    p ∈ FindPaths (FindResults lib (selectorPath name fs) D).2 ↔
      ∃ ks, ks ∈ keyChains D ∧ fs <:+ ks ∧
        (∀ ks1, ks1 <+: ks → ks1 ≠ ks → ¬ fs <:+ ks1) ∧ p = renderPath ks := by
  rw [FindPaths_selectorPath]
  constructor
  · intro hp
    rcases List.mem_map.1 hp with ⟨s, hs, rfl⟩
    rcases foundStacks_located fs [Root] f hl hf D hD s hs with ⟨ks, hk, rfl, h2, h3⟩
    refine ⟨ks, hk, (suffix_root_iff fs ks hfs).1 h2, ?_, ?_⟩
    · intro ks1 hp1 hne hs1
      exact h3 ks1 hp1 hne ((suffix_root_iff fs ks1 hfs).2 hs1)
    · exact pathJoin_plain ks (keyChains_plain D hD ks hk)
  · rintro ⟨ks, hk, h2, h3, rfl⟩
    apply List.mem_map.2
    refine ⟨Root :: ks, ?_, pathJoin_plain ks (keyChains_plain D hD ks hk)⟩
    apply foundStacks_complete fs [Root] D ks hk ((suffix_root_iff fs ks hfs).2 h2)
    intro ks1 hp1 hne hs1
    exact h3 ks1 hp1 hne ((suffix_root_iff fs ks1 hfs).1 hs1)

/-- C3 at the document of `TestFindPath_annotations`: the path below `Ps` is recorded,
and it is the only one, the mapping below `Evaluator` having no key `annotations`. -/
theorem findPaths_exact_witness :
    plainMappings annotationsDoc = true ∧
    (∀ g ∈ ["metadata", "annotations"], plainName g = true) ∧
    ["metadata", "annotations"].getLast? = some "annotations" ∧
    1 < "annotations".length ∧
    FindPaths (FindResults sampleLib (selectorPath "test" ["metadata", "annotations"])
      annotationsDoc).2 = ["/spec/tfReplicaSpecs/Ps/template/metadata/annotations"] ∧
    ("/spec/tfReplicaSpecs/Ps/template/metadata/annotations" ∈
      FindPaths (FindResults sampleLib (selectorPath "test" ["metadata", "annotations"])
        annotationsDoc).2 ↔
      ∃ ks, ks ∈ keyChains annotationsDoc ∧ ["metadata", "annotations"] <:+ ks ∧
        (∀ ks1, ks1 <+: ks → ks1 ≠ ks → ¬ ["metadata", "annotations"] <:+ ks1) ∧
        "/spec/tfReplicaSpecs/Ps/template/metadata/annotations" = renderPath ks) :=
  ⟨by decide, by decide, by decide, by decide, by decide,
    findPaths_exact sampleLib "test" annotationsDoc ["metadata", "annotations"] "annotations"
      (by decide) (by decide) (by decide) (by decide) _⟩

/-! ## The patch builder: claims C4 to C10 -/

/-- C4, as stated, fails: with the empty annotation key the operation for the discovered
path `/a` has the path `/a`, not `/a` followed by a slash and the key. -/
theorem empty_key_adds_no_segment :
    getPaths sampleLib
      { sampleServer (.object [("a", .null)]) (fun _ => none) with userAnnotationKey := "" }
      "..a" = (["/a"], none) ∧
    updateAnnotations sampleLib
      { sampleServer (.object [("a", .null)]) (fun _ => none) with userAnnotationKey := "" }
      "..a" (sampleRequest "tfjobs" "testUser") =
      ([{ Op := "add", Path := "/a", Value := "testUser" }], none) ∧
    "/a" ≠ "/a" ++ "/" ++ "" := by
  decide

/-- C4, amended: for every selector text whose paths are discovered without error, every
user name and every annotation key whose slash-separated elements are not empty and are
neither `.` nor `..`, `updateAnnotations` emits exactly one operation for each discovered
path `p`, in the order of discovery: `add` with the user name of the request as value, at
the path `p + "/" + key`, which is `"/" + key` when `p` is the root path `/`. -/
theorem updateAnnotations_ops (lib : Lib) (whsvr : WebhookServer) (jPath : String)
    (req : AdmissionRequest) (paths : List String)
    (hk : plainKey whsvr.userAnnotationKey = true)
    (hp : getPaths lib whsvr jPath = (paths, none)) :
    updateAnnotations lib whsvr jPath req =
      (paths.map (fun p =>
        { Op := "add",
          Path := if p = "/" then "/" ++ whsvr.userAnnotationKey
                  else p ++ "/" ++ whsvr.userAnnotationKey,
          Value := req.UserInfo.Username }), none) := by
  unfold updateAnnotations
  rw [hp]
  simp only [patchOp]
  congr 1
  apply List.map_congr_left
  intro p hpm
  rcases getPaths_rooted lib whsvr jPath paths hp p hpm with ⟨ks, rfl⟩
  rw [pathJoin_key ks _ hk]

/-- C4, amended, on `TestUpdateAnnotations` with the document of
`TestFindPath_annotations`. -/
theorem updateAnnotations_ops_witness :
    plainKey (sampleServer annotationsDoc (fun _ => none)).userAnnotationKey = true ∧
    getPaths sampleLib (sampleServer annotationsDoc (fun _ => none))
      "..metadata.annotations" =
      (["/spec/tfReplicaSpecs/Ps/template/metadata/annotations"], none) ∧
    updateAnnotations sampleLib (sampleServer annotationsDoc (fun _ => none))
      "..metadata.annotations" (sampleRequest "tfjobs" "testUser") =
      ([{ Op := "add",
          Path := "/spec/tfReplicaSpecs/Ps/template/metadata/annotations/iddecorator.username",
          Value := "testUser" }], none) :=
  ⟨by decide, by decide,
    (updateAnnotations_ops sampleLib (sampleServer annotationsDoc (fun _ => none))
      "..metadata.annotations" (sampleRequest "tfjobs" "testUser")
      ["/spec/tfReplicaSpecs/Ps/template/metadata/annotations"] (by decide)
      (by decide)).trans (by decide)⟩

theorem neverOverwrite_of_match (lib : Lib) (username : String) (accounts : List String)
    (h : ∃ a ∈ accounts, lib.MatchString a username = .ok true) :
    neverOverwrite lib username accounts = true := by
  induction accounts with
  | nil => rcases h with ⟨a, ha, _⟩; exact absurd ha (List.not_mem_nil _)
  | cons b rest ih =>
    unfold neverOverwrite
    rcases h with ⟨a, ha, hm⟩
    rcases List.mem_cons.1 ha with rfl | ha
    · rw [hm]
    · split
      · rfl
      · exact ih ⟨a, ha, hm⟩
      · exact ih ⟨a, ha, hm⟩

theorem neverOverwrite_of_no_match (lib : Lib) (username : String) (accounts : List String)
    (h : ∀ a ∈ accounts, lib.MatchString a username ≠ .ok true) :
    neverOverwrite lib username accounts = false := by
  induction accounts with
  | nil => rfl
  | cons b rest ih =>
    unfold neverOverwrite
    have hb := h b (List.mem_cons_self _ _)
    have hr := ih (fun a ha => h a (List.mem_cons_of_mem _ ha))
    split
    · rename_i heq; exact absurd heq hb
    · exact hr
    · exact hr

/-- C5 (never-overwrite short-circuit): if some pattern of the resolved entry matches the
user name, `createPatch` returns the empty patch and no error, whatever the document and
the selectors of the entry are. -/
theorem never_overwrite_short_circuit (lib : Lib) (whsvr : WebhookServer)
    (req : AdmissionRequest)
    (h : ∃ a ∈ (resolveConfig whsvr.configMap req.Resource.Resource).NeverOverwriteAccounts,
      lib.MatchString a req.UserInfo.Username = .ok true) :
    createPatch lib whsvr req = ([], none) := by
  unfold createPatch
  simp only
  rw [neverOverwrite_of_match lib _ _ h]
  rfl

/-- C5 on `TestCreatePatch_skip_override`. -/
theorem never_overwrite_short_circuit_witness :
    (∃ a ∈ (resolveConfig (sampleServer annotationsDoc skipOverrideConfigs).configMap
        (sampleRequest "pods"
          "system:serviceaccount:kubeflow:tf-job-operator").Resource.Resource
        ).NeverOverwriteAccounts,
      sampleLib.MatchString a (sampleRequest "pods"
        "system:serviceaccount:kubeflow:tf-job-operator").UserInfo.Username = .ok true) ∧
    createPatch sampleLib (sampleServer annotationsDoc skipOverrideConfigs)
      (sampleRequest "pods" "system:serviceaccount:kubeflow:tf-job-operator") = ([], none) :=
  ⟨⟨"system:serviceaccount:\\S+", by decide, by rfl⟩,
    never_overwrite_short_circuit sampleLib (sampleServer annotationsDoc skipOverrideConfigs)
      (sampleRequest "pods" "system:serviceaccount:kubeflow:tf-job-operator")
      ⟨"system:serviceaccount:\\S+", by decide, by rfl⟩⟩

theorem updateAnnotations_userInfo (lib : Lib) (whsvr : WebhookServer) (jPath : String)
    (req req1 : AdmissionRequest) (h : req.UserInfo = req1.UserInfo) :
    updateAnnotations lib whsvr jPath req = updateAnnotations lib whsvr jPath req1 := by
  unfold updateAnnotations
  rw [h]

theorem createPatchLoop_userInfo (lib : Lib) (whsvr : WebhookServer)
    (req req1 : AdmissionRequest) (h : req.UserInfo = req1.UserInfo) (paths : List String)
    (patch : List patchOperation) :
    createPatchLoop lib whsvr req patch paths = createPatchLoop lib whsvr req1 patch paths := by
  induction paths generalizing patch with
  | nil => rfl
  | cons jPath rest ih =>
    unfold createPatchLoop
    rw [updateAnnotations_userInfo lib whsvr jPath req req1 h]
    split
    · exact ih _
    · rfl

/-- C6 (fallback lookup): when the resource of the request has no entry, `createPatch`
returns what it returns for the same request with the resource `alltypes`; when
`alltypes` has no entry either, the resolved entry has no paths and no patterns and the
result is the empty patch without error. -/
theorem fallback_to_alltypes (lib : Lib) (whsvr : WebhookServer) (req : AdmissionRequest)
    (h : whsvr.configMap.Configs req.Resource.Resource = none) :
    createPatch lib whsvr req =
        createPatch lib whsvr { req with Resource := { Resource := AllTypes } } ∧
      (whsvr.configMap.Configs AllTypes = none →
        resolveConfig whsvr.configMap req.Resource.Resource =
            { Paths := [], NeverOverwriteAccounts := [] } ∧
          createPatch lib whsvr req = ([], none)) := by
  have hr : resolveConfig whsvr.configMap req.Resource.Resource =
      resolveConfig whsvr.configMap AllTypes := by
    unfold resolveConfig
    rw [h]
    cases hA : whsvr.configMap.Configs AllTypes <;> rfl
  constructor
  · unfold createPatch
    simp only
    rw [hr]
    rw [createPatchLoop_userInfo lib whsvr req
      { req with Resource := { Resource := AllTypes } } rfl]
  · intro hA
    have hz : resolveConfig whsvr.configMap req.Resource.Resource =
        { Paths := [], NeverOverwriteAccounts := [] } := by
      unfold resolveConfig
      rw [h, hA]
      rfl
    refine ⟨hz, ?_⟩
    unfold createPatch
    simp only
    rw [hz]
    rfl

/-- C6 on the configuration of `TestCreatePatch_skip_override`, which has no entry for
`tfjobs`: the patch is that of `alltypes`; and on the configuration without entries. -/
theorem fallback_to_alltypes_witness :
    (sampleServer annotationsDoc skipOverrideConfigs).configMap.Configs
      (sampleRequest "tfjobs" "testUser").Resource.Resource = none ∧
    createPatch sampleLib (sampleServer annotationsDoc skipOverrideConfigs)
      (sampleRequest "tfjobs" "testUser") =
      createPatch sampleLib (sampleServer annotationsDoc skipOverrideConfigs)
        { sampleRequest "tfjobs" "testUser" with Resource := { Resource := AllTypes } } ∧
    createPatch sampleLib (sampleServer annotationsDoc skipOverrideConfigs)
      (sampleRequest "tfjobs" "testUser") =
      ([{ Op := "add", Path := "/spec/tfReplicaSpecs/Ps/template/iddecorator.username",
          Value := "testUser" },
        { Op := "add", Path := "/spec/tfReplicaSpecs/Evaluator/template/iddecorator.username",
          Value := "testUser" }], none) ∧
    createPatch sampleLib (sampleServer annotationsDoc (fun _ => none))
      (sampleRequest "tfjobs" "testUser") = ([], none) :=
  ⟨by decide,
    (fallback_to_alltypes sampleLib (sampleServer annotationsDoc skipOverrideConfigs)
      (sampleRequest "tfjobs" "testUser") (by decide)).1,
    by decide,
    ((fallback_to_alltypes sampleLib (sampleServer annotationsDoc (fun _ => none))
      (sampleRequest "tfjobs" "testUser") rfl).2 rfl).2⟩

/-- C7 fails on the code: at the request of a user for `tfjobs` whose entry has the one
selector `template.metadata`, `createPatch` returns the selector error, yet `mutate`
answers with `allowed = true` and the patch `null`, without any message. -/
theorem mutate_drops_selector_error :
    createPatch sampleLib (sampleServer (.object []) noDotsConfigs)
      (sampleRequest "tfjobs" "testUser") =
      ([], some "path Pattern 'template.metadata' must start with recursive '..'") ∧
    (mutate sampleLib (sampleServer .null noDotsConfigs)
      { Request := some (sampleRequest "tfjobs" "testUser") }).map Prod.fst =
      some { UID := "", Allowed := true, Result := none, Patch := some "null",
             PatchType := some PatchType.JSONPatch } := by
  decide

/-- Whatever `createPatch` returns as its error, `mutate` answers a request whose object
decodes with `allowed = true` and the encoding of the operations built so far. -/
theorem mutate_ignores_createPatch_error (lib : Lib) (whsvr : WebhookServer)
    (req : AdmissionRequest) (doc : Value) (patchBytes : String)
    (hu : lib.Unmarshal req.Object.Raw = .ok doc)
    (hm : lib.Marshal (createPatch lib { whsvr with unmarshalledReq := doc } req).1 =
      .ok patchBytes) :
    (mutate lib whsvr { Request := some req }).map Prod.fst =
      some { UID := "", Allowed := true, Result := none, Patch := some patchBytes,
             PatchType := some PatchType.JSONPatch } := by
  unfold mutate
  simp only [hu, hm]
  rfl

theorem StartsWithRecursive_iff (s : String) :
    StartsWithRecursive s = true ↔ BeginsRecursive s := by
  unfold StartsWithRecursive BeginsRecursive
  constructor
  · intro h
    split at h
    · rename_i c rest heq
      exact ⟨c, rest, heq, by simpa using h⟩
    · simp at h
  · rintro ⟨c, rest, heq, hc⟩
    rw [heq]
    simp [hc]

/-- C8, as stated, fails: the text `..a b` does not match the pattern as a whole, yet it
passes the gate, which looks at the beginning of the text only, and `getPaths` hands it to
the parser instead of returning the error of the gate. -/
theorem space_after_prefix_passes_gate :
    matchesWholeText "..a b" = false ∧
    StartsWithRecursive "..a b" = true ∧
    (∀ (lib : Lib) (whsvr : WebhookServer), getPaths lib whsvr "..a b" =
      parseJSONPath lib whsvr.unmarshalledReq whsvr.userAnnotationKey "\x7b..a b\x7d") :=
  ⟨by decide, by decide, fun _ _ => rfl⟩

/-- C8, amended (selector gate): `getPaths` hands a selector text to the parser if the
text begins with two dots followed by a character that is no white space, whatever comes
after it; for every other text it returns no paths and the error
`path Pattern '<text>' must start with recursive '..'`. -/
theorem selector_gate (lib : Lib) (whsvr : WebhookServer) (jPath : String) :
    (BeginsRecursive jPath →
      getPaths lib whsvr jPath =
        parseJSONPath lib whsvr.unmarshalledReq whsvr.userAnnotationKey
          ("\x7b" ++ jPath ++ "\x7d")) ∧
    (¬ BeginsRecursive jPath →
      getPaths lib whsvr jPath =
        ([], some ("path Pattern \x27" ++ jPath ++ "\x27 must start with recursive \x27..\x27"))) := by
  constructor
  · intro h
    unfold getPaths
    rw [(StartsWithRecursive_iff jPath).2 h]
    rfl
  · intro h
    have hf : StartsWithRecursive jPath = false := by
      cases hs : StartsWithRecursive jPath
      · rfl
      · exact absurd ((StartsWithRecursive_iff jPath).1 hs) h
    unfold getPaths
    rw [hf]
    rfl

/-- C8, amended, at a text with the two dots and at one without. -/
theorem selector_gate_witness :
    BeginsRecursive "..metadata.annotations" ∧
    getPaths sampleLib (sampleServer annotationsDoc (fun _ => none)) "..metadata.annotations" =
      parseJSONPath sampleLib annotationsDoc UserAnnotation "\x7b..metadata.annotations\x7d" ∧
    ¬ BeginsRecursive "template.metadata" ∧
    getPaths sampleLib (sampleServer annotationsDoc (fun _ => none)) "template.metadata" =
      ([], some "path Pattern 'template.metadata' must start with recursive '..'") :=
  ⟨⟨'m', "etadata.annotations".data, rfl, rfl⟩,
    (selector_gate sampleLib (sampleServer annotationsDoc (fun _ => none))
      "..metadata.annotations").1 ⟨'m', "etadata.annotations".data, rfl, rfl⟩,
    fun h => absurd ((StartsWithRecursive_iff "template.metadata").2 h) (by decide),
    (selector_gate sampleLib (sampleServer annotationsDoc (fun _ => none))
      "template.metadata").2
      (fun h => absurd ((StartsWithRecursive_iff "template.metadata").2 h) (by decide))⟩

theorem updateAnnotations_of_getPaths_ok (lib : Lib) (whsvr : WebhookServer)
    (jPath : String) (req : AdmissionRequest) (h : (getPaths lib whsvr jPath).2 = none) :
    updateAnnotations lib whsvr jPath req =
      ((getPaths lib whsvr jPath).1.map (fun fpath =>
        patchOp (pathJoin [fpath, whsvr.userAnnotationKey]) req.UserInfo.Username), none) := by
  unfold updateAnnotations
  cases hg : getPaths lib whsvr jPath with
  | mk paths err =>
    rw [hg] at h
    simp only at h
    subst h
    rfl

theorem updateAnnotations_of_getPaths_error (lib : Lib) (whsvr : WebhookServer)
    (jPath : String) (req : AdmissionRequest) (err : String)
    (h : (getPaths lib whsvr jPath).2 = some err) :
    updateAnnotations lib whsvr jPath req = ([], some err) := by
  unfold updateAnnotations
  cases hg : getPaths lib whsvr jPath with
  | mk paths e =>
    rw [hg] at h
    simp only at h
    subst h
    rfl

/-- The operations that `updateAnnotations` builds from the paths of one selector. -/
theorem createPatchLoop_ok (lib : Lib) (whsvr : WebhookServer) (req : AdmissionRequest)
    (pre : List String) (hpre : ∀ s ∈ pre, (getPaths lib whsvr s).2 = none)
    (patch : List patchOperation) (rest : List String) :
    createPatchLoop lib whsvr req patch (pre ++ rest) =
      createPatchLoop lib whsvr req
        (patch ++ pre.flatMap (fun s => (getPaths lib whsvr s).1.map (fun fpath =>
          patchOp (pathJoin [fpath, whsvr.userAnnotationKey]) req.UserInfo.Username))) rest := by
  induction pre generalizing patch with
  | nil => simp
  | cons s pre ih =>
    rw [List.cons_append]
    simp only [createPatchLoop,
      updateAnnotations_of_getPaths_ok lib whsvr s req (hpre s (List.mem_cons_self _ _))]
    rw [ih (fun x hx => hpre x (List.mem_cons_of_mem _ hx))]
    simp [List.flatMap_cons, List.append_assoc]

/-- C9: when no never-overwrite pattern of the resolved entry matches and a selector of
the entry fails in `getPaths` after selectors that do not, `createPatch` returns the error
of that first failing selector together with the operations of the selectors before it,
whatever selectors are listed after it, and `mustCreatePatch` returns the nil patch. -/
theorem createPatch_first_error (lib : Lib) (whsvr : WebhookServer) (req : AdmissionRequest)
    (pre post : List String) (bad err : String)
    (hno : ∀ a ∈ (resolveConfig whsvr.configMap req.Resource.Resource).NeverOverwriteAccounts,
      lib.MatchString a req.UserInfo.Username ≠ .ok true)
    (hcfg : (resolveConfig whsvr.configMap req.Resource.Resource).Paths = pre ++ bad :: post)
    (hpre : ∀ s ∈ pre, (getPaths lib whsvr s).2 = none)
    (hbad : (getPaths lib whsvr bad).2 = some err) :
    createPatch lib whsvr req =
        (pre.flatMap (fun s => (getPaths lib whsvr s).1.map (fun fpath =>
          patchOp (pathJoin [fpath, whsvr.userAnnotationKey]) req.UserInfo.Username)),
         some err) ∧
      mustCreatePatch lib whsvr req = [] := by
  have h : createPatch lib whsvr req =
      (pre.flatMap (fun s => (getPaths lib whsvr s).1.map (fun fpath =>
        patchOp (pathJoin [fpath, whsvr.userAnnotationKey]) req.UserInfo.Username)),
       some err) := by
    unfold createPatch
    simp only
    rw [neverOverwrite_of_no_match lib _ _ hno, hcfg, createPatchLoop_ok lib whsvr req pre hpre]
    simp only [createPatchLoop, updateAnnotations_of_getPaths_error lib whsvr bad req err hbad]
    simp
  refine ⟨h, ?_⟩
  unfold mustCreatePatch
  rw [h]

/-- C9 at an entry whose second selector lacks the leading dots: the operation of the
first selector and the error of the second are returned, the third selector adds nothing,
and `mustCreatePatch` returns the nil patch. -/
theorem createPatch_first_error_witness :
    (∀ a ∈ (resolveConfig (sampleServer annotationsDoc malformedConfigs).configMap
        (sampleRequest "tfjobs" "testUser").Resource.Resource).NeverOverwriteAccounts,
      sampleLib.MatchString a (sampleRequest "tfjobs" "testUser").UserInfo.Username ≠
        .ok true) ∧
    (resolveConfig (sampleServer annotationsDoc malformedConfigs).configMap
        (sampleRequest "tfjobs" "testUser").Resource.Resource).Paths =
      ["..metadata.annotations"] ++ "template.metadata" :: ["..spec"] ∧
    (∀ s ∈ ["..metadata.annotations"],
      (getPaths sampleLib (sampleServer annotationsDoc malformedConfigs) s).2 = none) ∧
    (getPaths sampleLib (sampleServer annotationsDoc malformedConfigs) "template.metadata").2 =
      some "path Pattern 'template.metadata' must start with recursive '..'" ∧
    createPatch sampleLib (sampleServer annotationsDoc malformedConfigs)
        (sampleRequest "tfjobs" "testUser") =
      ([{ Op := "add",
          Path := "/spec/tfReplicaSpecs/Ps/template/metadata/annotations/iddecorator.username",
          Value := "testUser" }],
       some "path Pattern 'template.metadata' must start with recursive '..'") ∧
    mustCreatePatch sampleLib (sampleServer annotationsDoc malformedConfigs)
        (sampleRequest "tfjobs" "testUser") = [] :=
  ⟨fun a ha => absurd ha (List.not_mem_nil a), by decide, by decide, by decide,
    (createPatch_first_error sampleLib (sampleServer annotationsDoc malformedConfigs)
      (sampleRequest "tfjobs" "testUser") ["..metadata.annotations"] ["..spec"]
      "template.metadata" "path Pattern 'template.metadata' must start with recursive '..'"
      (fun a ha => absurd ha (List.not_mem_nil a)) (by decide) (by decide)
      (by decide)).1.trans (by decide),
    (createPatch_first_error sampleLib (sampleServer annotationsDoc malformedConfigs)
      (sampleRequest "tfjobs" "testUser") ["..metadata.annotations"] ["..spec"]
      "template.metadata" "path Pattern 'template.metadata' must start with recursive '..'"
      (fun a ha => absurd ha (List.not_mem_nil a)) (by decide) (by decide) (by decide)).2⟩

/-- C10: when no never-overwrite pattern of the resolved entry matches and `getPaths`
succeeds on every selector of the entry, `createPatch` returns, without error, the
concatenation, in the order of the selectors, of one operation for each path of each
selector in the order of discovery; its length is the total number of discovered paths. -/
theorem createPatch_concat (lib : Lib) (whsvr : WebhookServer) (req : AdmissionRequest)
    (hno : ∀ a ∈ (resolveConfig whsvr.configMap req.Resource.Resource).NeverOverwriteAccounts,
      lib.MatchString a req.UserInfo.Username ≠ .ok true)
    (hall : ∀ s ∈ (resolveConfig whsvr.configMap req.Resource.Resource).Paths,
      (getPaths lib whsvr s).2 = none) :
    createPatch lib whsvr req =
        (((resolveConfig whsvr.configMap req.Resource.Resource).Paths).flatMap
          (fun s => (getPaths lib whsvr s).1.map (fun fpath =>
            patchOp (pathJoin [fpath, whsvr.userAnnotationKey]) req.UserInfo.Username)),
         none) ∧
      (createPatch lib whsvr req).1.length =
        (((resolveConfig whsvr.configMap req.Resource.Resource).Paths).map
          (fun s => (getPaths lib whsvr s).1.length)).sum := by
  have h : createPatch lib whsvr req =
      (((resolveConfig whsvr.configMap req.Resource.Resource).Paths).flatMap
        (fun s => (getPaths lib whsvr s).1.map (fun fpath =>
          patchOp (pathJoin [fpath, whsvr.userAnnotationKey]) req.UserInfo.Username)),
       none) := by
    unfold createPatch
    simp only
    rw [neverOverwrite_of_no_match lib _ _ hno]
    have := createPatchLoop_ok lib whsvr req _ hall [] []
    rw [List.append_nil] at this
    rw [this]
    simp [createPatchLoop]
  refine ⟨h, ?_⟩
  rw [h]
  simp [List.length_flatMap, Function.comp_def]

/-- C10 on `TestCreatePatch_skip_override_path_not_found`: the first selector yields one
operation and the second, which finds no path, none. -/
theorem createPatch_concat_witness :
    (∀ a ∈ (resolveConfig (sampleServer annotationsDoc pathNotFoundConfigs).configMap
        (sampleRequest "tfjobs" "chicken").Resource.Resource).NeverOverwriteAccounts,
      sampleLib.MatchString a (sampleRequest "tfjobs" "chicken").UserInfo.Username ≠
        .ok true) ∧
    (∀ s ∈ (resolveConfig (sampleServer annotationsDoc pathNotFoundConfigs).configMap
        (sampleRequest "tfjobs" "chicken").Resource.Resource).Paths,
      (getPaths sampleLib (sampleServer annotationsDoc pathNotFoundConfigs) s).2 = none) ∧
    createPatch sampleLib (sampleServer annotationsDoc pathNotFoundConfigs)
        (sampleRequest "tfjobs" "chicken") =
      ([{ Op := "add",
          Path := "/spec/tfReplicaSpecs/Ps/template/metadata/annotations/iddecorator.username",
          Value := "chicken" }], none) :=
  ⟨fun a ha => absurd ha (List.not_mem_nil a), by decide,
    (createPatch_concat sampleLib (sampleServer annotationsDoc pathNotFoundConfigs)
      (sampleRequest "tfjobs" "chicken") (fun a ha => absurd ha (List.not_mem_nil a))
      (by decide)).1.trans (by decide)⟩

/-! ## The engine on selectors without a match, on scalars and on sequences: claims C11 to C13 -/

theorem parseJSONPath_selector (lib : Lib) (input : Value) (name template : String)
    (fs : List String) (hparse : lib.Parse name template = .ok (selectorNodes fs)) :
    parseJSONPath lib input name template =
      (FindPaths (FindResults lib (selectorPath name fs) input).2, none) := by
  have hP : Parse lib (AllowMissingKeys (New name) true) template =
      (none, { AllowMissingKeys (New name) true with parser := some (selectorNodes fs) }) := by
    unfold Parse
    have : (AllowMissingKeys (New name) true).name = name := rfl
    rw [this, hparse]
    rfl
  have h1 := FindResults_selector lib
    { AllowMissingKeys (New name) true with parser := some (selectorNodes fs) } input fs rfl
  have h2 := FindResults_selector lib (selectorPath name fs) input fs rfl
  unfold parseJSONPath
  simp only [hP]
  rcases hF : FindResults lib
    { AllowMissingKeys (New name) true with parser := some (selectorNodes fs) } input with
    ⟨⟨x, e⟩, j2⟩
  rw [hF] at h1
  simp only at h1
  rcases h1 with ⟨he, hpaths⟩
  subst he
  simp only [FindPaths, hpaths, h2.2]
  rfl

mutual
theorem foundStacks_no_match (fs : List String) :
    ∀ (D : Value) (st : List String), mappingsOnly D = true →
      (∀ ks ∈ keyChains D, ¬ fs <:+ st ++ ks) → foundStacks fs st D = []
  | .object members, st, hD, h => by
    have h0 : ¬ fs <:+ st := by
      have := h [] (nil_mem_keyChains _)
      simpa using this
    unfold foundStacks
    rw [if_neg h0]
    simp only [mappingsOnly] at hD
    apply foundMembers_no_match fs members st hD
    intro ks hks
    apply h ks
    simp only [keyChains, List.mem_cons]
    exact Or.inr hks
  | .null, st, _, h => by
    have h0 : ¬ fs <:+ st := by simpa using h [] (nil_mem_keyChains _)
    unfold foundStacks
    rw [if_neg h0]
  | .bool _, st, _, h => by
    have h0 : ¬ fs <:+ st := by simpa using h [] (nil_mem_keyChains _)
    unfold foundStacks
    rw [if_neg h0]
  | .number _, st, _, h => by
    have h0 : ¬ fs <:+ st := by simpa using h [] (nil_mem_keyChains _)
    unfold foundStacks
    rw [if_neg h0]
  | .string _, _, hD, _ => by simp [mappingsOnly] at hD
  | .array _, _, hD, _ => by simp [mappingsOnly] at hD
  | .int _, _, hD, _ => by simp [mappingsOnly] at hD
  | .uint8 _, _, hD, _ => by simp [mappingsOnly] at hD
theorem foundMembers_no_match (fs : List String) :
    ∀ (members : List (String × Value)) (st : List String),
      mappingsOnlyMembers members = true →
      (∀ ks ∈ memberChains members, ¬ fs <:+ st ++ ks) → foundMembers fs st members = []
  | [], _, _, _ => rfl
  | (key, child) :: rest, st, hD, h => by
    simp only [mappingsOnlyMembers, Bool.and_eq_true] at hD
    unfold foundMembers
    rw [foundStacks_no_match fs child (st ++ [key]) hD.1 (by
        intro ks hks
        have := h (key :: ks) (by
          simp only [memberChains, List.mem_append, List.mem_map]
          exact Or.inl ⟨ks, hks, rfl⟩)
        simpa using this),
      foundMembers_no_match fs rest st hD.2 (by
        intro ks hks
        apply h ks
        simp only [memberChains, List.mem_append]
        exact Or.inr hks)]
    rfl
end

set_option maxRecDepth 20000 in
/-- C11, as stated, fails: a string is walked byte by byte. In the document
`{"s": "0123…"}`, whose string has 49 bytes, no location has a key chain that ends with the
field `0` of the selector `..0`, yet the path `/s/0` is recorded for byte 48 and the
selector contributes an operation. -/
theorem string_byte_recorded :
    keyChains longStringDoc = [[], ["s"]] ∧
    (∀ ks ∈ keyChains longStringDoc, ¬ ["0"] <:+ Root :: ks) ∧
    getPaths sampleLib (sampleServer longStringDoc (fun _ => none)) "..0" =
      (["/s/0"], none) ∧
    updateAnnotations sampleLib (sampleServer longStringDoc (fun _ => none)) "..0"
      (sampleRequest "tfjobs" "testUser") =
      ([{ Op := "add", Path := "/s/0/iddecorator.username", Value := "testUser" }], none) := by
  decide

/-- C11, amended: for every document and every selector text that passes the gate and
parses to the recursive-descent node followed only by field nodes, `FindResults` returns
no error and `getPaths` returns the recorded paths without error. When the document is
built from mappings whose leaves are null, booleans and numbers, and no location of it
has a stack of segments (the root element followed by its key chain) that ends with the
fields, no path is recorded. Whenever no path is recorded, the selector contributes no
operation and the loop of `createPatch` goes on to the next selector with the patch built
so far. -/
theorem no_match_no_operation (lib : Lib) (whsvr : WebhookServer) (req : AdmissionRequest)
    (jPath : String) (fs : List String) (patch : List patchOperation) (rest : List String)
    (hgate : StartsWithRecursive jPath = true)
    (hparse : lib.Parse whsvr.userAnnotationKey ("\x7b" ++ jPath ++ "\x7d") =
      .ok (selectorNodes fs)) :
    (FindResults lib (selectorPath whsvr.userAnnotationKey fs) whsvr.unmarshalledReq).1.2 = none ∧
    getPaths lib whsvr jPath =
      (FindPaths (FindResults lib (selectorPath whsvr.userAnnotationKey fs)
        whsvr.unmarshalledReq).2, none) ∧
    (mappingsOnly whsvr.unmarshalledReq = true →
      (∀ ks ∈ keyChains whsvr.unmarshalledReq, ¬ fs <:+ Root :: ks) →
      FindPaths (FindResults lib (selectorPath whsvr.userAnnotationKey fs)
        whsvr.unmarshalledReq).2 = [] ∧
      getPaths lib whsvr jPath = ([], none)) ∧
    ((getPaths lib whsvr jPath).1 = [] →
      updateAnnotations lib whsvr jPath req = ([], none) ∧
      createPatchLoop lib whsvr req patch (jPath :: rest) =
        createPatchLoop lib whsvr req patch rest) := by
  have hg : getPaths lib whsvr jPath =
      (FindPaths (FindResults lib (selectorPath whsvr.userAnnotationKey fs)
        whsvr.unmarshalledReq).2, none) := by
    unfold getPaths
    rw [hgate]
    exact parseJSONPath_selector lib _ _ _ fs hparse
  refine ⟨(FindResults_selector lib _ _ fs rfl).1, hg, ?_, ?_⟩
  · intro hD hno
    have hnil : FindPaths (FindResults lib (selectorPath whsvr.userAnnotationKey fs)
        whsvr.unmarshalledReq).2 = [] := by
      rw [FindPaths_selectorPath,
        foundStacks_no_match fs whsvr.unmarshalledReq [Root] hD hno]
      rfl
    exact ⟨hnil, by rw [hg, hnil]⟩
  · intro hnil
    have hu : updateAnnotations lib whsvr jPath req = ([], none) := by
      unfold updateAnnotations
      rw [hg] at hnil ⊢
      simp only at hnil ⊢
      rw [hnil]
      rfl
    refine ⟨hu, ?_⟩
    simp only [createPatchLoop, hu, List.append_nil]

/-- C11, amended, on the document `{"annotations": {"user": {}}}`: the selector
`..metadata.annotations` matches no location, records no path, and the loop goes on to
the selector `..annotations`. -/
theorem no_match_no_operation_witness :
    StartsWithRecursive "..metadata.annotations" = true ∧
    mappingsOnly (sampleServer nestedDoc (fun _ => none)).unmarshalledReq = true ∧
    (∀ ks ∈ keyChains (sampleServer nestedDoc (fun _ => none)).unmarshalledReq,
      ¬ ["metadata", "annotations"] <:+ Root :: ks) ∧
    getPaths sampleLib (sampleServer nestedDoc (fun _ => none)) "..metadata.annotations" =
      ([], none) ∧
    createPatchLoop sampleLib (sampleServer nestedDoc (fun _ => none))
      (sampleRequest "tfjobs" "chicken") [] ["..metadata.annotations", "..annotations"] =
      ([{ Op := "add", Path := "/annotations/iddecorator.username", Value := "chicken" }],
        none) :=
  ⟨by decide, by decide, by decide,
    ((no_match_no_operation sampleLib (sampleServer nestedDoc (fun _ => none))
      (sampleRequest "tfjobs" "chicken") "..metadata.annotations" ["metadata", "annotations"]
      [] ["..annotations"] (by decide) (by rfl)).2.2.1 (by decide) (by decide)).2,
    ((no_match_no_operation sampleLib (sampleServer nestedDoc (fun _ => none))
      (sampleRequest "tfjobs" "chicken") "..metadata.annotations" ["metadata", "annotations"]
      [] ["..annotations"] (by decide) (by rfl)).2.2.2 (by decide)).2.trans (by decide)⟩

set_option maxRecDepth 20000 in
/-- C12, as stated, fails: a string is walked byte by byte like a sequence, so the string
of 49 bytes records the path `/0` for the selector `..0` (byte 48 has the segment `0`);
and the selector whose one field is `/` matches the root of every document, null
included. -/
theorem scalar_document_records_path :
    getPaths sampleLib
      (sampleServer (.string "0123456789012345678901234567890123456789012345678")
        (fun _ => none)) "..0" = (["/0"], none) ∧
    FindPaths (FindResults sampleLib (selectorPath "test" ["/"]) Value.null).2 = ["/"] := by
  decide

/-- C12, amended: for every document that is null, a boolean or a number, and every
selector whose field chain is not empty and is not the single field `/`, `FindResults`
records no path. -/
theorem scalar_document_no_path (lib : Lib) (name : String) (D : Value) (fs : List String)
    (hD : D = Value.null ∨ (∃ b, D = Value.bool b) ∨ (∃ n, D = Value.number n))
    (hne : fs ≠ []) (hroot : fs ≠ [Root]) :
    FindPaths (FindResults lib (selectorPath name fs) D).2 = [] := by
  rw [FindPaths_selectorPath]
  have hs : ¬ fs <:+ [Root] := by
    intro h
    rw [List.suffix_cons_iff] at h
    rcases h with h | h
    · exact hroot h
    · exact hne (List.suffix_nil.1 h)
  unfold foundStacks
  rw [if_neg hs]
  rcases hD with rfl | ⟨b, rfl⟩ | ⟨n, rfl⟩ <;> rfl

/-- C12, amended, at the document `3` and the selector `..metadata.annotations`. -/
theorem scalar_document_no_path_witness :
    (Value.number 0x4008000000000000 = Value.null ∨
      (∃ b, Value.number 0x4008000000000000 = Value.bool b) ∨
      (∃ n, Value.number 0x4008000000000000 = Value.number n)) ∧
    ["metadata", "annotations"] ≠ [] ∧ ["metadata", "annotations"] ≠ [Root] ∧
    FindPaths (FindResults sampleLib (selectorPath "test" ["metadata", "annotations"])
      (Value.number 0x4008000000000000)).2 = [] :=
  ⟨Or.inr (Or.inr ⟨_, rfl⟩), by decide, by decide,
    scalar_document_no_path sampleLib "test" (Value.number 0x4008000000000000)
      ["metadata", "annotations"] (Or.inr (Or.inr ⟨_, rfl⟩)) (by decide) (by decide)⟩

/-- C13 fails on the code: for the document `{"items": [{"a": null}, {"a": null}]}` and
the selector `..a` the recorded paths carry, for the elements 0 and 1 of the sequence, the
segments made of the characters with the codes 0 and 1, not the decimal texts `0` and
`1`; no index below ten has its decimal text as segment. -/
theorem sequence_segment_not_decimal :
    FindPaths (FindResults sampleLib (selectorPath "test" ["a"])
      (.object [("items", .array [.object [("a", .null)], .object [("a", .null)]])])).2 =
      [pathJoin ["/", "items", String.singleton (Char.ofNat 0), "a"],
       pathJoin ["/", "items", String.singleton (Char.ofNat 1), "a"]] ∧
    "/items/0/a" ∉ FindPaths (FindResults sampleLib (selectorPath "test" ["a"])
      (.object [("items", .array [.object [("a", .null)], .object [("a", .null)]])])).2 ∧
    (∀ i ∈ List.range 10, runeString i ≠ toString i) := by
  decide

/-! ## The dispatcher: claims C14, C15 and C18 to C20 -/

/-- C14: for every request whose object decodes and for which `createPatch` returns the
operations `ops` without error, `mutate` returns the response with `allowed = true`, the
patch type `JSONPatch` and, as patch, the encoding by `json.Marshal` of `ops`. -/
theorem mutate_patch_response (lib : Lib) (whsvr : WebhookServer) (req : AdmissionRequest)
    (doc : Value) (ops : List patchOperation) (patchBytes : String)
    (hu : lib.Unmarshal req.Object.Raw = .ok doc)
    (hc : createPatch lib { whsvr with unmarshalledReq := doc } req = (ops, none))
    (hm : lib.Marshal ops = .ok patchBytes) :
    (mutate lib whsvr { Request := some req }).map Prod.fst =
      some { UID := "", Allowed := true, Result := none, Patch := some patchBytes,
             PatchType := some PatchType.JSONPatch } := by
  unfold mutate
  simp only [hu, hc, hm]
  rfl

/-- C14 on scenario E2: the object `{"metadata":{"annotations":{"haha":"hehe"}}}`, the
selector `..metadata.annotations` and the user `alice`. -/
theorem mutate_patch_response_witness :
    sampleLib.Unmarshal podRaw = .ok podDoc ∧
    createPatch sampleLib
      { sampleServer Value.null annotationsConfigs with unmarshalledReq := podDoc }
      { sampleRequest "pods" "alice" with Object := { Raw := podRaw } } =
      ([{ Op := "add", Path := "/metadata/annotations/iddecorator.username",
          Value := "alice" }], none) ∧
    (mutate sampleLib (sampleServer Value.null annotationsConfigs)
      { Request := some { sampleRequest "pods" "alice" with Object := { Raw := podRaw } } }).map
      Prod.fst =
      some { UID := "", Allowed := true, Result := none,
             Patch := some ("[\x7b\"op\":\"add\"," ++
               "\"path\":\"/metadata/annotations/iddecorator.username\"," ++
               "\"value\":\"alice\"\x7d]"),
             PatchType := some PatchType.JSONPatch } :=
  ⟨by rfl, by decide,
    mutate_patch_response sampleLib (sampleServer Value.null annotationsConfigs)
      { sampleRequest "pods" "alice" with Object := { Raw := podRaw } } podDoc
      [{ Op := "add", Path := "/metadata/annotations/iddecorator.username", Value := "alice" }]
      _ (by rfl) (by decide) (by rfl)⟩

/-- C15, as stated, fails: the body of a review whose request carries no object decodes,
the object does not, and the response carries the message with `allowed` unset. -/
theorem undecodable_object_not_allowed :
    (sampleCodec.Decode noObjectReviewBody).2 = none ∧
    (answerReview sampleLib sampleCodec (sampleServer Value.null annotationsConfigs)
      noObjectReviewBody).map (fun x => x.1.Response) =
      some (some { UID := "000", Allowed := false,
                   Result := some { Message := "unexpected end of JSON input" },
                   Patch := none, PatchType := none }) := by
  decide

/-- C15, amended: for every body that decodes as a review with a request, the response
carries the UID of the request, and it has `allowed = true` exactly when the object
decodes and the patch is encoded, whether the patch is empty or not and whether
`createPatch` reported an error or not; otherwise it carries a message, no patch and
`allowed` unset, as does the response for a body that does not decode. -/
theorem allowed_iff_patch_encoded (lib : Lib) (codec : Codec) (whsvr : WebhookServer)
    (body : String) :
    (∀ err, (codec.Decode body).2 = some err →
      ∃ resp whsvr1, answerReview lib codec whsvr body =
          some ({ Request := none, Response := some resp }, whsvr1) ∧
        resp.Allowed = false ∧ resp.Result = some { Message := err } ∧ resp.Patch = none) ∧
    (∀ req, (codec.Decode body).2 = none → (codec.Decode body).1.Request = some req →
      ∃ resp whsvr1, answerReview lib codec whsvr body =
          some ({ Request := none, Response := some resp }, whsvr1) ∧
        resp.UID = req.UID ∧
        (resp.Allowed = true ↔
          ∃ doc patchBytes, lib.Unmarshal req.Object.Raw = .ok doc ∧
            lib.Marshal (createPatch lib { whsvr with unmarshalledReq := doc } req).1 =
              .ok patchBytes) ∧
        (resp.Allowed = false → (∃ msg, resp.Result = some { Message := msg }) ∧
          resp.Patch = none)) := by
  constructor
  · intro err he
    unfold answerReview
    simp only [he]
    cases hr : (codec.Decode body).1.Request with
    | none => exact ⟨_, _, rfl, rfl, rfl, rfl⟩
    | some req => exact ⟨_, _, rfl, rfl, rfl, rfl⟩
  · intro req he hr
    unfold answerReview
    simp only [he, hr]
    unfold mutate
    simp only [hr]
    cases hu : lib.Unmarshal req.Object.Raw with
    | error e =>
      refine ⟨_, _, rfl, rfl, ?_, ?_⟩
      · constructor
        · intro h; exact absurd h (by simp)
        · rintro ⟨doc, pb, h1, _⟩; exact absurd h1 (by simp)
      · intro _; exact ⟨⟨e, rfl⟩, rfl⟩
    | ok doc =>
      simp only
      cases hm : lib.Marshal (createPatch lib { whsvr with unmarshalledReq := doc } req).1 with
      | error e =>
        refine ⟨_, _, rfl, rfl, ?_, ?_⟩
        · constructor
          · intro h; exact absurd h (by simp)
          · rintro ⟨doc1, pb, h1, h2⟩
            have hd : doc1 = doc := (Except.ok.inj h1).symm
            subst hd
            rw [hm] at h2
            exact absurd h2 (by simp)
        · intro _; exact ⟨⟨e, rfl⟩, rfl⟩
      | ok pb =>
        refine ⟨_, _, rfl, rfl, ?_, ?_⟩
        · constructor
          · intro _; exact ⟨doc, pb, rfl, hm⟩
          · intro _; rfl
        · intro h; exact absurd h (by simp)

/-- C15, amended, at the body of a review whose request carries the object of
`TestFindPath_pod_annotations`. -/
theorem allowed_iff_patch_encoded_witness :
    (sampleCodec.Decode podReviewBody).2 = none ∧
    (sampleCodec.Decode podReviewBody).1.Request =
      some { sampleRequest "pods" "alice" with Object := { Raw := podRaw } } ∧
    ∃ resp whsvr1, answerReview sampleLib sampleCodec
        (sampleServer Value.null annotationsConfigs) podReviewBody =
          some ({ Request := none, Response := some resp }, whsvr1) ∧
        resp.UID = ({ sampleRequest "pods" "alice" with
          Object := { Raw := podRaw } } : AdmissionRequest).UID ∧
        (resp.Allowed = true ↔
          ∃ doc patchBytes,
            sampleLib.Unmarshal ({ sampleRequest "pods" "alice" with
              Object := { Raw := podRaw } } : AdmissionRequest).Object.Raw = .ok doc ∧
            sampleLib.Marshal (createPatch sampleLib
              { sampleServer Value.null annotationsConfigs with unmarshalledReq := doc }
              { sampleRequest "pods" "alice" with Object := { Raw := podRaw } }).1 =
              .ok patchBytes) ∧
        (resp.Allowed = false → (∃ msg, resp.Result = some { Message := msg }) ∧
          resp.Patch = none) :=
  ⟨by rfl, by rfl,
    (allowed_iff_patch_encoded sampleLib sampleCodec
      (sampleServer Value.null annotationsConfigs) podReviewBody).2
      { sampleRequest "pods" "alice" with Object := { Raw := podRaw } } (by rfl) (by rfl)⟩

/-- C18, as stated, fails: a request with an empty body and the content type `text/plain`
is answered with 400 and counted as a bad request, not as one with an invalid content
type. -/
theorem empty_body_checked_first :
    (ServeHTTP sampleLib sampleCodec (sampleServer Value.null annotationsConfigs)
        (freshWriter none) { Body := some (.ok ""), ContentType := "text/plain" }).map
        (fun x => (x.1.status, x.2.monitoring)) =
      some (some 400, { BadRequestErrorCounts := 1 }) := by
  decide

/-- C18, amended: every request whose body is read and is not empty and whose
`Content-Type` header is not exactly `application/json` is answered with the status 415,
and `invalid_content_type_count` is incremented and nothing else of the server changes; a
request whose body is empty, nil or not readable is answered with 400 and counted in
`bad_requests_count` whatever its content type is. -/
theorem content_type_check (lib : Lib) (codec : Codec) (whsvr : WebhookServer)
    (w : ResponseWriter) (r : HttpRequest) :
    (readBody r ≠ "" → r.ContentType ≠ "application/json" →
      ServeHTTP lib codec whsvr w r =
        some (httpError w "invalid Content-Type, expect `application/json`" 415,
          { whsvr with monitoring :=
              { whsvr.monitoring with
                InvalidContentTypeErrorCounts :=
                  whsvr.monitoring.InvalidContentTypeErrorCounts + 1 } }) ∧
      (w.status = none →
        (httpError w "invalid Content-Type, expect `application/json`" 415).status =
          some 415)) ∧
    (readBody r = "" →
      ServeHTTP lib codec whsvr w r =
        some (httpError w "empty body" 400,
          { whsvr with monitoring :=
              { whsvr.monitoring with
                BadRequestErrorCounts := whsvr.monitoring.BadRequestErrorCounts + 1 } }) ∧
      (w.status = none → (httpError w "empty body" 400).status = some 400)) := by
  have hstatus : ∀ (msg : String) (code : Nat), w.status = none →
      (httpError w msg code).status = some code := by
    intro msg code hs
    unfold httpError writeBody writeHeader
    simp only [hs]
    split_ifs
    · rfl
    · split <;> rfl
  constructor
  · intro hb hct
    refine ⟨?_, hstatus _ _⟩
    unfold ServeHTTP
    simp only [hb, hct, if_false, ne_eq, not_false_eq_true, if_true]
  · intro hb
    refine ⟨?_, hstatus _ _⟩
    unfold ServeHTTP
    simp only [hb, if_true]

/-- C18, amended, at a request with a body and the content type `text/plain`. -/
theorem content_type_check_witness :
    readBody { Body := some (.ok "x"), ContentType := "text/plain" } ≠ "" ∧
    ({ Body := some (.ok "x"), ContentType := "text/plain" } : HttpRequest).ContentType ≠
      "application/json" ∧
    (ServeHTTP sampleLib sampleCodec (sampleServer Value.null annotationsConfigs)
        (freshWriter none) { Body := some (.ok "x"), ContentType := "text/plain" }).map
        (fun x => (x.1.status, x.2.monitoring)) =
      some (some 415, { InvalidContentTypeErrorCounts := 1 }) :=
  ⟨by decide, by decide,
    (congrArg (Option.map (fun x : ResponseWriter × WebhookServer =>
        (x.1.status, x.2.monitoring)))
      ((content_type_check sampleLib sampleCodec (sampleServer Value.null annotationsConfigs)
        (freshWriter none) { Body := some (.ok "x"), ContentType := "text/plain" }).1
        (by decide) (by decide)).1).trans (by decide)⟩

theorem writeReview_decodeErrorCounts (codec : Codec) (whsvr : WebhookServer)
    (w : ResponseWriter) (review : AdmissionReview) :
    (writeReview codec whsvr w review).2.monitoring.DecodeErrorCounts =
      whsvr.monitoring.DecodeErrorCounts := by
  unfold writeReview
  simp only
  cases codec.MarshalReview review <;> simp only <;> split <;> rfl

theorem writeReview_successCounts (codec : Codec) (whsvr : WebhookServer)
    (w : ResponseWriter) (review : AdmissionReview) :
    (writeReview codec whsvr w review).2.monitoring.SuccessCounts =
      whsvr.monitoring.SuccessCounts + 1 := by
  unfold writeReview
  simp only
  cases codec.MarshalReview review <;> simp only <;> split <;> rfl

/-- C19, as stated, fails: for the review whose request carries no object the response
carries the message of the decoder and no patch, but `decode_error_count` stays at
zero. -/
theorem undecodable_object_not_counted :
    (answerReview sampleLib sampleCodec (sampleServer Value.null annotationsConfigs)
      noObjectReviewBody).map (fun x => x.1.Response) =
      some (some { UID := "000", Allowed := false,
                   Result := some { Message := "unexpected end of JSON input" },
                   Patch := none, PatchType := none }) ∧
    (ServeHTTP sampleLib sampleCodec (sampleServer Value.null annotationsConfigs)
        (freshWriter none)
        { Body := some (.ok noObjectReviewBody), ContentType := "application/json" }).map
        (fun x => x.2.monitoring.DecodeErrorCounts) = some 0 := by
  decide

/-- C19, amended: for every request that passes the checks of the body and of the content
type, whose body decodes as a review with a request and whose object does not decode, the
review sent back carries the response with the UID of the request, the message of the
decoder, no patch and `allowed` unset; the server is left as it was up to there, and after
`ServeHTTP` the counter `decode_error_count`, which counts the bodies that do not decode,
is not incremented. -/
theorem undecodable_object_response (lib : Lib) (codec : Codec) (whsvr : WebhookServer)
    (w : ResponseWriter) (r : HttpRequest) (ar : AdmissionReview) (req : AdmissionRequest)
    (err : String) (hb : readBody r ≠ "") (hct : r.ContentType = "application/json")
    (hd : codec.Decode (readBody r) = (ar, none)) (hr : ar.Request = some req)
    (hu : lib.Unmarshal req.Object.Raw = .error err) :
    answerReview lib codec whsvr (readBody r) =
      some ({ Request := none,
              Response := some { UID := req.UID, Allowed := false,
                                 Result := some { Message := err },
                                 Patch := none, PatchType := none } }, whsvr) ∧
    ∃ out, ServeHTTP lib codec whsvr w r = some out ∧
      out.2.monitoring.DecodeErrorCounts = whsvr.monitoring.DecodeErrorCounts := by
  have h : answerReview lib codec whsvr (readBody r) =
      some ({ Request := none,
              Response := some { UID := req.UID, Allowed := false,
                                 Result := some { Message := err },
                                 Patch := none, PatchType := none } }, whsvr) := by
    unfold answerReview
    simp only [hd, hr]
    unfold mutate
    simp only [hr, hu]
  refine ⟨h, ?_⟩
  unfold ServeHTTP
  simp only [hb, hct, h, if_false, ne_eq, not_true_eq_false]
  exact ⟨_, rfl, writeReview_decodeErrorCounts _ _ _ _⟩

/-- C19, amended, at the review whose request carries no object. -/
theorem undecodable_object_response_witness :
    readBody { Body := some (.ok noObjectReviewBody), ContentType := "application/json" } ≠
      "" ∧
    sampleCodec.Decode (readBody
      { Body := some (.ok noObjectReviewBody), ContentType := "application/json" }) =
      ({ Request := some { sampleRequest "pods" "alice" with Object := { Raw := "" } } },
        none) ∧
    sampleLib.Unmarshal "" = .error "unexpected end of JSON input" ∧
    ∃ out, ServeHTTP sampleLib sampleCodec (sampleServer Value.null annotationsConfigs)
        (freshWriter none)
        { Body := some (.ok noObjectReviewBody), ContentType := "application/json" } =
        some out ∧
      out.2.monitoring.DecodeErrorCounts =
        (sampleServer Value.null annotationsConfigs).monitoring.DecodeErrorCounts :=
  ⟨by decide, by rfl, by rfl,
    (undecodable_object_response sampleLib sampleCodec
      (sampleServer Value.null annotationsConfigs) (freshWriter none)
      { Body := some (.ok noObjectReviewBody), ContentType := "application/json" }
      { Request := some { sampleRequest "pods" "alice" with Object := { Raw := "" } } }
      { sampleRequest "pods" "alice" with Object := { Raw := "" } }
      "unexpected end of JSON input" (by decide) (by rfl) (by rfl) (by rfl) (by rfl)).2⟩

/-- C20 fails on the code: for a request that passes both checks and a connection on
which the write fails, `response_write_error_count` and `success_response_count` are both
incremented; whatever the outcome of the encoding and of the write, the end of `ServeHTTP`
increments `success_response_count`. -/
theorem success_counted_on_write_failure :
    (ServeHTTP sampleLib sampleCodec (sampleServer Value.null annotationsConfigs)
        (freshWriter (some "broken pipe"))
        { Body := some (.ok podReviewBody), ContentType := "application/json" }).map
        (fun x => x.2.monitoring) =
      some { ResponseWriteErrorCounts := 1, SuccessCounts := 1 } ∧
    (∀ (codec : Codec) (whsvr : WebhookServer) (w : ResponseWriter)
        (review : AdmissionReview),
      (writeReview codec whsvr w review).2.monitoring.SuccessCounts =
        whsvr.monitoring.SuccessCounts + 1) :=
  ⟨by decide, writeReview_successCounts⟩

/-! ## Lemmas on the application of a patch -/

theorem mapIndex_nil (key : String) : mapIndex [] key = none := rfl

theorem mapIndex_cons (k : String) (x : Value) (rest : List (String × Value)) (key : String) :
    mapIndex ((k, x) :: rest) key = if k = key then some x else mapIndex rest key := by
  unfold mapIndex
  by_cases h : k = key
  · simp [List.find?, h]
  · simp [List.find?, h]

theorem mapIndex_setMember_self (members : List (String × Value)) (t : String) (v : Value) :
    mapIndex (setMember members t v) t = some v := by
  induction members with
  | nil => simp [setMember, mapIndex_cons]
  | cons m rest ih =>
    rcases m with ⟨k, x⟩
    unfold setMember
    by_cases h : k = t
    · rw [if_pos h, mapIndex_cons, if_pos rfl]
    · rw [if_neg h, mapIndex_cons, if_neg h, ih]

theorem mapIndex_setMember_ne (members : List (String × Value)) (s t : String) (v : Value)
    (hne : s ≠ t) : mapIndex (setMember members t v) s = mapIndex members s := by
  induction members with
  | nil => simp [setMember, mapIndex_cons, mapIndex_nil, Ne.symm hne]
  | cons m rest ih =>
    rcases m with ⟨k, x⟩
    unfold setMember
    by_cases h : k = t
    · rw [if_pos h, mapIndex_cons, mapIndex_cons, h, if_neg (Ne.symm hne), if_neg (Ne.symm hne)]
    · rw [if_neg h, mapIndex_cons, mapIndex_cons, ih]

theorem setMember_same (members : List (String × Value)) (t : String) (x : Value)
    (h : mapIndex members t = some x) : setMember members t x = members := by
  induction members with
  | nil => simp [mapIndex_nil] at h
  | cons m rest ih =>
    rcases m with ⟨k, y⟩
    rw [mapIndex_cons] at h
    unfold setMember
    by_cases hk : k = t
    · rw [if_pos hk] at h
      rw [if_pos hk, hk, Option.some.inj h]
    · rw [if_neg hk] at h
      rw [if_neg hk, ih h]

/-- An `add` at a member of a mapping succeeds. -/
theorem addAt_isSome (v : Value) : ∀ (ts : List String) (d : Value),
    memberTarget ts d = true → ∃ d1, addAt v ts d = some d1
  | [], d, h => by cases d <;> simp [memberTarget] at h
  | [t], d, h => by
    cases d with
    | object members => exact ⟨_, rfl⟩
    | _ => simp [memberTarget] at h
  | t :: t2 :: ts, d, h => by
    cases d with
    | object members =>
      simp only [memberTarget] at h
      cases hm : mapIndex members t with
      | none => rw [hm] at h; simp at h
      | some child =>
        rw [hm] at h
        obtain ⟨x, hx⟩ := addAt_isSome v (t2 :: ts) child h
        refine ⟨Value.object (setMember members t x), ?_⟩
        simp only [addAt, hm, hx, Option.map_some']
    | _ => simp [memberTarget] at h

/-- After an `add` at a member of a mapping the member holds the value. -/
theorem getPath_addAt (v : Value) : ∀ (ts : List String) (d d1 : Value),
    memberTarget ts d = true → addAt v ts d = some d1 → getPath ts d1 = some v
  | [], d, d1, h, _ => by cases d <;> simp [memberTarget] at h
  | [t], d, d1, h, ha => by
    cases d with
    | object members =>
      simp only [addAt, Option.some.injEq] at ha
      subst ha
      simp only [getPath, mapIndex_setMember_self, Option.some_bind]
    | _ => simp [memberTarget] at h
  | t :: t2 :: ts, d, d1, h, ha => by
    cases d with
    | object members =>
      simp only [memberTarget] at h
      cases hm : mapIndex members t with
      | none => rw [hm] at h; simp at h
      | some child =>
        rw [hm] at h
        simp only [addAt, hm] at ha
        cases hx : addAt v (t2 :: ts) child with
        | none => rw [hx] at ha; simp at ha
        | some x =>
          rw [hx] at ha
          simp only [Option.map_some', Option.some.injEq] at ha
          subst ha
          simp only [getPath, mapIndex_setMember_self, Option.some_bind]
          exact getPath_addAt v (t2 :: ts) child x h hx
    | _ => simp [memberTarget] at h

/-- An `add` of the value that a member of a mapping holds leaves the document as it
is. -/
theorem addAt_same (v : Value) : ∀ (ts : List String) (d : Value),
    memberTarget ts d = true → getPath ts d = some v → addAt v ts d = some d
  | [], d, h, _ => by cases d <;> simp [memberTarget] at h
  | [t], d, h, hg => by
    cases d with
    | object members =>
      simp only [getPath] at hg
      cases hm : mapIndex members t with
      | none => rw [hm] at hg; simp at hg
      | some x =>
        rw [hm] at hg
        simp only [Option.some_bind, getPath, Option.some.injEq] at hg
        subst hg
        simp only [addAt, setMember_same members t x hm]
    | _ => simp [memberTarget] at h
  | t :: t2 :: ts, d, h, hg => by
    cases d with
    | object members =>
      simp only [memberTarget] at h
      cases hm : mapIndex members t with
      | none => rw [hm] at h; simp at h
      | some child =>
        rw [hm] at h
        simp only [getPath, hm, Option.some_bind] at hg
        have := addAt_same v (t2 :: ts) child h hg
        simp only [addAt, hm, this, Option.map_some', setMember_same members t child hm]
    | _ => simp [memberTarget] at h

/-- An `add` at a member of a mapping changes no location that is neither at or below
the member nor above it. -/
theorem getPath_addAt_other (v : Value) : ∀ (ts : List String) (d d1 : Value)
    (q : List String), memberTarget ts d = true → addAt v ts d = some d1 →
    ¬ ts <+: q → ¬ q <+: ts → getPath q d1 = getPath q d
  | [], d, _, _, h, _, _, _ => by cases d <;> simp [memberTarget] at h
  | _ :: _, _, _, [], _, _, _, hq => absurd List.nil_prefix hq
  | [t], d, d1, s :: q, h, ha, hts, _ => by
    cases d with
    | object members =>
      simp only [addAt, Option.some.injEq] at ha
      subst ha
      have hne : s ≠ t := by
        intro e
        apply hts
        rw [e]
        exact (List.cons_prefix_cons).2 ⟨rfl, List.nil_prefix⟩
      simp only [getPath, mapIndex_setMember_ne members s t v hne]
    | _ => simp [memberTarget] at h
  | t :: t2 :: ts, d, d1, s :: q, h, ha, hts, hq => by
    cases d with
    | object members =>
      simp only [memberTarget] at h
      cases hm : mapIndex members t with
      | none => rw [hm] at h; simp at h
      | some child =>
        rw [hm] at h
        simp only [addAt, hm] at ha
        cases hx : addAt v (t2 :: ts) child with
        | none => rw [hx] at ha; simp at ha
        | some x =>
          rw [hx] at ha
          simp only [Option.map_some', Option.some.injEq] at ha
          subst ha
          by_cases hst : s = t
          · subst hst
            simp only [getPath, mapIndex_setMember_self, hm, Option.some_bind]
            apply getPath_addAt_other v (t2 :: ts) child x q h hx
            · intro hp; exact hts ((List.cons_prefix_cons).2 ⟨rfl, hp⟩)
            · intro hp; exact hq ((List.cons_prefix_cons).2 ⟨rfl, hp⟩)
          · simp only [getPath, mapIndex_setMember_ne members s t x hst]
    | _ => simp [memberTarget] at h

/-- An `add` at a member of a mapping leaves every other member target a member target,
unless it is set strictly above it. -/
theorem memberTarget_addAt (v : Value) : ∀ (ts : List String) (d d1 : Value)
    (p : List String), memberTarget ts d = true → addAt v ts d = some d1 →
    memberTarget p d = true → (ts <+: p → ts = p) → memberTarget p d1 = true
  | [], d, _, _, h, _, _, _ => by cases d <;> simp [memberTarget] at h
  | _ :: _, d, _, [], _, _, hp, _ => by cases d <;> simp [memberTarget] at hp
  | [t], d, d1, [s], h, ha, _, _ => by
    cases d with
    | object members =>
      simp only [addAt, Option.some.injEq] at ha
      subst ha
      rfl
    | _ => simp [memberTarget] at h
  | [t], d, d1, s :: s2 :: p, h, ha, hp, hpre => by
    cases d with
    | object members =>
      simp only [addAt, Option.some.injEq] at ha
      subst ha
      have hne : s ≠ t := by
        intro e
        have := hpre (by rw [e]; exact (List.cons_prefix_cons).2 ⟨rfl, List.nil_prefix⟩)
        simp at this
      simp only [memberTarget, mapIndex_setMember_ne members s t v hne]
      simpa only [memberTarget] using hp
    | _ => simp [memberTarget] at h
  | t :: t2 :: ts, d, d1, [s], h, ha, _, _ => by
    cases d with
    | object members =>
      simp only [memberTarget] at h
      cases hm : mapIndex members t with
      | none => rw [hm] at h; simp at h
      | some child =>
        simp only [addAt, hm] at ha
        cases hx : addAt v (t2 :: ts) child with
        | none => rw [hx] at ha; simp at ha
        | some x =>
          rw [hx] at ha
          simp only [Option.map_some', Option.some.injEq] at ha
          subst ha
          rfl
    | _ => simp [memberTarget] at h
  | t :: t2 :: ts, d, d1, s :: s2 :: p, h, ha, hp, hpre => by
    cases d with
    | object members =>
      simp only [memberTarget] at h
      cases hm : mapIndex members t with
      | none => rw [hm] at h; simp at h
      | some child =>
        rw [hm] at h
        simp only [addAt, hm] at ha
        cases hx : addAt v (t2 :: ts) child with
        | none => rw [hx] at ha; simp at ha
        | some x =>
          rw [hx] at ha
          simp only [Option.map_some', Option.some.injEq] at ha
          subst ha
          simp only [memberTarget] at hp
          by_cases hst : s = t
          · subst hst
            rw [hm] at hp
            simp only [memberTarget, mapIndex_setMember_self]
            apply memberTarget_addAt v (t2 :: ts) child x (s2 :: p) h hx hp
            intro hpp
            have := hpre ((List.cons_prefix_cons).2 ⟨rfl, hpp⟩)
            exact List.tail_eq_of_cons_eq this
          · simp only [memberTarget, mapIndex_setMember_ne members s t x hst]
            exact hp
    | _ => simp [memberTarget] at h

/-- The `add` of one value at member targets none of which lies strictly above another:
it succeeds, every target holds the value afterwards, every location that is neither at,
below nor above a target is unchanged, and a second application changes nothing. -/
theorem addAll_spec (v : Value) : ∀ (ps : List (List String)) (D : Value),
    (∀ p ∈ ps, memberTarget p D = true) →
    (∀ p ∈ ps, ∀ p1 ∈ ps, p <+: p1 → p = p1) →
    ∃ D1, addAll v ps D = some D1 ∧
      (∀ p ∈ ps, getPath p D1 = some v) ∧
      (∀ q, (∀ p ∈ ps, ¬ p <+: q ∧ ¬ q <+: p) → getPath q D1 = getPath q D) ∧
      (∀ p0, memberTarget p0 D = true → (∀ p ∈ ps, p <+: p0 → p = p0) →
        memberTarget p0 D1 = true) ∧
      addAll v ps D1 = some D1
  | [], D, _, _ =>
    ⟨D, rfl, fun p hp => absurd hp (List.not_mem_nil _), fun _ _ => rfl,
      fun _ h _ => h, rfl⟩
  | p :: rest, D, hT, hP => by
    obtain ⟨d1, hd1⟩ := addAt_isSome v p D (hT p (List.mem_cons_self _ _))
    have hTp := hT p (List.mem_cons_self _ _)
    have hT1 : ∀ p1 ∈ rest, memberTarget p1 d1 = true := fun p1 h1 =>
      memberTarget_addAt v p D d1 p1 hTp hd1 (hT p1 (List.mem_cons_of_mem _ h1))
        (hP p (List.mem_cons_self _ _) p1 (List.mem_cons_of_mem _ h1))
    have hP1 : ∀ p1 ∈ rest, ∀ p2 ∈ rest, p1 <+: p2 → p1 = p2 := fun p1 h1 p2 h2 =>
      hP p1 (List.mem_cons_of_mem _ h1) p2 (List.mem_cons_of_mem _ h2)
    obtain ⟨D1, hall, hval, hframe, hpres, hidem⟩ := addAll_spec v rest d1 hT1 hP1
    have happly : addAll v (p :: rest) D = some D1 := by
      simp only [addAll, hd1, Option.some_bind, hall]
    have hvalp : getPath p D1 = some v := by
      by_cases hmem : p ∈ rest
      · exact hval p hmem
      · rw [hframe p, getPath_addAt v p D d1 hTp hd1]
        intro p1 h1
        constructor
        · intro hpre
          have := hP p1 (List.mem_cons_of_mem _ h1) p (List.mem_cons_self _ _) hpre
          exact hmem (this ▸ h1)
        · intro hpre
          have := hP p (List.mem_cons_self _ _) p1 (List.mem_cons_of_mem _ h1) hpre
          exact hmem (this ▸ h1)
    have hTD1 : memberTarget p D1 = true := by
      apply hpres p (memberTarget_addAt v p D d1 p hTp hd1 hTp (fun _ => rfl))
      intro p1 h1 hpre
      exact hP p1 (List.mem_cons_of_mem _ h1) p (List.mem_cons_self _ _) hpre
    refine ⟨D1, happly, ?_, ?_, ?_, ?_⟩
    · intro p1 h1
      rcases List.mem_cons.1 h1 with rfl | h1
      · exact hvalp
      · exact hval p1 h1
    · intro q hq
      rw [hframe q (fun p1 h1 => hq p1 (List.mem_cons_of_mem _ h1))]
      exact getPath_addAt_other v p D d1 q hTp hd1 (hq p (List.mem_cons_self _ _)).1
        (hq p (List.mem_cons_self _ _)).2
    · intro p0 h0 hc
      apply hpres p0 (memberTarget_addAt v p D d1 p0 hTp hd1 h0 (hc p (List.mem_cons_self _ _)))
      intro p1 h1
      exact hc p1 (List.mem_cons_of_mem _ h1)
    · simp only [addAll, addAt_same v p D1 hTD1 hvalp, Option.some_bind, hidem]

/-! ## The operations of a patch and their targets -/

theorem unescapeToken_of_no_tilde : ∀ (e : List Char), '~' ∉ e → unescapeToken e = e
  | [], _ => rfl
  | ch :: rest, h => by
    have hc : ch ≠ '~' := fun e => h (e ▸ List.mem_cons_self _ _)
    have hr : '~' ∉ rest := fun hm => h (List.mem_cons_of_mem _ hm)
    have ih := unescapeToken_of_no_tilde rest hr
    unfold unescapeToken
    split
    · rename_i heq
      exact absurd (List.cons.inj heq).1 hc
    · rename_i heq
      exact absurd (List.cons.inj heq).1 hc
    · rename_i heq
      cases heq
      rw [ih]
    · rename_i heq
      cases heq

/-- The path that `updateAnnotations` joins from the path of a location with plain keys
and a plain annotation key, none of them with a tilde, is the JSON Pointer to the member
with that key of the location. -/
theorem pointerTokens_pathJoin (ks : List String) (k : String)
    (hks : ∀ x ∈ ks, plainName x = true) (hk : plainName k = true)
    (ht : ∀ x ∈ ks ++ [k], '~' ∉ x.data) :
    pointerTokens (pathJoin [pathJoin (Root :: ks), k]) = some (ks ++ [k]) := by
  have hall : ∀ x ∈ ks ++ [k], plainName x = true := by
    intro x hx
    rcases List.mem_append.1 hx with h | h
    · exact hks x h
    · rw [List.mem_singleton.1 h]; exact hk
  have hkey : plainKey k = true := by
    unfold plainKey splitSlash
    rw [pathElems_plain k hk]
    simpa using hk
  have hdata : (pathJoin [pathJoin (Root :: ks), k]).data =
      '/' :: ['/'].intercalate ((ks ++ [k]).map String.data) := by
    rw [pathJoin_key ks k hkey, pathJoin_plain ks hks]
    cases ks with
    | nil => simp [renderPath, List.intercalate]
    | cons x rest =>
      have hne : renderPath (x :: rest) ≠ "/" := by
        intro e
        have hd := congrArg String.data e
        simp only [renderPath] at hd
        have h1 : ['/'].intercalate ((x :: rest).map String.data) = [] := by
          simpa using hd
        refine intercalate_ne_nil _ (by simp) ?_ h1
        intro e1 he1
        rcases List.mem_map.1 he1 with ⟨y, hy, rfl⟩
        exact ((plainName_iff y).1 (hks y hy)).2.1
      rw [if_neg hne, List.map_append, intercalate_append _ _ (by simp) (by simp)]
      simp [renderPath, List.intercalate]
  unfold pointerTokens
  rw [hdata]
  simp only
  have hsplit : pathElems (['/'].intercalate ((ks ++ [k]).map String.data)) =
      (ks ++ [k]).map String.data := by
    rw [pathElems_intercalate _ (by simp), List.flatMap_map]
    exact flatMap_plain (ks ++ [k]) hall
  rw [hsplit, List.map_map]
  congr 1
  conv_rhs => rw [← List.map_id (ks ++ [k])]
  apply List.map_congr_left
  intro x hx
  simp only [Function.comp, id]
  rw [unescapeToken_of_no_tilde _ (ht x hx)]

/-- A patch of `add` operations with one value, all of whose paths are JSON Pointers, is
applied as `addAll` applies that value at the targets. -/
theorem applyPatch_eq_addAll (u : String) : ∀ (ops : List patchOperation) (D : Value),
    (∀ op ∈ ops, op.Op = "add" ∧ op.Value = u ∧ opTokens op ≠ []) →
    applyPatch ops D = addAll (.string u) (ops.map opTokens) D
  | [], _, _ => rfl
  | op :: rest, D, h => by
    obtain ⟨h1, h2, h3⟩ := h op (List.mem_cons_self _ _)
    have hrest : ∀ D1, applyPatch rest D1 = addAll (.string u) (rest.map opTokens) D1 :=
      fun D1 => applyPatch_eq_addAll u rest D1 (fun o ho => h o (List.mem_cons_of_mem _ ho))
    have hop : applyOp op D = addAt (.string u) (opTokens op) D := by
      unfold applyOp
      rw [if_pos h1, h2]
      unfold opTokens at h3 ⊢
      cases hp : pointerTokens op.Path with
      | none => rw [hp] at h3; exact absurd rfl h3
      | some ts => rfl
    simp only [applyPatch, List.map_cons, addAll, hop]
    congr 1
    funext D1
    exact hrest D1

theorem updateAnnotations_add (lib : Lib) (whsvr : WebhookServer) (jPath : String)
    (req : AdmissionRequest) :
    ∀ op ∈ (updateAnnotations lib whsvr jPath req).1,
      op.Op = "add" ∧ op.Value = req.UserInfo.Username := by
  intro op hop
  unfold updateAnnotations at hop
  split at hop
  · rcases List.mem_map.1 hop with ⟨p, _, rfl⟩
    exact ⟨rfl, rfl⟩
  · exact absurd hop (List.not_mem_nil _)

theorem createPatchLoop_add (lib : Lib) (whsvr : WebhookServer) (req : AdmissionRequest) :
    ∀ (paths : List String) (patch : List patchOperation),
    (∀ op ∈ patch, op.Op = "add" ∧ op.Value = req.UserInfo.Username) →
    ∀ op ∈ (createPatchLoop lib whsvr req patch paths).1,
      op.Op = "add" ∧ op.Value = req.UserInfo.Username
  | [], patch, h => h
  | jPath :: rest, patch, h => by
    unfold createPatchLoop
    have hu := updateAnnotations_add lib whsvr jPath req
    split
    · rename_i newPatch heq
      rw [heq] at hu
      apply createPatchLoop_add lib whsvr req rest
      intro op hop
      rcases List.mem_append.1 hop with h1 | h1
      · exact h op h1
      · exact hu op h1
    · exact h

/-- Every operation that `createPatch` emits is an `add` of the user name of the
request. -/
theorem createPatch_add (lib : Lib) (whsvr : WebhookServer) (req : AdmissionRequest) :
    ∀ op ∈ (createPatch lib whsvr req).1,
      op.Op = "add" ∧ op.Value = req.UserInfo.Username := by
  unfold createPatch
  simp only
  split
  · intro op hop
    exact absurd hop (List.not_mem_nil _)
  · exact createPatchLoop_add lib whsvr req _ [] (fun op hop => absurd hop (List.not_mem_nil _))

theorem memberTarget_ne_nil (ts : List String) (D : Value) (h : memberTarget ts D = true) :
    ts ≠ [] := by
  intro e
  subst e
  cases D <;> simp [memberTarget] at h

/-! ## The application of the patch: claims C16 and C17 -/

/-- C16, as stated, fails in two ways. With the annotation key `user` and the selectors
`..user` and `..annotations`, the patch made for `{"annotations": {"user": {}}}` applies
to it and yields `{"annotations": {"user": "alice"}}`, and does not apply to that result:
its first operation adds below a string. With the annotation key `0` and the selector
`..annotations`, the patch made for `{"annotations": ["x"]}` inserts the user name into
the sequence, once more each time it is applied. -/
theorem patch_applied_again_differs :
    createPatch sampleLib
      { sampleServer nestedDoc nestedConfigs with userAnnotationKey := "user" }
      (sampleRequest "tfjobs" "alice") =
      ([{ Op := "add", Path := "/annotations/user/user", Value := "alice" },
        { Op := "add", Path := "/annotations/user", Value := "alice" }], none) ∧
    applyPatch [{ Op := "add", Path := "/annotations/user/user", Value := "alice" },
        { Op := "add", Path := "/annotations/user", Value := "alice" }] nestedDoc =
      some (.object [("annotations", .object [("user", .string "alice")])]) ∧
    applyPatch [{ Op := "add", Path := "/annotations/user/user", Value := "alice" },
        { Op := "add", Path := "/annotations/user", Value := "alice" }]
        (.object [("annotations", .object [("user", .string "alice")])]) = none ∧
    createPatch sampleLib
      { sampleServer sequenceDoc annotationsOnlyConfigs with userAnnotationKey := "0" }
      (sampleRequest "tfjobs" "alice") =
      ([{ Op := "add", Path := "/annotations/0", Value := "alice" }], none) ∧
    applyPatch [{ Op := "add", Path := "/annotations/0", Value := "alice" }] sequenceDoc =
      some (.object [("annotations", .array [.string "alice", .string "x"])]) ∧
    applyPatch [{ Op := "add", Path := "/annotations/0", Value := "alice" }]
        (.object [("annotations", .array [.string "alice", .string "x"])]) =
      some (.object [("annotations", .array [.string "alice", .string "alice", .string "x"])]) ∧
    applyPatch [{ Op := "add", Path := "/annotations/0", Value := "alice" }]
        (.object [("annotations", .array [.string "alice", .string "x"])]) ≠
      some (.object [("annotations", .array [.string "alice", .string "x"])]) := by
  refine ⟨by decide, rfl, rfl, by decide, rfl, rfl, ?_⟩
  intro h
  have h1 : applyPatch [{ Op := "add", Path := "/annotations/0", Value := "alice" }]
        (.object [("annotations", .array [.string "alice", .string "x"])]) =
      some (.object [("annotations", .array [.string "alice", .string "alice", .string "x"])]) :=
    rfl
  rw [h1] at h
  simp at h

/-- C16, amended (idempotence of mutation): when the path of every operation of the
patch that `createPatch` returns for the stored document, read as a JSON Pointer,
designates a member, present or not, of a mapping that is reached from the root through
members of mappings, and no such target lies strictly above another, the patch applies to
the document, and it applies to the result and leaves it as it is. -/
theorem patch_idempotent (lib : Lib) (whsvr : WebhookServer) (req : AdmissionRequest)
    (hT : ∀ op ∈ (createPatch lib whsvr req).1,
      memberTarget (opTokens op) whsvr.unmarshalledReq = true)
    (hP : ∀ op ∈ (createPatch lib whsvr req).1, ∀ op1 ∈ (createPatch lib whsvr req).1,
      opTokens op <+: opTokens op1 → opTokens op = opTokens op1) :
    ∃ D1, applyPatch (createPatch lib whsvr req).1 whsvr.unmarshalledReq = some D1 ∧
      applyPatch (createPatch lib whsvr req).1 D1 = some D1 := by
  have hshape : ∀ op ∈ (createPatch lib whsvr req).1,
      op.Op = "add" ∧ op.Value = req.UserInfo.Username ∧ opTokens op ≠ [] := fun op hop =>
    ⟨(createPatch_add lib whsvr req op hop).1, (createPatch_add lib whsvr req op hop).2,
      memberTarget_ne_nil _ _ (hT op hop)⟩
  have hT1 : ∀ p ∈ (createPatch lib whsvr req).1.map opTokens,
      memberTarget p whsvr.unmarshalledReq = true := by
    intro p hp
    rcases List.mem_map.1 hp with ⟨op, hop, rfl⟩
    exact hT op hop
  have hP1 : ∀ p ∈ (createPatch lib whsvr req).1.map opTokens,
      ∀ p1 ∈ (createPatch lib whsvr req).1.map opTokens, p <+: p1 → p = p1 := by
    intro p hp p1 hp1
    rcases List.mem_map.1 hp with ⟨op, hop, rfl⟩
    rcases List.mem_map.1 hp1 with ⟨op1, hop1, rfl⟩
    exact hP op hop op1 hop1
  obtain ⟨D1, h1, _, _, _, h5⟩ :=
    addAll_spec (.string req.UserInfo.Username) _ whsvr.unmarshalledReq hT1 hP1
  refine ⟨D1, ?_, ?_⟩
  · rw [applyPatch_eq_addAll req.UserInfo.Username _ _ hshape]
    exact h1
  · rw [applyPatch_eq_addAll req.UserInfo.Username _ _ hshape]
    exact h5

/-- C16, amended, on the document of `TestFindPath_annotations` with the selector
`..metadata.annotations`. -/
theorem patch_idempotent_witness :
    (createPatch sampleLib (sampleServer annotationsDoc annotationsConfigs)
      (sampleRequest "tfjobs" "testUser")).1 =
      [{ Op := "add",
         Path := "/spec/tfReplicaSpecs/Ps/template/metadata/annotations/iddecorator.username",
         Value := "testUser" }] ∧
    (∀ op ∈ (createPatch sampleLib (sampleServer annotationsDoc annotationsConfigs)
        (sampleRequest "tfjobs" "testUser")).1,
      memberTarget (opTokens op) annotationsDoc = true) ∧
    (∃ D1, applyPatch (createPatch sampleLib (sampleServer annotationsDoc annotationsConfigs)
        (sampleRequest "tfjobs" "testUser")).1 annotationsDoc = some D1 ∧
      applyPatch (createPatch sampleLib (sampleServer annotationsDoc annotationsConfigs)
        (sampleRequest "tfjobs" "testUser")).1 D1 = some D1) :=
  ⟨by decide, by decide,
    patch_idempotent sampleLib (sampleServer annotationsDoc annotationsConfigs)
      (sampleRequest "tfjobs" "testUser") (by decide) (by decide)⟩

/-- C17, as stated, fails in two ways. In `{"a/b": {"annotations": {}}}` the location that
`..annotations` matches is a mapping, and the patch does not apply: its path
`/a/b/annotations/iddecorator.username` is read as four keys, the first of which the
document does not have. In `{"annotations": {"user": {}}}`, with the annotation key `user`
and the selectors `..user` and `..annotations`, both matched locations are mappings, and
after the patch the matched location `/annotations/user` is the user name, a string
without members. -/
theorem matched_mapping_not_set :
    getPaths sampleLib (sampleServer slashKeyDoc annotationsOnlyConfigs) "..annotations" =
      (["/a/b/annotations"], none) ∧
    getPath ["a/b", "annotations"] slashKeyDoc = some (.object []) ∧
    createPatch sampleLib (sampleServer slashKeyDoc annotationsOnlyConfigs)
      (sampleRequest "tfjobs" "alice") =
      ([{ Op := "add", Path := "/a/b/annotations/iddecorator.username", Value := "alice" }],
        none) ∧
    applyPatch [{ Op := "add", Path := "/a/b/annotations/iddecorator.username",
                  Value := "alice" }] slashKeyDoc = none ∧
    getPath ["annotations", "user"] nestedDoc = some (.object []) ∧
    getPath ["annotations"] nestedDoc = some (.object [("user", .object [])]) ∧
    applyPatch (createPatch sampleLib
        { sampleServer nestedDoc nestedConfigs with userAnnotationKey := "user" }
        (sampleRequest "tfjobs" "alice")).1 nestedDoc =
      some (.object [("annotations", .object [("user", .string "alice")])]) ∧
    getPath ["annotations", "user", "user"]
      (.object [("annotations", .object [("user", .string "alice")])]) = none :=
  ⟨by decide, rfl, by decide, rfl, rfl, rfl, rfl, rfl⟩

/-- C17, amended: when the path of every operation of the patch that `createPatch`
returns for the stored document, read as a JSON Pointer, designates a member, present or
not, of a mapping that is reached from the root through members of mappings, and no such
target lies strictly above another, the patch applies to the document. In the result every
target is the user name of the request; so is the member with the annotation key of
every location whose keys, like the annotation key, are plain names without a tilde and
from whose path `updateAnnotations` joined the path of an operation of the patch. Every
location that is neither at, below nor above a target is as it was in the document. -/
theorem patch_sets_members_only (lib : Lib) (whsvr : WebhookServer) (req : AdmissionRequest)
    (hT : ∀ op ∈ (createPatch lib whsvr req).1,
      memberTarget (opTokens op) whsvr.unmarshalledReq = true)
    (hP : ∀ op ∈ (createPatch lib whsvr req).1, ∀ op1 ∈ (createPatch lib whsvr req).1,
      opTokens op <+: opTokens op1 → opTokens op = opTokens op1) :
    ∃ D1, applyPatch (createPatch lib whsvr req).1 whsvr.unmarshalledReq = some D1 ∧
      (∀ op ∈ (createPatch lib whsvr req).1,
        getPath (opTokens op) D1 = some (.string req.UserInfo.Username)) ∧
      (∀ op ∈ (createPatch lib whsvr req).1, ∀ ks : List String,
        (∀ x ∈ ks, plainName x = true) → plainName whsvr.userAnnotationKey = true →
        (∀ x ∈ ks ++ [whsvr.userAnnotationKey], '~' ∉ x.data) →
        op.Path = pathJoin [pathJoin (Root :: ks), whsvr.userAnnotationKey] →
        getPath (ks ++ [whsvr.userAnnotationKey]) D1 =
          some (.string req.UserInfo.Username)) ∧
      (∀ q : List String,
        (∀ op ∈ (createPatch lib whsvr req).1, ¬ opTokens op <+: q ∧ ¬ q <+: opTokens op) →
        getPath q D1 = getPath q whsvr.unmarshalledReq) := by
  have hshape : ∀ op ∈ (createPatch lib whsvr req).1,
      op.Op = "add" ∧ op.Value = req.UserInfo.Username ∧ opTokens op ≠ [] := fun op hop =>
    ⟨(createPatch_add lib whsvr req op hop).1, (createPatch_add lib whsvr req op hop).2,
      memberTarget_ne_nil _ _ (hT op hop)⟩
  have hT1 : ∀ p ∈ (createPatch lib whsvr req).1.map opTokens,
      memberTarget p whsvr.unmarshalledReq = true := by
    intro p hp
    rcases List.mem_map.1 hp with ⟨op, hop, rfl⟩
    exact hT op hop
  have hP1 : ∀ p ∈ (createPatch lib whsvr req).1.map opTokens,
      ∀ p1 ∈ (createPatch lib whsvr req).1.map opTokens, p <+: p1 → p = p1 := by
    intro p hp p1 hp1
    rcases List.mem_map.1 hp with ⟨op, hop, rfl⟩
    rcases List.mem_map.1 hp1 with ⟨op1, hop1, rfl⟩
    exact hP op hop op1 hop1
  obtain ⟨D1, h1, h2, h3, _, _⟩ :=
    addAll_spec (.string req.UserInfo.Username) _ whsvr.unmarshalledReq hT1 hP1
  have hval : ∀ op ∈ (createPatch lib whsvr req).1,
      getPath (opTokens op) D1 = some (.string req.UserInfo.Username) := fun op hop =>
    h2 (opTokens op) (List.mem_map.2 ⟨op, hop, rfl⟩)
  refine ⟨D1, ?_, hval, ?_, ?_⟩
  · rw [applyPatch_eq_addAll req.UserInfo.Username _ _ hshape]
    exact h1
  · intro op hop ks hks hk ht hpath
    have htok : opTokens op = ks ++ [whsvr.userAnnotationKey] := by
      unfold opTokens
      rw [hpath, pointerTokens_pathJoin ks _ hks hk ht]
      rfl
    rw [← htok]
    exact hval op hop
  · intro q hq
    apply h3 q
    intro p hp
    rcases List.mem_map.1 hp with ⟨op, hop, rfl⟩
    exact hq op hop

/-- C17, amended, on `TestCreatePatch_update_patch`: the patch applies to the document of
the test and yields the document that the test expects. -/
theorem patch_sets_members_only_witness :
    (createPatch sampleLib (sampleServer updateDoc updateConfigs)
      (sampleRequest "tfjobs" "chicken")).1 =
      [{ Op := "add",
         Path := "/spec/tfReplicaSpecs/Ps/template/metadata/annotations/iddecorator.username",
         Value := "chicken" }] ∧
    (∀ op ∈ (createPatch sampleLib (sampleServer updateDoc updateConfigs)
        (sampleRequest "tfjobs" "chicken")).1,
      memberTarget (opTokens op) updateDoc = true) ∧
    applyPatch (createPatch sampleLib (sampleServer updateDoc updateConfigs)
      (sampleRequest "tfjobs" "chicken")).1 updateDoc = some updateExpected ∧
    (∃ D1, applyPatch (createPatch sampleLib (sampleServer updateDoc updateConfigs)
        (sampleRequest "tfjobs" "chicken")).1 updateDoc = some D1 ∧
      (∀ op ∈ (createPatch sampleLib (sampleServer updateDoc updateConfigs)
          (sampleRequest "tfjobs" "chicken")).1,
        getPath (opTokens op) D1 = some (.string "chicken")) ∧
      (∀ op ∈ (createPatch sampleLib (sampleServer updateDoc updateConfigs)
          (sampleRequest "tfjobs" "chicken")).1, ∀ ks : List String,
        (∀ x ∈ ks, plainName x = true) → plainName UserAnnotation = true →
        (∀ x ∈ ks ++ [ UserAnnotation], '~' ∉ x.data) →
        op.Path = pathJoin [pathJoin (Root :: ks), UserAnnotation] →
        getPath (ks ++ [ UserAnnotation]) D1 = some (.string "chicken")) ∧
      (∀ q : List String,
        (∀ op ∈ (createPatch sampleLib (sampleServer updateDoc updateConfigs)
            (sampleRequest "tfjobs" "chicken")).1,
          ¬ opTokens op <+: q ∧ ¬ q <+: opTokens op) →
        getPath q D1 = getPath q updateDoc)) :=
  ⟨by decide, by decide, rfl,
    patch_sets_members_only sampleLib (sampleServer updateDoc updateConfigs)
      (sampleRequest "tfjobs" "chicken") (by decide) (by decide)⟩

/-! ## The patch builder and the match test: claims C21, C23, C26 and C28 -/

theorem neverOverwrite_skip_error (lib : Lib) (username : String) (a err : String)
    (herr : lib.MatchString a username = .error err) :
    ∀ (pre post : List String),
      neverOverwrite lib username (pre ++ a :: post) = neverOverwrite lib username (pre ++ post)
  | [], post => by
    simp only [List.nil_append]
    rw [neverOverwrite, herr]
  | b :: pre, post => by
    have ih := neverOverwrite_skip_error lib username a err herr pre post
    simp only [List.cons_append]
    unfold neverOverwrite
    split
    · rfl
    · exact ih
    · exact ih

theorem getPaths_configMap (lib : Lib) (whsvr : WebhookServer) (cm : ConfigMap)
    (jPath : String) :
    getPaths lib { whsvr with configMap := cm } jPath = getPaths lib whsvr jPath := rfl

theorem updateAnnotations_configMap (lib : Lib) (whsvr : WebhookServer) (cm : ConfigMap)
    (jPath : String) (req : AdmissionRequest) :
    updateAnnotations lib { whsvr with configMap := cm } jPath req =
      updateAnnotations lib whsvr jPath req := rfl

theorem createPatchLoop_configMap (lib : Lib) (whsvr : WebhookServer) (cm : ConfigMap)
    (req : AdmissionRequest) :
    ∀ (paths : List String) (patch : List patchOperation),
      createPatchLoop lib { whsvr with configMap := cm } req patch paths =
        createPatchLoop lib whsvr req patch paths
  | [], _ => rfl
  | jPath :: rest, patch => by
    unfold createPatchLoop
    rw [updateAnnotations_configMap]
    split
    · exact createPatchLoop_configMap lib whsvr cm req rest _
    · rfl

/-- C21: a never-overwrite pattern on which `regexp.MatchString` reports an error is
passed over. Alone it does not make `createPatch` return early, and `createPatch` returns
for the entry with the pattern exactly what it returns, patch and error, for the entry with
the pattern removed. -/
theorem malformed_pattern_skipped (lib : Lib) (whsvr : WebhookServer) (cm cm1 : ConfigMap)
    (req : AdmissionRequest) (paths pre post : List String) (a err : String)
    (herr : lib.MatchString a req.UserInfo.Username = .error err)
    (hc : resolveConfig cm req.Resource.Resource =
      { Paths := paths, NeverOverwriteAccounts := pre ++ a :: post })
    (hc1 : resolveConfig cm1 req.Resource.Resource =
      { Paths := paths, NeverOverwriteAccounts := pre ++ post }) :
    neverOverwrite lib req.UserInfo.Username [a] = false ∧
    neverOverwrite lib req.UserInfo.Username (pre ++ a :: post) =
      neverOverwrite lib req.UserInfo.Username (pre ++ post) ∧
    createPatch lib { whsvr with configMap := cm } req =
      createPatch lib { whsvr with configMap := cm1 } req := by
  refine ⟨?_, neverOverwrite_skip_error lib _ a err herr pre post, ?_⟩
  · rw [neverOverwrite, herr]
    rfl
  · unfold createPatch
    simp only [hc, hc1, neverOverwrite_skip_error lib _ a err herr pre post,
      createPatchLoop_configMap]

/-- C21 on the document of `TestFindPath_annotations`: the pattern `(` stands before the
pattern of the tests, and the patch for `testUser` is the one built without it. -/
theorem malformed_pattern_skipped_witness :
    sampleLib.MatchString "(" (sampleRequest "tfjobs" "testUser").UserInfo.Username =
      .error "pattern outside the sample fragment" ∧
    createPatch sampleLib
      { sampleServer annotationsDoc (fun _ => none) with
        configMap := { Configs := malformedPatternConfigs } }
      (sampleRequest "tfjobs" "testUser") =
      ([{ Op := "add",
          Path := "/spec/tfReplicaSpecs/Ps/template/metadata/annotations/iddecorator.username",
          Value := "testUser" }], none) ∧
    createPatch sampleLib
      { sampleServer annotationsDoc (fun _ => none) with
        configMap := { Configs := malformedPatternConfigs } }
      (sampleRequest "tfjobs" "testUser") =
      createPatch sampleLib
        { sampleServer annotationsDoc (fun _ => none) with
          configMap := { Configs := patternRemovedConfigs } }
        (sampleRequest "tfjobs" "testUser") :=
  ⟨by rfl, by decide,
    (malformed_pattern_skipped sampleLib (sampleServer annotationsDoc (fun _ => none))
      { Configs := malformedPatternConfigs } { Configs := patternRemovedConfigs }
      (sampleRequest "tfjobs" "testUser") ["..metadata.annotations"] []
      ["system:serviceaccount:\\S+"] "(" "pattern outside the sample fragment"
      (by rfl) (by rfl) (by rfl)).2.2⟩

/-- C23 (selector match): for every stack of segments `P` and every field chain,
`pathMatch` never reads `P` or the chain outside its bounds, and it returns true exactly
when `P` has at least as many elements as the chain and its last elements are those of
the chain, position by position; for the empty chain it returns true for every `P`. -/
theorem pathMatch_tail (j : JSONPath) (P : List String) :
    pathMatchChecked j P = some (pathMatch j P) ∧
    (pathMatch j P = true ↔
      j.children.length ≤ P.length ∧ P.drop (P.length - j.children.length) = j.children) ∧
    pathMatch { j with children := [] } P = true := by
  refine ⟨?_, ?_, ?_⟩
  · unfold pathMatch
    rw [pathMatchChecked_eq_some]
    rfl
  · rw [pathMatch_iff]
    constructor
    · rintro ⟨t, rfl⟩
      refine ⟨by simp, ?_⟩
      simp
    · rintro ⟨_, h⟩
      rw [← h]
      exact List.drop_suffix _ _
  · rw [pathMatch_iff]
    exact List.nil_suffix

/-- C26: `createPatch` and `updateAnnotations` do not read the object of the request, and
`getPaths` has no access to the request at all: for requests that differ only in the bytes
of the object and the same server they return the same result. The bytes are read by
`mutate` alone, which stores the decoded document in the server before it builds the
patch, so that its response does not depend on the document stored before. -/
theorem document_read_from_server (lib : Lib) (whsvr : WebhookServer)
    (req : AdmissionRequest) (raw : String) (jPath : String) (stored : Value) :
    createPatch lib whsvr { req with Object := { Raw := raw } } = createPatch lib whsvr req ∧
    updateAnnotations lib whsvr jPath { req with Object := { Raw := raw } } =
      updateAnnotations lib whsvr jPath req ∧
    (mutate lib { whsvr with unmarshalledReq := stored } { Request := some req }).map Prod.fst =
      (mutate lib whsvr { Request := some req }).map Prod.fst ∧
    (∀ doc, lib.Unmarshal req.Object.Raw = .ok doc →
      (mutate lib whsvr { Request := some req }).map (fun x => x.2.unmarshalledReq) =
        some doc) := by
  refine ⟨?_, rfl, ?_, ?_⟩
  · unfold createPatch
    simp only
    rw [createPatchLoop_userInfo lib whsvr { req with Object := { Raw := raw } } req rfl]
  · unfold mutate
    simp only
    cases lib.Unmarshal req.Object.Raw with
    | error e => rfl
    | ok doc => rfl
  · intro doc hd
    unfold mutate
    simp only [hd]
    cases lib.Marshal (createPatch lib { whsvr with unmarshalledReq := doc } req).1 <;> rfl

/-- C26 on scenario E2: the request for the object `podRaw` and the same request with
other bytes give the same patch, and `mutate` stores the decoded document. -/
theorem document_read_from_server_witness :
    sampleLib.Unmarshal
      ({ sampleRequest "pods" "alice" with Object := { Raw := podRaw } } :
        AdmissionRequest).Object.Raw = .ok podDoc ∧
    createPatch sampleLib (sampleServer podDoc annotationsConfigs)
      { sampleRequest "pods" "alice" with Object := { Raw := "[]" } } =
      ([{ Op := "add", Path := "/metadata/annotations/iddecorator.username",
          Value := "alice" }], none) ∧
    (mutate sampleLib (sampleServer Value.null annotationsConfigs)
      { Request := some { sampleRequest "pods" "alice" with Object := { Raw := podRaw } } }).map
      (fun x => x.2.unmarshalledReq) = some podDoc :=
  ⟨by rfl, by decide,
    (document_read_from_server sampleLib (sampleServer Value.null annotationsConfigs)
      { sampleRequest "pods" "alice" with Object := { Raw := podRaw } } "[]"
      "..metadata.annotations" Value.null).2.2.2 podDoc (by rfl)⟩

/-- C28: when the resource of the request has an entry and the entry has no selector,
`createPatch` returns the empty patch and no error; the entry `alltypes` is not consulted,
whatever its selectors are. -/
theorem empty_entry_no_fallback (lib : Lib) (whsvr : WebhookServer) (req : AdmissionRequest)
    (accounts : List String)
    (h : whsvr.configMap.Configs req.Resource.Resource =
      some { Paths := [], NeverOverwriteAccounts := accounts }) :
    resolveConfig whsvr.configMap req.Resource.Resource =
      { Paths := [], NeverOverwriteAccounts := accounts } ∧
    createPatch lib whsvr req = ([], none) := by
  have hr : resolveConfig whsvr.configMap req.Resource.Resource =
      { Paths := [], NeverOverwriteAccounts := accounts } := by
    unfold resolveConfig
    rw [h]
  refine ⟨hr, ?_⟩
  unfold createPatch
  simp only [hr]
  split <;> rfl

/-- C28 on the document of `TestFindPath_annotations`: the entry of `tfjobs` has no
selector, the selector of `alltypes` matches the document, and the patch for `tfjobs` is
empty. -/
theorem empty_entry_no_fallback_witness :
    (sampleServer annotationsDoc emptyPathsConfigs).configMap.Configs
      (sampleRequest "tfjobs" "testUser").Resource.Resource =
      some { Paths := [], NeverOverwriteAccounts := [] } ∧
    createPatch sampleLib (sampleServer annotationsDoc emptyPathsConfigs)
      (sampleRequest "alltypes" "testUser") =
      ([{ Op := "add",
          Path := "/spec/tfReplicaSpecs/Ps/template/metadata/annotations/iddecorator.username",
          Value := "testUser" }], none) ∧
    createPatch sampleLib (sampleServer annotationsDoc emptyPathsConfigs)
      (sampleRequest "tfjobs" "testUser") = ([], none) :=
  ⟨by rfl, by decide,
    (empty_entry_no_fallback sampleLib (sampleServer annotationsDoc emptyPathsConfigs)
      (sampleRequest "tfjobs" "testUser") [] (by rfl)).2⟩

/-! ## The walk and the values, the order of the keys, and successive calls: claims C24, C27 and C29 -/

theorem foundStacks_of_match (fs st : List String) (v : Value) (h : fs <:+ st) :
    foundStacks fs st v = [st] := by
  unfold foundStacks
  rw [if_pos h]

mutual
theorem foundStacks_putAt (fs : List String) (v v1 : Value) :
    ∀ (D : Value) (ks st : List String), fs <:+ st ++ ks →
      foundStacks fs st (putAt v ks D) = foundStacks fs st (putAt v1 ks D)
  | D, [], st, h => by
    rw [List.append_nil] at h
    cases D <;> simp only [putAt] <;>
      rw [foundStacks_of_match fs st v h, foundStacks_of_match fs st v1 h]
  | .object members, k :: ks, st, h => by
    simp only [putAt]
    unfold foundStacks
    split
    · rfl
    · exact foundMembers_putAt fs v v1 members k ks st h
  | .null, _ :: _, _, _ => rfl
  | .bool _, _ :: _, _, _ => rfl
  | .number _, _ :: _, _, _ => rfl
  | .string _, _ :: _, _, _ => rfl
  | .array _, _ :: _, _, _ => rfl
  | .int _, _ :: _, _, _ => rfl
  | .uint8 _, _ :: _, _, _ => rfl
theorem foundMembers_putAt (fs : List String) (v v1 : Value) :
    ∀ (members : List (String × Value)) (k : String) (ks st : List String),
      fs <:+ st ++ k :: ks →
      foundMembers fs st (putAtMembers v k ks members) =
        foundMembers fs st (putAtMembers v1 k ks members)
  | [], _, _, _, _ => rfl
  | (key, child) :: rest, k, ks, st, h => by
    simp only [putAtMembers]
    by_cases hk : key = k
    · subst hk
      simp only [if_true]
      unfold foundMembers
      rw [foundStacks_putAt fs v v1 child ks (st ++ [key]) (by simpa using h),
        foundMembers_putAt fs v v1 rest key ks st h]
    · simp only [if_neg hk]
      unfold foundMembers
      rw [foundMembers_putAt fs v v1 rest k ks st h]
end


mutual
theorem keyChains_putAt (v : Value) :
    ∀ (D : Value) (ks : List String), ks ∈ keyChains D → ks ∈ keyChains (putAt v ks D)
  | D, [], _ => by
    cases D <;> simp only [putAt] <;> exact nil_mem_keyChains v
  | .object members, k :: ks, h => by
    simp only [putAt, keyChains, List.mem_cons] at h ⊢
    rcases h with h | h
    · exact absurd h (List.cons_ne_nil _ _)
    · exact Or.inr (memberChains_putAt v members k ks h)
  | .null, _ :: _, h => by simp [keyChains] at h
  | .bool _, _ :: _, h => by simp [keyChains] at h
  | .number _, _ :: _, h => by simp [keyChains] at h
  | .string _, _ :: _, h => by simp [keyChains] at h
  | .array _, _ :: _, h => by simp [keyChains] at h
  | .int _, _ :: _, h => by simp [keyChains] at h
  | .uint8 _, _ :: _, h => by simp [keyChains] at h
theorem memberChains_putAt (v : Value) :
    ∀ (members : List (String × Value)) (k : String) (ks : List String),
      k :: ks ∈ memberChains members → k :: ks ∈ memberChains (putAtMembers v k ks members)
  | [], _, _, h => by simp [memberChains] at h
  | (key, child) :: rest, k, ks, h => by
    simp only [memberChains, List.mem_append, List.mem_map] at h
    simp only [putAtMembers]
    by_cases hk : key = k
    · subst hk
      rw [if_pos rfl]
      simp only [memberChains, List.mem_append, List.mem_map]
      rcases h with ⟨ks1, h1, h2⟩ | h
      · have : ks1 = ks := List.tail_eq_of_cons_eq h2
        subst this
        exact Or.inl ⟨ks1, keyChains_putAt v child ks1 h1, rfl⟩
      · exact Or.inr (memberChains_putAt v rest key ks h)
    · rw [if_neg hk]
      simp only [memberChains, List.mem_append, List.mem_map]
      rcases h with ⟨ks1, _, h2⟩ | h
      · exact absurd (List.head_eq_of_cons_eq h2) hk
      · exact Or.inr (memberChains_putAt v rest k ks h)
end

/-- The paths of `getPaths` for a selector text that passes the gate and parses to the
nodes of `..f1.….fn`. -/
theorem getPaths_selector (lib : Lib) (whsvr : WebhookServer) (jPath : String)
    (fs : List String) (hgate : StartsWithRecursive jPath = true)
    (hparse : lib.Parse whsvr.userAnnotationKey ("\x7b" ++ jPath ++ "\x7d") =
      .ok (selectorNodes fs)) :
    getPaths lib whsvr jPath =
      ((foundStacks fs [Root] whsvr.unmarshalledReq).map pathJoin, none) := by
  unfold getPaths
  rw [hgate]
  simp only [Bool.not_true, Bool.false_eq_true, if_false]
  rw [parseJSONPath_selector lib _ _ _ fs hparse, FindPaths_selectorPath]

/-- C24: the match test of `evalRecursive` comes before the value is looked at, so a
stack that matches is recorded whatever the value is. For a selector `..f1.….fn` and a
location of a document whose key chain ends with the fields and none of whose proper
ancestors matches, the path of the location is recorded and `updateAnnotations` emits the
`add` operation for it whatever value is put at the location, and the operations for the
whole document are the same for any two values put there. -/
theorem recorded_whatever_the_value (lib : Lib) (whsvr : WebhookServer)
    (req : AdmissionRequest) (jPath : String) (fs : List String) (D : Value)
    (ks : List String) (hgate : StartsWithRecursive jPath = true)
    (hparse : lib.Parse whsvr.userAnnotationKey ("\x7b" ++ jPath ++ "\x7d") =
      .ok (selectorNodes fs))
    (hk : ks ∈ keyChains D) (hm : fs <:+ Root :: ks)
    (hfirst : ∀ ks1, ks1 <+: ks → ks1 ≠ ks → ¬ fs <:+ Root :: ks1) :
    (∀ (j : JSONPath) (st : List String) (v : Value), pathMatch j st = true →
      evalRecursive j st v = ([], { j with Paths := j.Paths ++ [pathJoin st] })) ∧
    (∀ v : Value,
      pathJoin (Root :: ks) ∈
        (getPaths lib { whsvr with unmarshalledReq := putAt v ks D } jPath).1 ∧
      patchOp (pathJoin [pathJoin (Root :: ks), whsvr.userAnnotationKey])
          req.UserInfo.Username ∈
        (updateAnnotations lib { whsvr with unmarshalledReq := putAt v ks D } jPath req).1) ∧
    (∀ v v1 : Value,
      updateAnnotations lib { whsvr with unmarshalledReq := putAt v ks D } jPath req =
        updateAnnotations lib { whsvr with unmarshalledReq := putAt v1 ks D } jPath req) := by
  have hg : ∀ v : Value,
      getPaths lib { whsvr with unmarshalledReq := putAt v ks D } jPath =
        ((foundStacks fs [Root] (putAt v ks D)).map pathJoin, none) := fun v =>
    getPaths_selector lib { whsvr with unmarshalledReq := putAt v ks D } jPath fs hgate hparse
  refine ⟨?_, ?_, ?_⟩
  · intro j st v hmatch
    unfold evalRecursive
    rw [if_pos hmatch]
  · intro v
    have hmem : pathJoin (Root :: ks) ∈ (foundStacks fs [Root] (putAt v ks D)).map pathJoin :=
      List.mem_map.2 ⟨Root :: ks,
        foundStacks_complete fs [Root] (putAt v ks D) ks (keyChains_putAt v D ks hk) hm hfirst,
        rfl⟩
    constructor
    · rw [hg v]
      exact hmem
    · unfold updateAnnotations
      rw [hg v]
      exact List.mem_map.2 ⟨_, hmem, rfl⟩
  · intro v v1
    unfold updateAnnotations
    rw [hg v, hg v1, foundStacks_putAt fs v v1 D ks [Root] hm]

/-- C24 on `TestUpdateAnnotations_annotations`: the location `annotations` below `Ps`
holds the string `hehe` instead of a mapping, and the operation is emitted all the same. -/
theorem recorded_whatever_the_value_witness :
    StartsWithRecursive "..template.metadata.annotations" = true ∧
    ["spec", "tfReplicaSpecs", "Ps", "template", "metadata", "annotations"] ∈
      keyChains annotationsDoc ∧
    ["template", "metadata", "annotations"] <:+
      Root :: ["spec", "tfReplicaSpecs", "Ps", "template", "metadata", "annotations"] ∧
    updateAnnotations sampleLib
      { sampleServer annotationsDoc (fun _ => none) with
        unmarshalledReq := putAt (.string "hehe")
          ["spec", "tfReplicaSpecs", "Ps", "template", "metadata", "annotations"]
          annotationsDoc }
      "..template.metadata.annotations" (sampleRequest "tfjobs" "testUser") =
      ([{ Op := "add",
          Path := "/spec/tfReplicaSpecs/Ps/template/metadata/annotations/iddecorator.username",
          Value := "testUser" }], none) ∧
    updateAnnotations sampleLib
      { sampleServer annotationsDoc (fun _ => none) with
        unmarshalledReq := putAt (.string "hehe")
          ["spec", "tfReplicaSpecs", "Ps", "template", "metadata", "annotations"]
          annotationsDoc }
      "..template.metadata.annotations" (sampleRequest "tfjobs" "testUser") =
      updateAnnotations sampleLib
        { sampleServer annotationsDoc (fun _ => none) with
          unmarshalledReq := putAt Value.null
            ["spec", "tfReplicaSpecs", "Ps", "template", "metadata", "annotations"]
            annotationsDoc }
        "..template.metadata.annotations" (sampleRequest "tfjobs" "testUser") :=
  ⟨by decide, by decide, by decide, by decide,
    (recorded_whatever_the_value sampleLib (sampleServer annotationsDoc (fun _ => none))
      (sampleRequest "tfjobs" "testUser") "..template.metadata.annotations"
      ["template", "metadata", "annotations"] annotationsDoc
      ["spec", "tfReplicaSpecs", "Ps", "template", "metadata", "annotations"]
      (by decide) (by rfl) (by decide) (by decide)
      (by
        intro ks1 hp
        have h : ∀ x ∈ List.inits ["spec", "tfReplicaSpecs", "Ps", "template", "metadata",
            "annotations"], x ≠ ["spec", "tfReplicaSpecs", "Ps", "template", "metadata",
            "annotations"] → ¬ ["template", "metadata", "annotations"] <:+ Root :: x := by
          decide
        exact h ks1 ((List.mem_inits _ _).2 hp))).2.2 (.string "hehe") Value.null⟩

theorem foundMembers_perm (fs st : List String) {ms ns : List (String × Value)}
    (h : ms.Perm ns) : (foundMembers fs st ms).Perm (foundMembers fs st ns) := by
  induction h with
  | nil => exact List.Perm.refl _
  | cons x _ ih =>
    obtain ⟨k, c⟩ := x
    unfold foundMembers
    exact List.Perm.append_left _ ih
  | swap x y l =>
    obtain ⟨k, c⟩ := x
    obtain ⟨k1, c1⟩ := y
    simp only [foundMembers]
    rw [← List.append_assoc, ← List.append_assoc]
    exact List.Perm.append_right _ List.perm_append_comm
  | trans _ _ ih1 ih2 => exact ih1.trans ih2

mutual
theorem foundStacks_reordered (fs : List String) :
    ∀ (D D1 : Value) (st : List String), Reordered D D1 →
      (foundStacks fs st D).Perm (foundStacks fs st D1)
  | .object members, D1, st, h => by
    simp only [Reordered] at h
    obtain ⟨members1, members2, h1, h2, rfl⟩ := h
    unfold foundStacks
    split
    · exact List.Perm.refl _
    · exact (foundMembers_reordered fs members members1 st h1).trans
        (foundMembers_perm fs st h2)
  | .array items, D1, st, h => by
    simp only [Reordered] at h
    obtain ⟨items1, h1, rfl⟩ := h
    unfold foundStacks
    split
    · exact List.Perm.refl _
    · exact foundItems_reordered fs items items1 st 0 h1
  | .null, D1, st, h => by simp only [Reordered] at h; subst h; exact List.Perm.refl _
  | .bool _, D1, st, h => by simp only [Reordered] at h; subst h; exact List.Perm.refl _
  | .number _, D1, st, h => by simp only [Reordered] at h; subst h; exact List.Perm.refl _
  | .string _, D1, st, h => by simp only [Reordered] at h; subst h; exact List.Perm.refl _
  | .int _, D1, st, h => by simp only [Reordered] at h; subst h; exact List.Perm.refl _
  | .uint8 _, D1, st, h => by simp only [Reordered] at h; subst h; exact List.Perm.refl _
theorem foundMembers_reordered (fs : List String) :
    ∀ (members members1 : List (String × Value)) (st : List String),
      ReorderedMembers members members1 →
      (foundMembers fs st members).Perm (foundMembers fs st members1)
  | [], members1, st, h => by
    simp only [ReorderedMembers] at h
    subst h
    exact List.Perm.refl _
  | (key, child) :: rest, members1, st, h => by
    simp only [ReorderedMembers] at h
    obtain ⟨child1, rest1, h1, h2, rfl⟩ := h
    simp only [foundMembers]
    exact List.Perm.append (foundStacks_reordered fs child child1 _ h1)
      (foundMembers_reordered fs rest rest1 st h2)
theorem foundItems_reordered (fs : List String) :
    ∀ (items items1 : List Value) (st : List String) (i : Nat),
      ReorderedItems items items1 →
      (foundItems fs st i items).Perm (foundItems fs st i items1)
  | [], items1, st, i, h => by
    simp only [ReorderedItems] at h
    subst h
    exact List.Perm.refl _
  | child :: rest, items1, st, i, h => by
    simp only [ReorderedItems] at h
    obtain ⟨child1, rest1, h1, h2, rfl⟩ := h
    simp only [foundItems]
    exact List.Perm.append (foundStacks_reordered fs child child1 _ h1)
      (foundItems_reordered fs rest rest1 st (i + 1) h2)
end

mutual
theorem Reordered_refl : ∀ D : Value, Reordered D D
  | .object members => by
    simp only [Reordered]
    exact ⟨members, members, ReorderedMembers_refl members, List.Perm.refl _, rfl⟩
  | .array items => by
    simp only [Reordered]
    exact ⟨items, ReorderedItems_refl items, rfl⟩
  | .null => by simp only [Reordered]
  | .bool _ => by simp only [Reordered]
  | .number _ => by simp only [Reordered]
  | .string _ => by simp only [Reordered]
  | .int _ => by simp only [Reordered]
  | .uint8 _ => by simp only [Reordered]
theorem ReorderedMembers_refl : ∀ members : List (String × Value),
    ReorderedMembers members members
  | [] => by simp only [ReorderedMembers]
  | (key, child) :: rest => by
    simp only [ReorderedMembers]
    exact ⟨child, rest, Reordered_refl child, ReorderedMembers_refl rest, rfl⟩
theorem ReorderedItems_refl : ∀ items : List Value, ReorderedItems items items
  | [] => by simp only [ReorderedItems]
  | child :: rest => by
    simp only [ReorderedItems]
    exact ⟨child, rest, Reordered_refl child, ReorderedItems_refl rest, rfl⟩
end

/-- A mapping with its members listed in another order is a reordering of it. -/
theorem Reordered_of_perm (members members1 : List (String × Value))
    (h : members.Perm members1) : Reordered (.object members) (.object members1) := by
  simp only [Reordered]
  exact ⟨members, members1, ReorderedMembers_refl members, h, rfl⟩

/-- C27 (order independence): for every selector `..f1.….fn` and every two documents that
differ only in the order in which the members of their mappings are enumerated, at any
depth, the paths that `FindResults` records for one are a permutation of the paths it
records for the other, and so are the paths of `getPaths` and the operations of
`updateAnnotations` when the selector text passes the gate and parses to the selector. -/
theorem order_independence (lib : Lib) (whsvr : WebhookServer) (req : AdmissionRequest)
    (name jPath : String) (fs : List String) (D D1 : Value) (h : Reordered D D1) :
    (FindPaths (FindResults lib (selectorPath name fs) D).2).Perm
      (FindPaths (FindResults lib (selectorPath name fs) D1).2) ∧
    (StartsWithRecursive jPath = true →
      lib.Parse whsvr.userAnnotationKey ("\x7b" ++ jPath ++ "\x7d") = .ok (selectorNodes fs) →
      (getPaths lib { whsvr with unmarshalledReq := D } jPath).1.Perm
        (getPaths lib { whsvr with unmarshalledReq := D1 } jPath).1 ∧
      (updateAnnotations lib { whsvr with unmarshalledReq := D } jPath req).1.Perm
        (updateAnnotations lib { whsvr with unmarshalledReq := D1 } jPath req).1) := by
  have hperm : ((foundStacks fs [Root] D).map pathJoin).Perm
      ((foundStacks fs [Root] D1).map pathJoin) :=
    (foundStacks_reordered fs D D1 [Root] h).map _
  constructor
  · rw [FindPaths_selectorPath, FindPaths_selectorPath]
    exact hperm
  · intro hgate hparse
    have hg := getPaths_selector lib { whsvr with unmarshalledReq := D } jPath fs hgate hparse
    have hg1 := getPaths_selector lib { whsvr with unmarshalledReq := D1 } jPath fs hgate hparse
    constructor
    · rw [hg, hg1]
      exact hperm
    · unfold updateAnnotations
      rw [hg, hg1]
      exact hperm.map _

theorem prependPaths_withPaths (ps qs : List String) (j : JSONPath) :
    withPaths (prependPaths ps j) qs = prependPaths ps (withPaths j qs) := by
  simp [withPaths, prependPaths]

theorem prependPaths_nil (j : JSONPath) : prependPaths [] j = j := by
  cases j; simp [prependPaths]

theorem prependPaths_emptied (j : JSONPath) : prependPaths j.Paths { j with Paths := [] } = j := by
  cases j; simp [prependPaths]

theorem shift_evalRecursive (ps : List String) (j : JSONPath) (st : List String) (v : Value) :
    evalRecursive (prependPaths ps j) st v =
      ((evalRecursive j st v).1, prependPaths ps (evalRecursive j st v).2) := by
  rw [evalRecursive_eq, evalRecursive_eq, prependPaths_withPaths]
  rfl

theorem shift_evalRecursiveLoop (ps : List String) (input : List Value) (j : JSONPath)
    (result : List Value) :
    evalRecursiveLoop (prependPaths ps j) input result =
      ((evalRecursiveLoop j input result).1,
        prependPaths ps (evalRecursiveLoop j input result).2) := by
  induction input generalizing j result with
  | nil => rfl
  | cons v rest ih =>
    unfold evalRecursiveLoop
    simp only [shift_evalRecursive, ih]

theorem shift_filterElem (lib : Lib) (ps : List String) (evalLeft evalRight : JSONPath →
    List Value → (List Value × GoError) × JSONPath)
    (hL : ∀ j v, evalLeft (prependPaths ps j) v =
      ((evalLeft j v).1, prependPaths ps (evalLeft j v).2))
    (hR : ∀ j v, evalRight (prependPaths ps j) v =
      ((evalRight j v).1, prependPaths ps (evalRight j v).2))
    (operator : String) (input : List Value) (j : JSONPath) (results : List Value)
    (elem : Value) :
    filterElem lib evalLeft evalRight operator input (prependPaths ps j) results elem =
      ((filterElem lib evalLeft evalRight operator input j results elem).1,
        prependPaths ps (filterElem lib evalLeft evalRight operator input j results elem).2) := by
  unfold filterElem
  simp only [hL, hR]
  repeat' split
  all_goals rfl

theorem shift_filterElems (lib : Lib) (ps : List String) (evalLeft evalRight : JSONPath →
    List Value → (List Value × GoError) × JSONPath)
    (hL : ∀ j v, evalLeft (prependPaths ps j) v =
      ((evalLeft j v).1, prependPaths ps (evalLeft j v).2))
    (hR : ∀ j v, evalRight (prependPaths ps j) v =
      ((evalRight j v).1, prependPaths ps (evalRight j v).2))
    (operator : String) (input : List Value) (elems : List Value) (j : JSONPath)
    (results : List Value) :
    filterElems lib evalLeft evalRight operator input (prependPaths ps j) results elems =
      ((filterElems lib evalLeft evalRight operator input j results elems).1,
        prependPaths ps
          (filterElems lib evalLeft evalRight operator input j results elems).2) := by
  induction elems generalizing j results with
  | nil => rfl
  | cons e rest ih =>
    unfold filterElems
    rw [shift_filterElem lib ps evalLeft evalRight hL hR]
    rcases filterElem lib evalLeft evalRight operator input j results e with ⟨flow, j1⟩
    cases flow with
    | next results1 => exact ih j1 results1
    | ret out => rfl

theorem shift_filterValues (lib : Lib) (ps : List String) (evalLeft evalRight : JSONPath →
    List Value → (List Value × GoError) × JSONPath)
    (hL : ∀ j v, evalLeft (prependPaths ps j) v =
      ((evalLeft j v).1, prependPaths ps (evalLeft j v).2))
    (hR : ∀ j v, evalRight (prependPaths ps j) v =
      ((evalRight j v).1, prependPaths ps (evalRight j v).2))
    (operator : String) (input : List Value) (values : List Value) (j : JSONPath)
    (results : List Value) :
    filterValues lib evalLeft evalRight operator input (prependPaths ps j) results values =
      ((filterValues lib evalLeft evalRight operator input j results values).1,
        prependPaths ps
          (filterValues lib evalLeft evalRight operator input j results values).2) := by
  induction values generalizing j results with
  | nil => rfl
  | cons v rest ih =>
    unfold filterValues
    cases v with
    | array items =>
      simp only
      rw [shift_filterElems lib ps evalLeft evalRight hL hR]
      rcases filterElems lib evalLeft evalRight operator input j results items with ⟨flow, j1⟩
      cases flow with
      | next results1 => exact ih j1 results1
      | ret out => rfl
    | _ => rfl

mutual
theorem shift_walk (lib : Lib) (ps : List String) (j : JSONPath) (value : List Value)
    (node : Node) :
    walk lib (prependPaths ps j) value node =
      ((walk lib j value node).1, prependPaths ps (walk lib j value node).2) := by
  cases node with
  | list nodes =>
    unfold walk
    exact shift_evalList lib ps j value nodes
  | filter left right operator =>
    unfold walk
    exact shift_filterValues lib ps _ _ (fun j1 v => shift_evalList lib ps j1 v left)
      (fun j1 v => shift_evalList lib ps j1 v right) operator value value j []
  | recursive =>
    unfold walk
    simp only [shift_evalRecursiveLoop]
  | text t => unfold walk; rfl
  | field f => unfold walk; rfl
  | int i => unfold walk; rfl
  | bool b => unfold walk; rfl
  | float f => unfold walk; rfl
  | array => unfold walk; rfl
  | identifier n => unfold walk; rfl
  | wildcard => unfold walk; rfl
  | union => unfold walk; rfl
termination_by structural node
theorem shift_evalList (lib : Lib) (ps : List String) (j : JSONPath) (value : List Value)
    (nodes : List Node) :
    evalList lib (prependPaths ps j) value nodes =
      ((evalList lib j value nodes).1, prependPaths ps (evalList lib j value nodes).2) := by
  cases nodes with
  | nil => unfold evalList; rfl
  | cons node rest =>
    unfold evalList
    rw [shift_walk lib ps j value node]
    rcases walk lib j value node with ⟨⟨cur, err⟩, j1⟩
    cases err with
    | some e => rfl
    | none => exact shift_evalList lib ps j1 cur rest
termination_by structural nodes
end

theorem shift_findResultsLoop (lib : Lib) (ps : List String) (nodes : List Node)
    (j : JSONPath) (fullResult : List (List Value)) :
    findResultsLoop lib (prependPaths ps j) fullResult nodes =
      ((findResultsLoop lib j fullResult nodes).1,
        prependPaths ps (findResultsLoop lib j fullResult nodes).2) := by
  induction nodes generalizing j fullResult with
  | nil => rfl
  | cons node rest ih =>
    unfold findResultsLoop
    have hcur : (prependPaths ps j).cur = j.cur := rfl
    rw [hcur, shift_walk lib ps j j.cur node]
    rcases walk lib j j.cur node with ⟨⟨results, err⟩, j1⟩
    cases err with
    | some e => rfl
    | none =>
      simp only
      have h1 : (prependPaths ps j1).endRange = j1.endRange := rfl
      have h2 : (prependPaths ps j1).inRange = j1.inRange := rfl
      rw [h1, h2]
      split
      · rfl
      · exact ih j1 _

/-- A call of `FindResults` on a JSONPath that holds paths already returns what it returns
on the JSONPath without them, and leaves them before the paths it records. -/
theorem shift_FindResults (lib : Lib) (ps : List String) (j : JSONPath) (D : Value) :
    FindResults lib (prependPaths ps j) D =
      ((FindResults lib j D).1, prependPaths ps (FindResults lib j D).2) := by
  unfold FindResults
  have hp : (prependPaths ps j).parser = j.parser := rfl
  rw [hp]
  cases hj : j.parser with
  | none => rfl
  | some nodes =>
    simp only
    have hc : ({ fieldToChildren (prependPaths ps j) with cur := [D] } : JSONPath) =
        prependPaths ps { fieldToChildren j with cur := [D] } := by
      unfold fieldToChildren
      rw [hp, hj]
      rfl
    rw [hc]
    exact shift_findResultsLoop lib ps nodes _ []

theorem FindResults_selector_nodes (lib : Lib) (j : JSONPath) (D : Value) (fs : List String)
    (hp : j.parser = some (selectorNodes fs)) :
    (FindResults lib j D).2.parser = some (selectorNodes fs) := by
  unfold FindResults
  rw [hp]
  simp only
  have hc : fieldToChildren j =
      { j with pathToFind := pathJoin fs, children := fs } := by
    unfold fieldToChildren
    rw [hp]
    simp [rootFields_selectorNodes]
  rw [hc]
  unfold selectorNodes
  unfold findResultsLoop
  rw [walk_selector]
  simp only
  split_ifs
  · exact hp
  · simp only [findResultsLoop]
    exact hp

/-- C29: `FindResults` never resets the recorded paths. After a call, `FindPaths` returns
the paths held before the call followed by the paths that the call records, which are
those it records on the same JSONPath with no path held; so after two successive calls it
returns the paths of the first call followed by the paths of the second. For a JSONPath
with the template `..f1.….fn` these are the paths that fresh instances record for the two
documents. A JSONPath fresh from `New` holds no path, and `parseJSONPath` evaluates each
template on a fresh one. -/
theorem paths_never_reset (lib : Lib) (j : JSONPath) (D1 D2 : Value) :
    FindPaths (FindResults lib j D1).2 =
      FindPaths j ++ FindPaths (FindResults lib { j with Paths := [] } D1).2 ∧
    FindPaths (FindResults lib (FindResults lib j D1).2 D2).2 =
      FindPaths (FindResults lib j D1).2 ++
        FindPaths (FindResults lib { (FindResults lib j D1).2 with Paths := [] } D2).2 ∧
    (∀ fs : List String, j.parser = some (selectorNodes fs) →
      FindPaths (FindResults lib (FindResults lib j D1).2 D2).2 =
        FindPaths j ++ FindPaths (FindResults lib (selectorPath j.name fs) D1).2 ++
          FindPaths (FindResults lib (selectorPath j.name fs) D2).2) ∧
    (∀ name : String, FindPaths (New name) = []) ∧
    (∀ (input : Value) (name template : String) (nodes : List Node),
      lib.Parse name template = .ok nodes →
      parseJSONPath lib input name template =
        match FindResults lib
          { AllowMissingKeys (New name) true with parser := some nodes } input with
        | ((_, some err), _) => ([], some err)
        | ((_, none), j2) => (FindPaths j2, none)) := by
  have hshift : ∀ (j0 : JSONPath) (D : Value), FindPaths (FindResults lib j0 D).2 =
      FindPaths j0 ++ FindPaths (FindResults lib { j0 with Paths := [] } D).2 := by
    intro j0 D
    have h := shift_FindResults lib j0.Paths { j0 with Paths := [] } D
    rw [prependPaths_emptied] at h
    rw [h]
    rfl
  refine ⟨hshift j D1, hshift _ D2, ?_, fun _ => rfl, ?_⟩
  · intro fs hp
    have h1 := (FindResults_selector lib j D1 fs hp).2
    have hp1 := FindResults_selector_nodes lib j D1 fs hp
    have h2 := (FindResults_selector lib (FindResults lib j D1).2 D2 fs hp1).2
    unfold FindPaths at *
    rw [h2, h1, (FindResults_selector lib (selectorPath j.name fs) D1 fs rfl).2,
      (FindResults_selector lib (selectorPath j.name fs) D2 fs rfl).2]
    rfl
  · intro input name template nodes hparse
    unfold parseJSONPath
    have hP : Parse lib (AllowMissingKeys (New name) true) template =
        (none, { AllowMissingKeys (New name) true with parser := some nodes }) := by
      unfold Parse
      have : (AllowMissingKeys (New name) true).name = name := rfl
      rw [this, hparse]
      rfl
    simp only [hP]

/-- A mapping with one member is reordered by reordering the value of the member. -/
theorem Reordered_member (key : String) (D D1 : Value) (h : Reordered D D1) :
    Reordered (.object [(key, D)]) (.object [(key, D1)]) := by
  simp only [Reordered, ReorderedMembers]
  exact ⟨[(key, D1)], [(key, D1)], ⟨D1, [], h, rfl, rfl⟩, List.Perm.refl _, rfl⟩

/-- C27 on the document of `TestFindPaths`, with the replica specifications enumerated in
one order and in the reverse order. -/
theorem order_independence_witness :
    Reordered (replicasDoc replicaSpecs) (replicasDoc replicaSpecs.reverse) ∧
    FindPaths (FindResults sampleLib (selectorPath "test" ["metadata", "annotations"])
      (replicasDoc replicaSpecs)).2 =
      ["/spec/tfReplicaSpecs/Ps/template/metadata/annotations",
       "/spec/tfReplicaSpecs/Worker/template/metadata/annotations",
       "/spec/tfReplicaSpecs/Chief/template/metadata/annotations"] ∧
    FindPaths (FindResults sampleLib (selectorPath "test" ["metadata", "annotations"])
      (replicasDoc replicaSpecs.reverse)).2 =
      ["/spec/tfReplicaSpecs/Chief/template/metadata/annotations",
       "/spec/tfReplicaSpecs/Worker/template/metadata/annotations",
       "/spec/tfReplicaSpecs/Ps/template/metadata/annotations"] ∧
    (FindPaths (FindResults sampleLib (selectorPath "test" ["metadata", "annotations"])
      (replicasDoc replicaSpecs)).2).Perm
      (FindPaths (FindResults sampleLib (selectorPath "test" ["metadata", "annotations"])
        (replicasDoc replicaSpecs.reverse)).2) :=
  ⟨Reordered_member _ _ _ (Reordered_member _ _ _
      (Reordered_of_perm _ _ (List.reverse_perm replicaSpecs).symm)),
    by decide, by decide,
    (order_independence sampleLib (sampleServer Value.null (fun _ => none))
      (sampleRequest "tfjobs" "testUser") "test" "..metadata.annotations"
      ["metadata", "annotations"] (replicasDoc replicaSpecs)
      (replicasDoc replicaSpecs.reverse)
      (Reordered_member _ _ _ (Reordered_member _ _ _
        (Reordered_of_perm _ _ (List.reverse_perm replicaSpecs).symm)))).1⟩

/-- C29 on two successive calls of one JSONPath with the template
`..metadata.annotations`, on the document of `TestFindPath_annotations` and then on that
of `TestFindPath_pod_annotations`. -/
theorem paths_never_reset_witness :
    (selectorPath "test" ["metadata", "annotations"]).parser =
      some (selectorNodes ["metadata", "annotations"]) ∧
    FindPaths (FindResults sampleLib (selectorPath "test" ["metadata", "annotations"])
      annotationsDoc).2 = ["/spec/tfReplicaSpecs/Ps/template/metadata/annotations"] ∧
    FindPaths (FindResults sampleLib
      (FindResults sampleLib (selectorPath "test" ["metadata", "annotations"])
        annotationsDoc).2 podDoc).2 =
      ["/spec/tfReplicaSpecs/Ps/template/metadata/annotations", "/metadata/annotations"] :=
  ⟨rfl, by decide,
    ((paths_never_reset sampleLib (selectorPath "test" ["metadata", "annotations"])
      annotationsDoc podDoc).2.2.1 ["metadata", "annotations"] rfl).trans (by decide)⟩

/-! ## The paths of the operations as JSON Pointers: claim C25 -/

/-- C25, as stated, fails: no key is escaped. With the annotation key `example.com/user`
the operation for the object of `TestFindPath_pod_annotations` has the path
`/metadata/annotations/example.com/user`, which as a JSON Pointer designates the member
`user` of a member `example.com`, not the member `example.com/user` of the matched
mapping; with the annotation key `a~1b` the path designates the member `a/b`. And in the
document `{"a/b": {"annotations": {}}}` the path of the operation for the matched mapping,
whose key chain is `a/b`, `annotations`, names the keys `a` and `b` in place of `a/b`. -/
theorem unescaped_key_misread :
    createPatch sampleLib
      { sampleServer podDoc annotationsConfigs with userAnnotationKey := "example.com/user" }
      (sampleRequest "pods" "alice") =
      ([{ Op := "add", Path := "/metadata/annotations/example.com/user", Value := "alice" }],
        none) ∧
    pointerTokens "/metadata/annotations/example.com/user" =
      some ["metadata", "annotations", "example.com", "user"] ∧
    pointerTokens "/metadata/annotations/example.com/user" ≠
      some ["metadata", "annotations", "example.com/user"] ∧
    createPatch sampleLib
      { sampleServer podDoc annotationsConfigs with userAnnotationKey := "a~1b" }
      (sampleRequest "pods" "alice") =
      ([{ Op := "add", Path := "/metadata/annotations/a~1b", Value := "alice" }], none) ∧
    pointerTokens "/metadata/annotations/a~1b" = some ["metadata", "annotations", "a/b"] ∧
    pointerTokens "/metadata/annotations/a~1b" ≠ some ["metadata", "annotations", "a~1b"] ∧
    ["a/b", "annotations"] ∈ keyChains slashKeyDoc ∧
    createPatch sampleLib (sampleServer slashKeyDoc annotationsOnlyConfigs)
      (sampleRequest "pods" "alice") =
      ([{ Op := "add", Path := "/a/b/annotations/iddecorator.username", Value := "alice" }],
        none) ∧
    pointerTokens "/a/b/annotations/iddecorator.username" =
      some ["a", "b", "annotations", "iddecorator.username"] ∧
    pointerTokens "/a/b/annotations/iddecorator.username" ≠
      some ["a/b", "annotations", "iddecorator.username"] := by
  decide

/-- C25, amended: let the annotation key be a plain name without a tilde, and take any
document and any selector `..f1.….fn`. Every operation that `updateAnnotations` emits is
the `add` for a stack of segments that the walk records, and when that stack is the root
followed by the key chain of a location reached through members of mappings whose keys
are plain names without a tilde, the path of the operation, read as a JSON Pointer,
designates the member with the annotation key of that location. Conversely, for every
such location whose stack ends with the fields and none of whose proper ancestors matches,
the operation is emitted and its path designates the member with the annotation key of
the location. -/
theorem pointer_designates_member (lib : Lib) (whsvr : WebhookServer)
    (req : AdmissionRequest) (jPath : String) (fs : List String)
    (hgate : StartsWithRecursive jPath = true)
    (hparse : lib.Parse whsvr.userAnnotationKey ("\x7b" ++ jPath ++ "\x7d") =
      .ok (selectorNodes fs))
    (hk : plainName whsvr.userAnnotationKey = true)
    (htk : '~' ∉ whsvr.userAnnotationKey.data) :
    (∀ op ∈ (updateAnnotations lib whsvr jPath req).1,
      ∃ ks, Root :: ks ∈ foundStacks fs [Root] whsvr.unmarshalledReq ∧
        fs <:+ Root :: ks ∧
        op = patchOp (pathJoin [pathJoin (Root :: ks), whsvr.userAnnotationKey])
          req.UserInfo.Username ∧
        (ks ∈ keyChains whsvr.unmarshalledReq →
          (∀ x ∈ ks, plainName x = true ∧ '~' ∉ x.data) →
          pointerTokens op.Path = some (ks ++ [whsvr.userAnnotationKey]))) ∧
    (∀ ks ∈ keyChains whsvr.unmarshalledReq, fs <:+ Root :: ks →
      (∀ ks1, ks1 <+: ks → ks1 ≠ ks → ¬ fs <:+ Root :: ks1) →
      (∀ x ∈ ks, plainName x = true ∧ '~' ∉ x.data) →
      patchOp (pathJoin [pathJoin (Root :: ks), whsvr.userAnnotationKey])
          req.UserInfo.Username ∈ (updateAnnotations lib whsvr jPath req).1 ∧
        pointerTokens (pathJoin [pathJoin (Root :: ks), whsvr.userAnnotationKey]) =
          some (ks ++ [whsvr.userAnnotationKey])) := by
  have hops : (updateAnnotations lib whsvr jPath req).1 =
      ((foundStacks fs [Root] whsvr.unmarshalledReq).map pathJoin).map (fun fpath =>
        patchOp (pathJoin [fpath, whsvr.userAnnotationKey]) req.UserInfo.Username) := by
    unfold updateAnnotations
    rw [getPaths_selector lib whsvr jPath fs hgate hparse]
  have htok : ∀ ks : List String, (∀ x ∈ ks, plainName x = true ∧ '~' ∉ x.data) →
      pointerTokens (pathJoin [pathJoin (Root :: ks), whsvr.userAnnotationKey]) =
        some (ks ++ [whsvr.userAnnotationKey]) := by
    intro ks hks
    apply pointerTokens_pathJoin ks _ (fun x hx => (hks x hx).1) hk
    intro x hx
    rcases List.mem_append.1 hx with h | h
    · exact (hks x h).2
    · rw [List.mem_singleton.1 h]
      exact htk
  constructor
  · intro op hop
    rw [hops] at hop
    simp only [List.mem_map] at hop
    obtain ⟨p, ⟨s, hs, rfl⟩, rfl⟩ := hop
    have hsound := foundStacks_sound fs [Root] whsvr.unmarshalledReq s hs
    obtain ⟨ks, rfl⟩ := hsound.1
    exact ⟨ks, hs, hsound.2, rfl, fun _ hplain => htok ks hplain⟩
  · intro ks hks hm hfirst hplain
    refine ⟨?_, htok ks hplain⟩
    rw [hops]
    exact List.mem_map.2 ⟨_, List.mem_map.2 ⟨Root :: ks,
      foundStacks_complete fs [Root] whsvr.unmarshalledReq ks hks hm hfirst, rfl⟩, rfl⟩

/-- C25, amended, on a pod with a sequence of containers: the operation for the mapping
`annotations` is emitted and its path designates the member with the annotation key of
that mapping. -/
theorem pointer_designates_member_witness :
    plainName (sampleServer podWithContainersDoc annotationsConfigs).userAnnotationKey =
      true ∧
    ["metadata", "annotations"] ∈ keyChains podWithContainersDoc ∧
    (updateAnnotations sampleLib (sampleServer podWithContainersDoc annotationsConfigs)
      "..metadata.annotations" (sampleRequest "pods" "alice")).1 =
      [{ Op := "add", Path := "/metadata/annotations/iddecorator.username",
         Value := "alice" }] ∧
    pointerTokens (pathJoin [pathJoin (Root :: ["metadata", "annotations"]), UserAnnotation]) =
      some (["metadata", "annotations"] ++ [ UserAnnotation]) :=
  ⟨by decide, by decide, by decide,
    ((pointer_designates_member sampleLib
      (sampleServer podWithContainersDoc annotationsConfigs)
      (sampleRequest "pods" "alice") "..metadata.annotations" ["metadata", "annotations"]
      (by decide) (by rfl) (by decide) (by decide)).2 ["metadata", "annotations"]
      (by decide) (by decide)
      (by
        intro ks1 hp
        have h : ∀ x ∈ List.inits ["metadata", "annotations"],
            x ≠ ["metadata", "annotations"] →
            ¬ ["metadata", "annotations"] <:+ Root :: x := by decide
        exact h ks1 ((List.mem_inits _ _).2 hp))
      (by decide)).2⟩

/-! ## The health endpoints: claims C22 and C30 -/

theorem collectChecks_status : ∀ (checks : List (String × Check))
    (resultsOut : List (String × String)) (statusOut : Nat),
    (collectChecks checks resultsOut statusOut).2 =
      if checks.any (fun c => (c.2 ()).isSome) then StatusServiceUnavailable else statusOut
  | [], _, _ => rfl
  | (name, check) :: rest, resultsOut, statusOut => by
    unfold collectChecks
    cases hc : check () with
    | some err =>
      simp only [collectChecks_status rest, List.any_cons, hc, Option.isSome_some,
        Bool.true_or, if_true]
      split <;> rfl
    | none =>
      simp only [collectChecks_status rest, List.any_cons, hc, Option.isSome_none,
        Bool.false_or]

theorem writeBody_status (w : ResponseWriter) (data : String) (code : Nat)
    (h : w.status = some code) : (writeBody w data).2.status = some code := by
  unfold writeBody writeHeader
  simp only [h]
  split
  · exact h
  · split
    · exact h
    · rfl

/-- The status with which `handle` answers a GET on a writer whose header is not written
yet. -/
theorem handle_status (encode : List (String × String) → String) (w : ResponseWriter)
    (r : HttpRequest) (checks : List (List (String × Check))) (hget : r.Method = "GET")
    (hw : w.status = none) :
    (handle encode w r checks).status = some (collectAll checks [] StatusOK).2 := by
  have h1 : (writeHeader w (collectAll checks [] StatusOK).2).status =
      some (collectAll checks [] StatusOK).2 := by
    unfold writeHeader
    rw [hw]
  unfold handle
  rw [if_neg (by simp [hget])]
  simp only
  split
  · exact writeBody_status _ _ _ h1
  · exact writeBody_status _ _ _ h1

theorem any_failing_iff (checks : List (String × Check)) :
    checks.any (fun c => (c.2 ()).isSome) = true ↔ ∃ c ∈ checks, (c.2 ()).isSome = true := by
  simp [List.any_eq_true]

theorem all_passing_iff (checks : List (String × Check)) :
    ¬ checks.any (fun c => (c.2 ()).isSome) = true ↔ ∀ c ∈ checks, c.2 () = none := by
  rw [any_failing_iff]
  constructor
  · intro h c hc
    cases hv : c.2 () with
    | none => rfl
    | some e => exact absurd ⟨c, hc, by rw [hv]; rfl⟩ h
  · rintro h ⟨c, hc, hs⟩
    rw [h c hc] at hs
    exact absurd hs (by simp)

/-- The status that the two maps of `ReadyEndpoint` give. -/
theorem collectAll_ready_status (s : basicHandler) :
    (collectAll [s.readinessChecks, s.livenessChecks] [] StatusOK).2 =
      if (s.readinessChecks ++ s.livenessChecks).any (fun c => (c.2 ()).isSome) then
        StatusServiceUnavailable else StatusOK := by
  simp only [collectAll, collectChecks_status, List.any_append]
  by_cases h1 : s.readinessChecks.any (fun c => (c.2 ()).isSome) = true <;>
    by_cases h2 : s.livenessChecks.any (fun c => (c.2 ()).isSome) = true <;>
    simp [h1, h2]

/-- The status that the map of `LiveEndpoint` gives. -/
theorem collectAll_live_status (s : basicHandler) :
    (collectAll [s.livenessChecks] [] StatusOK).2 =
      if s.livenessChecks.any (fun c => (c.2 ()).isSome) then
        StatusServiceUnavailable else StatusOK := by
  simp only [collectAll, collectChecks_status]

theorem mem_mapAssign {α : Type} : ∀ (m : List (String × α)) (name : String) (value : α),
    (name, value) ∈ mapAssign m name value
  | [], _, _ => List.mem_cons_self _ _
  | (k, x) :: rest, name, value => by
    unfold mapAssign
    split
    · exact List.mem_cons_self _ _
    · exact List.mem_cons_of_mem _ (mem_mapAssign rest name value)

/-- The status with which `ReadyEndpoint` answers a GET. -/
theorem ReadyEndpoint_status (encode : List (String × String) → String)
    (s : basicHandler) (w : ResponseWriter) (r : HttpRequest) (hget : r.Method = "GET")
    (hw : w.status = none) :
    (ReadyEndpoint encode s w r).status =
      some (if (s.readinessChecks ++ s.livenessChecks).any (fun c => (c.2 ()).isSome) then
        StatusServiceUnavailable else StatusOK) := by
  unfold ReadyEndpoint
  rw [handle_status encode w r _ hget hw, collectAll_ready_status]

/-- The status with which `LiveEndpoint` answers a GET. -/
theorem LiveEndpoint_status (encode : List (String × String) → String)
    (s : basicHandler) (w : ResponseWriter) (r : HttpRequest) (hget : r.Method = "GET")
    (hw : w.status = none) :
    (LiveEndpoint encode s w r).status =
      some (if s.livenessChecks.any (fun c => (c.2 ()).isSome) then
        StatusServiceUnavailable else StatusOK) := by
  unfold LiveEndpoint
  rw [handle_status encode w r _ hget hw, collectAll_live_status]

/-- C22: every liveness check is also a readiness check. A check that returns an error
and is registered with `AddLivenessCheck` makes both `ReadyEndpoint` and `LiveEndpoint`
answer a GET with 503; one registered with `AddReadinessCheck` makes `ReadyEndpoint`
answer with 503 and leaves the answer of `LiveEndpoint` as it was. In general
`ReadyEndpoint` answers with 503 exactly when a registered readiness check or a registered
liveness check returns an error, and with 200 exactly when all of them succeed;
`LiveEndpoint` answers with 503 exactly when a liveness check returns an error and with
200 exactly when all liveness checks succeed, whatever the readiness checks are. -/
theorem ready_includes_liveness (encode : List (String × String) → String)
    (s : basicHandler) (w : ResponseWriter) (r : HttpRequest) (hget : r.Method = "GET")
    (hw : w.status = none) :
    ((ReadyEndpoint encode s w r).status = some StatusServiceUnavailable ↔
      ∃ c ∈ s.readinessChecks ++ s.livenessChecks, (c.2 ()).isSome = true) ∧
    ((ReadyEndpoint encode s w r).status = some StatusOK ↔
      ∀ c ∈ s.readinessChecks ++ s.livenessChecks, c.2 () = none) ∧
    ((LiveEndpoint encode s w r).status = some StatusServiceUnavailable ↔
      ∃ c ∈ s.livenessChecks, (c.2 ()).isSome = true) ∧
    ((LiveEndpoint encode s w r).status = some StatusOK ↔
      ∀ c ∈ s.livenessChecks, c.2 () = none) ∧
    (∀ checks : List (String × Check),
      LiveEndpoint encode { s with readinessChecks := checks } w r =
        LiveEndpoint encode s w r) ∧
    (∀ (name : String) (check : Check), (check ()).isSome = true →
      (ReadyEndpoint encode (AddLivenessCheck s name check) w r).status =
        some StatusServiceUnavailable ∧
      (LiveEndpoint encode (AddLivenessCheck s name check) w r).status =
        some StatusServiceUnavailable) ∧
    (∀ (name : String) (check : Check), (check ()).isSome = true →
      (ReadyEndpoint encode (AddReadinessCheck s name check) w r).status =
        some StatusServiceUnavailable ∧
      LiveEndpoint encode (AddReadinessCheck s name check) w r =
        LiveEndpoint encode s w r) := by
  have hr := ReadyEndpoint_status encode s w r hget hw
  have hl := LiveEndpoint_status encode s w r hget hw
  have hcode : ∀ b : Bool, (some (if b = true then StatusServiceUnavailable else StatusOK) =
      some StatusServiceUnavailable ↔ b = true) ∧
      (some (if b = true then StatusServiceUnavailable else StatusOK) = some StatusOK ↔
        ¬ b = true) := by
    intro b
    cases b <;> simp [StatusServiceUnavailable, StatusOK]
  refine ⟨?_, ?_, ?_, ?_, fun _ => rfl, ?_, ?_⟩
  · rw [hr, (hcode _).1, any_failing_iff]
  · rw [hr, (hcode _).2, all_passing_iff]
  · rw [hl, (hcode _).1, any_failing_iff]
  · rw [hl, (hcode _).2, all_passing_iff]
  · intro name check hfail
    have hmem : (name, check) ∈ (AddLivenessCheck s name check).livenessChecks :=
      mem_mapAssign s.livenessChecks name check
    constructor
    · rw [ReadyEndpoint_status encode _ w r hget hw, (hcode _).1, any_failing_iff]
      exact ⟨(name, check), List.mem_append_right _ hmem, hfail⟩
    · rw [LiveEndpoint_status encode _ w r hget hw, (hcode _).1, any_failing_iff]
      exact ⟨(name, check), hmem, hfail⟩
  · intro name check hfail
    have hmem : (name, check) ∈ (AddReadinessCheck s name check).readinessChecks :=
      mem_mapAssign s.readinessChecks name check
    constructor
    · rw [ReadyEndpoint_status encode _ w r hget hw, (hcode _).1, any_failing_iff]
      exact ⟨(name, check), List.mem_append_left _ hmem, hfail⟩
    · rfl

/-- C22 on the handler of main.go before the first background dial has returned: the
liveness check registered with `AddLivenessCheck` fails with `no data yet`, the readiness
dial succeeds, and both `/ready` and `/live` answer 503. With a liveness check that
succeeds and a readiness dial that fails, `/ready` answers 503 and `/live` 200. -/
theorem ready_includes_liveness_witness :
    (healthRequest "").Method = "GET" ∧ (freshWriter none).status = none ∧
    (ReadyEndpoint sampleEncodeResults
      (AddLivenessCheck (AddReadinessCheck NewHandler "iddeployer connectivity" (fun _ => none))
        "iddeployer connectivity" (fun _ => some "no data yet"))
      (freshWriter none) (healthRequest "")).status = some StatusServiceUnavailable ∧
    (LiveEndpoint sampleEncodeResults
      (AddLivenessCheck (AddReadinessCheck NewHandler "iddeployer connectivity" (fun _ => none))
        "iddeployer connectivity" (fun _ => some "no data yet"))
      (freshWriter none) (healthRequest "")).status = some StatusServiceUnavailable ∧
    (ReadyEndpoint sampleEncodeResults
      (connectivityHandler (fun _ => some "no data yet") (fun _ => none))
      (freshWriter none) (healthRequest "")).status = some StatusServiceUnavailable ∧
    (ReadyEndpoint sampleEncodeResults
      (connectivityHandler (fun _ => none) (fun _ => some "dial tcp: i/o timeout"))
      (freshWriter none) (healthRequest "")).status = some StatusServiceUnavailable ∧
    (LiveEndpoint sampleEncodeResults
      (connectivityHandler (fun _ => none) (fun _ => some "dial tcp: i/o timeout"))
      (freshWriter none) (healthRequest "")).status = some StatusOK ∧
    (ReadyEndpoint sampleEncodeResults
      (connectivityHandler (fun _ => none) (fun _ => none))
      (freshWriter none) (healthRequest "")).status = some StatusOK :=
  ⟨rfl, rfl,
    ((ready_includes_liveness sampleEncodeResults
      (AddReadinessCheck NewHandler "iddeployer connectivity" (fun _ => none))
      (freshWriter none) (healthRequest "") rfl rfl).2.2.2.2.2.1
      "iddeployer connectivity" (fun _ => some "no data yet") rfl).1,
    ((ready_includes_liveness sampleEncodeResults
      (AddReadinessCheck NewHandler "iddeployer connectivity" (fun _ => none))
      (freshWriter none) (healthRequest "") rfl rfl).2.2.2.2.2.1
      "iddeployer connectivity" (fun _ => some "no data yet") rfl).2,
    by decide, by decide, by decide, by decide⟩

theorem mapAssign_fresh {α : Type} : ∀ (m : List (String × α)) (name : String) (value : α),
    name ∉ m.map Prod.fst → mapAssign m name value = m ++ [(name, value)]
  | [], _, _, _ => rfl
  | (k, x) :: rest, name, value, h => by
    have hk : k ≠ name := fun e => h (by simp [e])
    have hr : name ∉ rest.map Prod.fst := fun hm => h (by simp at hm ⊢; exact Or.inr hm)
    unfold mapAssign
    rw [if_neg hk, mapAssign_fresh rest name value hr]
    rfl

/-- The results of `collectChecks` for checks whose names are distinct and are not among
the results yet: one new entry for each check, in the order of the checks. -/
theorem collectChecks_fresh : ∀ (checks : List (String × Check))
    (resultsOut : List (String × String)) (statusOut : Nat),
    (resultsOut.map Prod.fst ++ checks.map Prod.fst).Nodup →
    (collectChecks checks resultsOut statusOut).1 =
      resultsOut ++ checks.map (fun c => (c.1, (c.2 ()).getD "OK"))
  | [], resultsOut, _, _ => by simp [collectChecks]
  | (name, check) :: rest, resultsOut, statusOut, h => by
    have hfresh : name ∉ resultsOut.map Prod.fst := by
      intro hm
      rw [List.nodup_append] at h
      exact h.2.2 hm (List.mem_cons_self _ _)
    have hnext : ∀ text : String,
        ((resultsOut ++ [(name, text)]).map Prod.fst ++ rest.map Prod.fst).Nodup := by
      intro text
      simpa [List.map_append, List.append_assoc] using h
    unfold collectChecks
    cases hc : check () with
    | some err =>
      simp only
      rw [mapAssign_fresh resultsOut name err hfresh,
        collectChecks_fresh rest _ _ (hnext err)]
      simp [hc]
    | none =>
      simp only
      rw [mapAssign_fresh resultsOut name "OK" hfresh,
        collectChecks_fresh rest _ _ (hnext "OK")]
      simp [hc]

/-- A check that fails with a text other than `OK` leaves an entry that is not `OK`. -/
theorem failed_entry (checks : List (String × Check))
    (hmsg : ∀ c ∈ checks, c.2 () ≠ some "OK")
    (h : ∃ c ∈ checks, (c.2 ()).isSome = true) :
    ∃ e ∈ checks.map (fun c => (c.1, (c.2 ()).getD "OK")), e.2 ≠ "OK" := by
  obtain ⟨c, hc, hs⟩ := h
  refine ⟨(c.1, (c.2 ()).getD "OK"), List.mem_map.2 ⟨c, hc, rfl⟩, ?_⟩
  cases hv : c.2 () with
  | none => rw [hv] at hs; exact absurd hs (by simp)
  | some err =>
    intro he
    apply hmsg c hc
    rw [hv]
    simpa using he

/-- C30, as stated, fails in two ways. On the handler of main.go, whose readiness check
and liveness check share the name `iddeployer connectivity`, a failed readiness dial makes
`/ready` answer 503, and the liveness check that succeeds after it overwrites the entry:
the map of results holds `OK` alone. And a check that fails with the error text `OK`
leaves the entry `OK`. -/
theorem failed_check_shown_as_ok :
    (ReadyEndpoint sampleEncodeResults
      (connectivityHandler (fun _ => none) (fun _ => some "dial tcp: i/o timeout"))
      (freshWriter none) (healthRequest "1")) =
      { status := some 503,
        body := "\x7b\n    \"iddeployer connectivity\": \"OK\"\n\x7d\n",
        writeError := none } ∧
    collectAll
      [(connectivityHandler (fun _ => none)
          (fun _ => some "dial tcp: i/o timeout")).readinessChecks,
        (connectivityHandler (fun _ => none)
          (fun _ => some "dial tcp: i/o timeout")).livenessChecks] [] StatusOK =
      ([("iddeployer connectivity", "OK")], 503) ∧
    (LiveEndpoint sampleEncodeResults
      (AddLivenessCheck NewHandler "disk" (fun _ => some "OK"))
      (freshWriter none) (healthRequest "1")) =
      { status := some 503, body := "\x7b\n    \"disk\": \"OK\"\n\x7d\n",
        writeError := none } ∧
    collectAll [(AddLivenessCheck NewHandler "disk" (fun _ => some "OK")).livenessChecks] []
      StatusOK = ([("disk", "OK")], 503) := by
  decide

theorem handle_body (encode : List (String × String) → String) (w : ResponseWriter)
    (r : HttpRequest) (checks : List (List (String × Check))) (hget : r.Method = "GET")
    (hfull : r.Full = "1") (hconn : w.writeError = none) :
    (handle encode w r checks).body = w.body ++ encode (collectAll checks [] StatusOK).1 := by
  unfold handle
  rw [if_neg (by simp [hget]), if_neg (by simp [hfull])]
  unfold writeBody
  have hb : ∀ code code1 : Nat, (writeHeader (writeHeader w code) code1).body = w.body := by
    intro code code1
    unfold writeHeader
    repeat' split
    all_goals rfl
  have he : ∀ code code1 : Nat,
      (writeHeader (writeHeader w code) code1).writeError = none := by
    intro code code1
    unfold writeHeader
    repeat' split
    all_goals exact hconn
  split
  · rename_i hd
    rw [hd, hb]
    simp
  · simp only [he, hb]

/-- C30, amended: let no registered check fail with the error text `OK`. When
`LiveEndpoint` answers a GET with 503, its map of results has an entry that is not `OK`;
so has the map of `ReadyEndpoint` when it answers with 503, provided that no readiness
check is registered under the name of a liveness check. With `full=1` and a connection
that takes the data, the body is the encoding of that map. -/
theorem unavailable_shows_failed_check (encode : List (String × String) → String)
    (s : basicHandler) (w : ResponseWriter) (r : HttpRequest) (hget : r.Method = "GET")
    (hw : w.status = none)
    (hl : (s.livenessChecks.map Prod.fst).Nodup)
    (hr : (s.readinessChecks.map Prod.fst).Nodup)
    (hmsg : ∀ c ∈ s.readinessChecks ++ s.livenessChecks, c.2 () ≠ some "OK") :
    ((LiveEndpoint encode s w r).status = some StatusServiceUnavailable →
      ∃ e ∈ (collectAll [s.livenessChecks] [] StatusOK).1, e.2 ≠ "OK") ∧
    ((∀ c ∈ s.readinessChecks, c.1 ∉ s.livenessChecks.map Prod.fst) →
      (ReadyEndpoint encode s w r).status = some StatusServiceUnavailable →
      ∃ e ∈ (collectAll [s.readinessChecks, s.livenessChecks] [] StatusOK).1, e.2 ≠ "OK") ∧
    (r.Full = "1" → w.writeError = none →
      (LiveEndpoint encode s w r).body =
        w.body ++ encode (collectAll [s.livenessChecks] [] StatusOK).1 ∧
      (ReadyEndpoint encode s w r).body =
        w.body ++ encode (collectAll [s.readinessChecks, s.livenessChecks] [] StatusOK).1) := by
  refine ⟨?_, ?_, ?_⟩
  · intro hst
    unfold LiveEndpoint at hst
    rw [handle_status encode w r _ hget hw, collectAll_live_status] at hst
    have hany : s.livenessChecks.any (fun c => (c.2 ()).isSome) = true := by
      by_contra hn
      rw [if_neg hn] at hst
      exact absurd hst (by decide)
    have hres : (collectAll [s.livenessChecks] [] StatusOK).1 =
        s.livenessChecks.map (fun c => (c.1, (c.2 ()).getD "OK")) := by
      simp only [collectAll]
      rw [collectChecks_fresh s.livenessChecks [] StatusOK (by simpa using hl)]
      rfl
    rw [hres]
    exact failed_entry s.livenessChecks
      (fun c hc => hmsg c (List.mem_append_right _ hc)) ((any_failing_iff _).1 hany)
  · intro hdisj hst
    unfold ReadyEndpoint at hst
    rw [handle_status encode w r _ hget hw, collectAll_ready_status] at hst
    have hany : (s.readinessChecks ++ s.livenessChecks).any (fun c => (c.2 ()).isSome) =
        true := by
      by_contra hn
      rw [if_neg hn] at hst
      exact absurd hst (by decide)
    have hnames : (s.readinessChecks.map Prod.fst ++ s.livenessChecks.map Prod.fst).Nodup := by
      rw [List.nodup_append]
      refine ⟨hr, hl, ?_⟩
      intro name h1 h2
      rcases List.mem_map.1 h1 with ⟨c, hc, rfl⟩
      exact hdisj c hc h2
    have h1 : (collectChecks s.readinessChecks [] StatusOK).1 =
        s.readinessChecks.map (fun c => (c.1, (c.2 ()).getD "OK")) := by
      rw [collectChecks_fresh s.readinessChecks [] StatusOK (by simpa using hr)]
      rfl
    have hres : (collectAll [s.readinessChecks, s.livenessChecks] [] StatusOK).1 =
        (s.readinessChecks ++ s.livenessChecks).map (fun c => (c.1, (c.2 ()).getD "OK")) := by
      simp only [collectAll]
      rw [collectChecks_fresh s.livenessChecks _ _ (by
        rw [h1, List.map_map]
        exact hnames), h1, List.map_append]
    rw [hres]
    exact failed_entry _ hmsg ((any_failing_iff _).1 hany)
  · intro hfull hconn
    exact ⟨handle_body encode w r _ hget hfull hconn, handle_body encode w r _ hget hfull hconn⟩

/-- C30, amended, on a handler whose readiness check and liveness check have names of
their own: the readiness dial fails, `/ready` answers 503 and the map shows the error. -/
theorem unavailable_shows_failed_check_witness :
    (healthRequest "1").Method = "GET" ∧ (freshWriter none).status = none ∧
    ReadyEndpoint sampleEncodeResults
      (AddReadinessCheck (AddLivenessCheck NewHandler "iddeployer connectivity" (fun _ => none))
        "apiserver dial" (fun _ => some "dial tcp: i/o timeout"))
      (freshWriter none) (healthRequest "1") =
      { status := some 503,
        body := "\x7b\n    \"apiserver dial\": \"dial tcp: i/o timeout\",\n" ++
          "    \"iddeployer connectivity\": \"OK\"\n\x7d\n",
        writeError := none } ∧
    (∃ e ∈ (collectAll
        [(AddReadinessCheck
            (AddLivenessCheck NewHandler "iddeployer connectivity" (fun _ => none))
            "apiserver dial" (fun _ => some "dial tcp: i/o timeout")).readinessChecks,
          (AddReadinessCheck
            (AddLivenessCheck NewHandler "iddeployer connectivity" (fun _ => none))
            "apiserver dial" (fun _ => some "dial tcp: i/o timeout")).livenessChecks]
        [] StatusOK).1, e.2 ≠ "OK") :=
  ⟨rfl, rfl, by decide,
    (unavailable_shows_failed_check sampleEncodeResults
      (AddReadinessCheck (AddLivenessCheck NewHandler "iddeployer connectivity" (fun _ => none))
        "apiserver dial" (fun _ => some "dial tcp: i/o timeout"))
      (freshWriter none) (healthRequest "1") rfl rfl (by decide) (by decide)
      (by decide)).2.1 (by decide) (by decide)⟩

end Kube2Hadoop
